import Mathlib

/-!
UpdateFetcher: the schema-migration reconciliation pass.

A shallow embedding of `src/server/shared/Updater/UpdateFetcher.cpp`.

* The three injected callbacks are modelled by their observable effect:
  `_retrieve` by the rows it returns (the include rows of the `World`, the
  rows of the ledger), `_apply` and `_applyFile` by an `Event` appended to
  the trace of the pass.
* The file system primitives of boost (`directory_iterator`,
  `is_directory`), the bytes of a file, the SHA-1 digest and the wall clock
  are fields of the `World`.
* The ledger is the table `updates`, a list of rows keyed by name, and is
  changed only by the statements of the trace (`Stmt.exec`).
* The map from name to record is an unordered map: the order in which
  the pass iterates it to fill the hash to name cache is a field of the
  `World`, any permutation of its records.
* The model covers passes in which every file that is read can be opened
  and in which the callbacks return.
-/

namespace UpdateFetcher

/-! ## Paths -/

/-- A path in its generic string form. -/
abbrev Path := String

/-- The last component of a path that does not end in a separator
(`path::filename`). -/
def filename (p : Path) : String :=
  String.mk ((p.data.reverse.takeWhile (fun c => c != '/')).reverse)

/-- The extension of a path (`path::extension`): the part of the filename
from its last dot on, empty when the filename has no dot or is a dot
entry. -/
def extension (p : Path) : String :=
  let f := (filename p).data
  if f = ['.'] ∨ f = ['.', '.'] then ""
  else if f.contains '.' then
    String.mk ('.' :: (f.reverse.takeWhile (fun c => c != '.')).reverse)
  else ""

/-- The call `s.substr(pos, len)` of `std::string`. -/
def substr (s : String) (pos len : Nat) : String :=
  String.mk ((s.data.drop pos).take len)

/-- The call `s.substr(pos)` of `std::string`. -/
def substrFrom (s : String) (pos : Nat) : String :=
  String.mk (s.data.drop pos)

/-! ## Data model -/

/-- Modelled from the spec: the lifecycle state of a migration, declared in
the header `UpdateFetcher.h`; the source file names only `ARCHIVED`. -/
inductive State where
  | ACTIVE
  | ARCHIVED
  deriving DecidableEq

open State

/-- The exception thrown by the fetcher. -/
structure UpdateException where
  msg : String
  deriving DecidableEq

/-- A discovered file: `std::pair<Path, State>`. -/
structure LocaleFileEntry where
  path : Path
  state : State
  deriving DecidableEq

/-- An include directory with the state stamped on its files. -/
structure DirectoryEntry where
  path : Path
  state : State
  deriving DecidableEq

/-- A record of the ledger as the pass holds it in memory. -/
structure AppliedFileEntry where
  name : String
  hash : String
  state : State
  timestamp : Nat
  deriving DecidableEq

/-- A row of the table `updates`. -/
structure LedgerRow where
  name : String
  hash : String
  state : State
  timestamp : Nat
  speed : Nat
  deriving DecidableEq

/-- The ledger: the rows of the table `updates`, `name` being its key. -/
abbrev Ledger := List LedgerRow

abbrev DirectoryStorage := List DirectoryEntry

/-- The set of discovered files, a `std::set` whose elements compare
through their filenames only; the list is its iteration order, which is
the order of the filenames. -/
abbrev LocaleFileStorage := List LocaleFileEntry

/-- The map from name to record, an unordered map: the list holds its
records in the order of their insertion, and the order in which a loop
iterates them is a field of the `World`. -/
abbrev AppliedFileStorage := List AppliedFileEntry

/-- The map from hash to name. -/
abbrev HashToFileNameStorage := List (String × String)

/-- What the pass reads from its environment. -/
structure World where
  /-- The configured source root. -/
  sourceDirectory : Path
  /-- The rows of `updates_include`. -/
  includeRows : List (String × State)
  /-- The test `is_directory`. -/
  is_directory : Path → Bool
  /-- The entries a `directory_iterator` over a directory yields. -/
  entries : Path → List Path
  /-- The bytes of a file. -/
  content : Path → String
  /-- The SHA-1 digest of a byte string. -/
  SHA1 : String → List Nat
  /-- The milliseconds `_applyFile` takes on a file. -/
  elapsed : Path → Nat
  /-- The order in which a range-based loop iterates the unordered map from
  name to record: the records of the map in an order of its own. -/
  iteration : AppliedFileStorage → AppliedFileStorage
  /-- The loop over the map meets every record, each once. -/
  iteration_perm : ∀ m : AppliedFileStorage, (iteration m).Perm m

/-! ## Statements and events -/

/-- The statements the pass hands to `_apply`. -/
inductive Stmt where
  /-- The statement `REPLACE INTO updates (name, hash, state, speed)`. -/
  | replace (name hash : String) (state : State) (speed : Nat)
  /-- The statement `DELETE FROM updates WHERE name = n`. -/
  | deleteName (name : String)
  /-- The statement `UPDATE updates SET name = to WHERE name = from`. -/
  | rename (src dst : String)
  /-- The statement `UPDATE updates SET state = s WHERE name = n`. -/
  | setState (name : String) (state : State)
  /-- The statement `DELETE FROM updates WHERE name IN (...)`. -/
  | deleteIn (names : List String)
  deriving DecidableEq

/-- A call of one of the two mutating callbacks. -/
inductive Event where
  /-- The call `_applyFile(path)`: the executor. -/
  | applyFile (path : Path)
  /-- The call `_apply(statement)`. -/
  | apply (stmt : Stmt)
  deriving DecidableEq

/-- Modelled from the spec: the effect of a statement on the table
`updates`, whose key is `name`; the timestamp column is filled by the
database and never read by the pass. -/
def Stmt.exec : Stmt → Ledger → Ledger
  | .replace n h s sp, db => db.filter (fun r => r.name != n) ++ [⟨n, h, s, 0, sp⟩]
  | .deleteName n, db => db.filter (fun r => r.name != n)
  | .rename src dst, db => db.map (fun r => if r.name == src then { r with name := dst } else r)
  | .setState n s, db => db.map (fun r => if r.name == n then { r with state := s } else r)
  | .deleteIn ns, db => db.filter (fun r => !ns.contains r.name)

/-- The effect of an event on the ledger: the executor runs the content of
a migration and leaves the table `updates` alone. -/
def Event.exec : Event → Ledger → Ledger
  | .applyFile _, db => db
  | .apply s, db => s.exec db

/-- The ledger after a trace of events. -/
def runTrace (trace : List Event) (db : Ledger) : Ledger :=
  trace.foldl (fun d e => e.exec d) db

/-! ## Containers -/

/-- The lexicographic order on character lists. -/
def ltChars : List Char → List Char → Bool
  | [], [] => false
  | [], _ :: _ => true
  | _ :: _, [] => false
  | a :: as, b :: bs => decide (a.toNat < b.toNat) || (a == b && ltChars as bs)

/-- The order `operator<` of `std::string`. -/
def stringLt (a b : String) : Bool :=
  ltChars a.data b.data

/-- Insertion into a set ordered by a string key; an element whose key is
present already is not inserted. -/
def insertByKey {α : Type} (key : α → String) (e : α) : List α → List α
  | [] => [e]
  | x :: xs =>
    if stringLt (key e) (key x) then e :: x :: xs
    else if stringLt (key x) (key e) then x :: insertByKey key e xs
    else x :: xs

/-- The call `storage.find(entry)`: entries compare through their filenames
only. -/
def LocaleFileStorage.find (storage : LocaleFileStorage) (entry : LocaleFileEntry) :
    Option LocaleFileEntry :=
  List.find? (fun x => filename x.path == filename entry.path) storage

/-- The call `storage.insert(entry)`. -/
def LocaleFileStorage.insert (storage : LocaleFileStorage) (entry : LocaleFileEntry) :
    LocaleFileStorage :=
  insertByKey (fun x => filename x.path) entry storage

/-- The call `applied.find(name)`. -/
def AppliedFileStorage.find (m : AppliedFileStorage) (name : String) : Option AppliedFileEntry :=
  List.find? (fun e => e.name == name) m

/-- The call `applied.erase(name)`. -/
def AppliedFileStorage.erase (m : AppliedFileStorage) (name : String) : AppliedFileStorage :=
  List.filter (fun e => e.name != name) m

/-- The call `map.insert(std::make_pair(entry.name, entry))`: a key that is
present keeps its value. -/
def AppliedFileStorage.insert (m : AppliedFileStorage) (entry : AppliedFileEntry) :
    AppliedFileStorage :=
  if (m.find entry.name).isSome then m else m ++ [entry]

/-- The call `hashToName.find(hash)`, giving the name. -/
def HashToFileNameStorage.find (m : HashToFileNameStorage) (hash : String) : Option String :=
  (List.find? (fun p => p.1 == hash) m).map (fun p => p.2)

/-- The call `hashToName.insert(std::make_pair(hash, name))`: a key that is
present keeps its value. -/
def HashToFileNameStorage.insert (m : HashToFileNameStorage) (hash name : String) :
    HashToFileNameStorage :=
  if (m.find hash).isSome then m else m ++ [(hash, name)]

/-! ## Discovery -/

/-- The bound on the depth of the walk. -/
def MAX_DEPTH : Nat := 10

/-- The walk of `FillFileListRecursively` with the number of directory
levels it may still enter made explicit, so that the recursion is
structural: the body of the loop over the entries of `path`. -/
def FillFileListRecursively.walk (w : World) (state : State) :
    Nat → Path → LocaleFileStorage → Nat → Except UpdateException LocaleFileStorage
  | 0, _, storage, _ => .ok storage
  | fuel + 1, path, storage, depth =>
    (w.entries path).foldlM (fun storage itr =>
      if w.is_directory itr then
        if depth < MAX_DEPTH then
          FillFileListRecursively.walk w state fuel itr storage (depth + 1)
        else .ok storage
      else if extension itr == ".sql" then
        let entry : LocaleFileEntry := ⟨itr, state⟩
        -- Check for doubled filenames
        if (storage.find entry).isSome then
          .error ⟨"Updating failed, see the log for details."⟩
        else .ok (storage.insert entry)
      else .ok storage) storage

/-- The walk over one directory at a depth: a directory is entered while
`depth < MAX_DEPTH`, so `MAX_DEPTH - depth + 1` levels are all the walk can
visit from `depth` on. -/
def FillFileListRecursively (w : World) (path : Path) (storage : LocaleFileStorage)
    (state : State) (depth : Nat) : Except UpdateException LocaleFileStorage :=
  FillFileListRecursively.walk w state (MAX_DEPTH - depth + 1) path storage depth

/-- The include directories: the rows of `updates_include` whose path,
after the leading `$` is resolved against the source root, is a
directory. -/
def ReceiveIncludedDirectories (w : World) : DirectoryStorage :=
  w.includeRows.foldl (fun directories fields =>
    let path := if substr fields.1 0 1 == "$" then w.sourceDirectory ++ substrFrom fields.1 1
      else fields.1
    if !w.is_directory path then directories
    else directories ++ [⟨path, fields.2⟩]) []

/-- The discovered files of all include directories. -/
def GetFileList (w : World) : Except UpdateException LocaleFileStorage :=
  (ReceiveIncludedDirectories w).foldlM
    (fun files entry => FillFileListRecursively w entry.path files entry.state 1) []

/-! ## The ledger in memory -/

/-- Insertion of a row into rows ordered by name, before the first row
whose name is not smaller. -/
def insertRow (r : LedgerRow) : List LedgerRow → List LedgerRow
  | [] => [r]
  | x :: xs => if stringLt x.name r.name then x :: insertRow r xs else r :: x :: xs

/-- The rows of `SELECT ... FROM updates ORDER BY name ASC`. -/
def selectUpdates (ledger : Ledger) : List LedgerRow :=
  ledger.foldr insertRow []

/-- The map from name to record built from the rows of the ledger. -/
def ReceiveAppliedFiles (ledger : Ledger) : AppliedFileStorage :=
  (selectUpdates ledger).foldl
    (fun map fields => map.insert ⟨fields.name, fields.hash, fields.state, fields.timestamp⟩) []

/-! ## Hashing and the mutating primitives -/

/-- The content of an update file. -/
def ReadSQLUpdate (w : World) (file : Path) : String :=
  w.content file

/-- The digit of a value below sixteen in upper case hexadecimal. -/
def hexDigit (n : Nat) : Char :=
  if n < 10 then Char.ofNat (48 + n) else Char.ofNat (55 + n)

/-- Modelled from the spec: `ByteArrayToHexStr` of `Util.h`, the
hex-encoding of the first `arrayLen` bytes, two upper case digits a byte. -/
def ByteArrayToHexStr (bytes : List Nat) (arrayLen : Nat) : String :=
  String.mk ((List.range arrayLen).flatMap (fun i =>
    let b := bytes.getD i 0 % 256
    [hexDigit (b / 16), hexDigit (b % 16)]))

/-- The length of a SHA-1 digest in bytes. -/
def SHA_DIGEST_LENGTH : Nat := 20

/-- The hex-encoded SHA-1 hash of the content of an update. -/
def CalculateHash (w : World) (query : String) : String :=
  ByteArrayToHexStr (w.SHA1 query) SHA_DIGEST_LENGTH

/-- The executor call on a file, with the time it took in milliseconds as
an unsigned 32 bit number. -/
def Apply (w : World) (path : Path) : Nat × List Event :=
  (w.elapsed path % 4294967296, [Event.applyFile path])

/-- The upsert of a record. -/
def UpdateEntry (entry : AppliedFileEntry) (speed : Nat) : List Event :=
  [Event.apply (Stmt.replace entry.name entry.hash entry.state speed)]

/-- The rename of a record: the target is deleted first. -/
def RenameEntry (src dst : String) : List Event :=
  [Event.apply (Stmt.deleteName dst), Event.apply (Stmt.rename src dst)]

/-- The batched delete of the records of a storage; nothing on the empty
storage. The names are listed in the order of the list; the statement
deletes the rows whose name is listed, whatever the order of the names. -/
def CleanUp (storage : AppliedFileStorage) : List Event :=
  if storage.isEmpty then []
  else [Event.apply (Stmt.deleteIn (storage.map (fun entry => entry.name)))]

/-- The update of the state of a record. -/
def UpdateState (name : String) (state : State) : List Event :=
  [Event.apply (Stmt.setState name state)]

/-! ## The pass -/

inductive UpdateMode where
  | MODE_APPLY
  | MODE_REHASH
  deriving DecidableEq

/-- The variables of the loop over the discovered files: the pending set,
the counter (unsigned, 32 bit) and the calls made so far. -/
structure LoopState where
  applied : AppliedFileStorage
  importedUpdates : Nat
  trace : List Event
  deriving DecidableEq

/-- The end of the loop body, reached when the file is neither skipped nor
renamed: the switch on the mode, the erasure of the record found and the
counter. -/
def Update.execute (w : World) (st : LoopState) (availableQuery : LocaleFileEntry)
    (iter : Option AppliedFileEntry) (hash : String) (mode : UpdateMode) : LoopState :=
  let file : AppliedFileEntry := ⟨filename availableQuery.path, hash, availableQuery.state, 0⟩
  let run : Nat × List Event :=
    match mode with
    | .MODE_APPLY => Apply w availableQuery.path
    | .MODE_REHASH => (0, [])
  { applied := if iter.isSome then st.applied.erase (filename availableQuery.path) else st.applied
    importedUpdates :=
      if mode = .MODE_APPLY then (st.importedUpdates + 1) % 4294967296 else st.importedUpdates
    trace := st.trace ++ run.2 ++ UpdateEntry file run.1 }

/-- The body of the loop over the discovered files. -/
def Update.body (w : World) (redundancyChecks allowRehash archivedRedundancy : Bool)
    (available : LocaleFileStorage) (hashToName : HashToFileNameStorage)
    (st : LoopState) (availableQuery : LocaleFileEntry) : LoopState :=
  let name := filename availableQuery.path
  let iter := st.applied.find name
  let skip : Bool :=
    match iter with
    | some e =>
      -- If redundancy is disabled skip it since the update is already applied.
      !redundancyChecks ||
      -- Archived in the directory and in the database: skip as well.
      (!archivedRedundancy && e.state == ARCHIVED && availableQuery.state == ARCHIVED)
    | none => false
  if skip then { st with applied := st.applied.erase name }
  else
    let update := ReadSQLUpdate w availableQuery.path
    let hash := CalculateHash w update
    match iter with
    | none =>
      -- Catch renames (different filename but same hash)
      match hashToName.find hash with
      | some old =>
        if (List.find? (fun l => filename l.path == old) available).isSome then
          -- Conflict: the old file is still there, trade it as a new file
          Update.execute w st availableQuery iter hash .MODE_APPLY
        else
          { st with
            applied := st.applied.erase old
            trace := st.trace ++ RenameEntry old name }
      | none => Update.execute w st availableQuery iter hash .MODE_APPLY
    | some e =>
      if allowRehash && e.hash == "" then
        Update.execute w st availableQuery iter hash .MODE_REHASH
      else if e.hash != hash then
        Update.execute w st availableQuery iter hash .MODE_APPLY
      else
        { st with
          applied := st.applied.erase name
          trace := st.trace ++
            (if e.state != availableQuery.state then UpdateState name availableQuery.state
             else []) }

/-- The hash to name cache of a pass, filled by the loop over the records
in the order in which the unordered map is iterated. -/
def Update.hashToName (w : World) (applied : AppliedFileStorage) : HashToFileNameStorage :=
  (w.iteration applied).foldl (fun m entry => m.insert entry.hash entry.name) []

/-- The loop over discovered files, from a state on. -/
def Update.loop (w : World) (redundancyChecks allowRehash archivedRedundancy : Bool)
    (available : LocaleFileStorage) (hashToName : HashToFileNameStorage)
    (files : List LocaleFileEntry) (st : LoopState) : LoopState :=
  files.foldl (Update.body w redundancyChecks allowRehash archivedRedundancy available hashToName) st

/-- The handling of the orphans: the records left in the pending set are
deleted in one batch when the cap allows it. -/
def Update.orphans (applied : AppliedFileStorage) (cleanDeadReferencesMaxCount : Int) :
    List Event :=
  if !applied.isEmpty then
    let doCleanup : Bool := decide (cleanDeadReferencesMaxCount < 0) ||
      decide (applied.length ≤ cleanDeadReferencesMaxCount.toNat)
    if doCleanup then CleanUp applied else []
  else []

/-- The state of the loop once all the discovered files are processed. -/
def Update.final (w : World) (ledger : Ledger)
    (redundancyChecks allowRehash archivedRedundancy : Bool)
    (available : LocaleFileStorage) : LoopState :=
  let applied := ReceiveAppliedFiles ledger
  Update.loop w redundancyChecks allowRehash archivedRedundancy available
    (Update.hashToName w applied) available ⟨applied, 0, []⟩

/-- What a pass leaves: the calls it made, and the number it returns or
the exception it throws. -/
structure UpdateResult where
  trace : List Event
  result : Except UpdateException Nat

/-- The pass `UpdateFetcher::Update`. -/
def Update (w : World) (ledger : Ledger)
    (redundancyChecks allowRehash archivedRedundancy : Bool)
    (cleanDeadReferencesMaxCount : Int) : UpdateResult :=
  match GetFileList w with
  | .error e => ⟨[], .error e⟩
  | .ok available =>
    let st := Update.final w ledger redundancyChecks allowRehash archivedRedundancy available
    ⟨st.trace ++ Update.orphans st.applied cleanDeadReferencesMaxCount, .ok st.importedUpdates⟩

/-- The ledger a pass leaves. -/
def Update.ledgerAfter (w : World) (ledger : Ledger)
    (redundancyChecks allowRehash archivedRedundancy : Bool)
    (cleanDeadReferencesMaxCount : Int) : Ledger :=
  runTrace (Update w ledger redundancyChecks allowRehash archivedRedundancy
    cleanDeadReferencesMaxCount).trace ledger

/-! ## The discovered files, as the specification words them -/

/-- The `.sql` entries met by a recursive walk from a directory on that
enters a subdirectory while the depth is below the bound: every entry is
listed each time the walk meets it, in the order of the walk. -/
def discoveredIn.walk (w : World) : Nat → Path → Nat → List Path
  | 0, _, _ => []
  | fuel + 1, path, depth =>
    (w.entries path).flatMap (fun itr =>
      if w.is_directory itr then
        if depth < MAX_DEPTH then discoveredIn.walk w fuel itr (depth + 1) else []
      else if extension itr == ".sql" then [itr]
      else [])

/-- The `.sql` files found under a directory that is walked at a depth. -/
def discoveredIn (w : World) (path : Path) (depth : Nat) : List Path :=
  discoveredIn.walk w (MAX_DEPTH - depth + 1) path depth

/-- The `.sql` files found under the include directories, each walked
from depth 1 on. -/
def discovered (w : World) : List Path :=
  (ReceiveIncludedDirectories w).flatMap (fun entry => discoveredIn w entry.path 1)

/-- The filenames of a storage. -/
def LocaleFileStorage.names (storage : LocaleFileStorage) : List String :=
  storage.map (fun x => filename x.path)

/-- What a step of discovery does to a storage whose filenames are
distinct, given the filenames `found` it meets: it adds them when all
filenames stay distinct, and throws otherwise. -/
def StepSpec (s : LocaleFileStorage) (found : List String)
    (r : Except UpdateException LocaleFileStorage) : Prop :=
  ((s.names ++ found).Nodup → ∃ s2, r = .ok s2 ∧ s2.names.Perm (s.names ++ found)) ∧
  (¬ (s.names ++ found).Nodup → ∃ e, r = .error e)


/-! ## The pass, file by file -/

/-- The state of the loop once the files `pre`, the first of the
discovered files, are processed. -/
def Update.before (w : World) (ledger : Ledger)
    (redundancyChecks allowRehash archivedRedundancy : Bool)
    (available : LocaleFileStorage) (pre : List LocaleFileEntry) : LoopState :=
  Update.loop w redundancyChecks allowRehash archivedRedundancy available
    (Update.hashToName w (ReceiveAppliedFiles ledger)) pre ⟨ReceiveAppliedFiles ledger, 0, []⟩

/-- The state of the loop after the body on the file `F`, the files `pre`
being processed before it. -/
def Update.onFile (w : World) (ledger : Ledger)
    (redundancyChecks allowRehash archivedRedundancy : Bool)
    (available : LocaleFileStorage) (pre : List LocaleFileEntry) (F : LocaleFileEntry) :
    LoopState :=
  Update.body w redundancyChecks allowRehash archivedRedundancy available
    (Update.hashToName w (ReceiveAppliedFiles ledger))
    (Update.before w ledger redundancyChecks allowRehash archivedRedundancy available pre) F

/-- The hash the pass computes for a discovered file. -/
def hashOf (w : World) (F : LocaleFileEntry) : String :=
  CalculateHash w (ReadSQLUpdate w F.path)

/-- The body classified the file as APPLY: it called the executor once on
the file and then upserted the record of the file with the computed
hash, the discovered state and the measured speed, it incremented the
counter (unsigned, 32 bit), and the name of the file is out of the
pending set. -/
def IsApplyStep (w : World) (st : LoopState) (F : LocaleFileEntry) (st2 : LoopState) : Prop :=
  st2.trace = st.trace ++
    [Event.applyFile F.path,
     Event.apply (Stmt.replace (filename F.path) (hashOf w F) F.state
       (w.elapsed F.path % 4294967296))] ∧
  st2.importedUpdates = (st.importedUpdates + 1) % 4294967296 ∧
  st2.applied = st.applied.erase (filename F.path)

/-- An event is a call the loop makes for the file `q`: the executor on
its path, or a statement on the record of its name. -/
def Event.concerns (q : LocaleFileEntry) : Event → Bool
  | .applyFile p => p == q.path
  | .apply (.replace n _ _ _) => n == filename q.path
  | .apply (.deleteName n) => n == filename q.path
  | .apply (.rename _ dst) => dst == filename q.path
  | .apply (.setState n _) => n == filename q.path
  | .apply (.deleteIn _) => false

/-- The pass classifies the discovered file `F`, which comes after the
files `pre`, as APPLY: the body on `F` calls the executor on the file and
then upserts its record with the computed hash, the discovered state and
the measured speed; it increments the counter, by one exactly while fewer
than 2^32 files are discovered; and in the trace of the whole pass the
executor call on the file and the upsert occur once each. -/
def IsApply (w : World) (ledger : Ledger)
    (redundancyChecks allowRehash archivedRedundancy : Bool)
    (available : LocaleFileStorage) (pre : List LocaleFileEntry) (F : LocaleFileEntry) : Prop :=
  IsApplyStep w
    (Update.before w ledger redundancyChecks allowRehash archivedRedundancy available pre) F
    (Update.onFile w ledger redundancyChecks allowRehash archivedRedundancy available pre F) ∧
  (available.length < 4294967296 →
    (Update.onFile w ledger redundancyChecks allowRehash archivedRedundancy available pre
      F).importedUpdates =
    (Update.before w ledger redundancyChecks allowRehash archivedRedundancy available
      pre).importedUpdates + 1) ∧
  ∀ cap : Int,
    List.count (Event.applyFile F.path)
      (Update w ledger redundancyChecks allowRehash archivedRedundancy cap).trace = 1 ∧
    List.count (Event.apply (Stmt.replace (filename F.path) (hashOf w F) F.state
      (w.elapsed F.path % 4294967296)))
      (Update w ledger redundancyChecks allowRehash archivedRedundancy cap).trace = 1 ∧
    List.count (Event.apply (Stmt.deleteName (filename F.path)))
      (Update w ledger redundancyChecks allowRehash archivedRedundancy cap).trace = 0 ∧
    ∀ src, List.count (Event.apply (Stmt.rename src (filename F.path)))
      (Update w ledger redundancyChecks allowRehash archivedRedundancy cap).trace = 0

/-- The names of the records a statement can change or remove. -/
def Stmt.names : Stmt → List String
  | .replace n _ _ _ => [n]
  | .deleteName n => [n]
  | .rename src dst => [src, dst]
  | .setState n _ => [n]
  | .deleteIn ns => ns

/-- The names of the records an event can change or remove. -/
def Event.names : Event → List String
  | .applyFile _ => []
  | .apply s => s.names

/-! ## The branches of the loop body -/

/-- The branch the body of the loop takes on a discovered file. -/
inductive Action where
  /-- The file has a record and redundancy checks are off: skipped. -/
  | SKIP
  /-- The record and the file are archived and archived redundancy checks
  are off: skipped. -/
  | SKIP_ARCHIVED
  /-- The file has no record, its hash is that of the record `old`, and no
  discovered file is named `old`: renamed. -/
  | RENAME (old : String)
  /-- The record has an empty hash and rehashing is allowed: the mode is
  `MODE_REHASH`. -/
  | REHASH
  /-- The record has the hash of the file: the state is updated if
  necessary. -/
  | MATCH
  /-- The mode stays `MODE_APPLY`: the file is new, or in conflict with the
  file of the record of its hash, or its hash differs from the stored
  one. -/
  | APPLY
  deriving DecidableEq

/-- The branch the body takes on a file, from the conditions of the body
in their order. -/
def Update.classify (w : World) (redundancyChecks allowRehash archivedRedundancy : Bool)
    (available : LocaleFileStorage) (hashToName : HashToFileNameStorage)
    (applied : AppliedFileStorage) (availableQuery : LocaleFileEntry) : Action :=
  match applied.find (filename availableQuery.path) with
  | some e =>
    if !redundancyChecks then .SKIP
    else if !archivedRedundancy && e.state == ARCHIVED && availableQuery.state == ARCHIVED then
      .SKIP_ARCHIVED
    else if allowRehash && e.hash == "" then .REHASH
    else if e.hash != hashOf w availableQuery then .APPLY
    else .MATCH
  | none =>
    match hashToName.find (hashOf w availableQuery) with
    | some old =>
      if (List.find? (fun l => filename l.path == old) available).isSome then .APPLY
      else .RENAME old
    | none => .APPLY

/-- What the body does in a branch. -/
def Update.perform (w : World) (st : LoopState) (availableQuery : LocaleFileEntry) :
    Action → LoopState
  | .SKIP => { st with applied := st.applied.erase (filename availableQuery.path) }
  | .SKIP_ARCHIVED => { st with applied := st.applied.erase (filename availableQuery.path) }
  | .RENAME old =>
    { st with
      applied := st.applied.erase old
      trace := st.trace ++ RenameEntry old (filename availableQuery.path) }
  | .REHASH =>
    Update.execute w st availableQuery (st.applied.find (filename availableQuery.path))
      (hashOf w availableQuery) .MODE_REHASH
  | .MATCH =>
    { st with
      applied := st.applied.erase (filename availableQuery.path)
      trace := st.trace ++
        (match st.applied.find (filename availableQuery.path) with
         | some e =>
           if e.state != availableQuery.state then
             UpdateState (filename availableQuery.path) availableQuery.state
           else []
         | none => []) }
  | .APPLY =>
    Update.execute w st availableQuery (st.applied.find (filename availableQuery.path))
      (hashOf w availableQuery) .MODE_APPLY

/-- The branches the loop takes on the files it processes, in their
order. -/
def Update.actions (w : World) (redundancyChecks allowRehash archivedRedundancy : Bool)
    (available : LocaleFileStorage) (hashToName : HashToFileNameStorage) :
    List LocaleFileEntry → LoopState → List Action
  | [], _ => []
  | q :: files, st =>
    Update.classify w redundancyChecks allowRehash archivedRedundancy available hashToName
        st.applied q ::
      Update.actions w redundancyChecks allowRehash archivedRedundancy available hashToName files
        (Update.body w redundancyChecks allowRehash archivedRedundancy available hashToName st q)

/-- The branches a pass takes on its discovered files. -/
def Update.passActions (w : World) (ledger : Ledger)
    (redundancyChecks allowRehash archivedRedundancy : Bool)
    (available : LocaleFileStorage) : List Action :=
  Update.actions w redundancyChecks allowRehash archivedRedundancy available
    (Update.hashToName w (ReceiveAppliedFiles ledger)) available
    ⟨ReceiveAppliedFiles ledger, 0, []⟩

/-- An event is a call of the executor. -/
def Event.isApplyFile : Event → Bool
  | .applyFile _ => true
  | .apply _ => false

/-- The old name a branch consumes by a rename, if it is a rename. -/
def Action.renamed : Action → Option String
  | .RENAME old => some old
  | _ => none

/-- The old names the renames among branches consume. -/
def renamedNames (actions : List Action) : List String :=
  actions.filterMap Action.renamed

/-! ## The text of the batched delete -/

/-- The text `CleanUp` builds in its string stream: the head of the
statement, then for each record of the storage its name in double quotes,
followed by a separator while the counter `remaining`, decremented first,
is above zero, then the closing bracket. -/
def CleanUp.update (storage : AppliedFileStorage) : String :=
  let head : String × Nat := ("DELETE FROM `updates` WHERE `name` IN(", storage.length)
  let last : String × Nat :=
    storage.foldl (fun (acc : String × Nat) entry =>
      let update := acc.1 ++ "\"" ++ entry.name ++ "\""
      let remaining := acc.2 - 1
      if remaining > 0 then (update ++ ", ", remaining) else (update, remaining)) head
  last.1 ++ ")"

/-- The texts of the statements `CleanUp` hands to `_apply`: none on the
empty storage, the batched delete otherwise. -/
def CleanUp.sql (storage : AppliedFileStorage) : List String :=
  if storage.isEmpty then [] else [CleanUp.update storage]

/-- A name in double quotes. -/
def quoted (name : String) : String :=
  "\"" ++ name ++ "\""

/-! ## The include directories, as the specification words them -/

/-- The path a row of `updates_include` stands for: the source directory
followed by the path without its first character when the path starts
with `$`, the path itself otherwise. -/
def resolvedPath (w : World) (path : String) : Path :=
  if path.data.head? = some '$' then w.sourceDirectory ++ String.mk path.data.tail else path

/-- The rows of `updates_include` whose resolved path is a directory, in
the order of the rows, each with its resolved path and its state. -/
def includedDirectories (w : World) : DirectoryStorage :=
  w.includeRows.filterMap (fun row =>
    if w.is_directory (resolvedPath w row.1) then some ⟨resolvedPath w row.1, row.2⟩ else none)

/-! ## The walk of discovery, as the specification words it -/

/-- A directory that is nested a number of levels below a directory: the
directory itself at level 0, and a directory nested below one of its
subdirectories one level deeper. -/
inductive Nested (w : World) : Nat → Path → Path → Prop where
  | here (dir : Path) : Nested w 0 dir dir
  | step {k : Nat} {root q dir : Path} :
      q ∈ w.entries root → w.is_directory q = true → Nested w k q dir →
      Nested w (k + 1) root dir

/-- What a step of discovery does to a storage whose filenames are
distinct, given the entries `found` it meets: it adds them when all
filenames stay distinct, and throws otherwise. -/
def StepEntries (s : LocaleFileStorage) (found : List LocaleFileEntry)
    (r : Except UpdateException LocaleFileStorage) : Prop :=
  ((s.names ++ LocaleFileStorage.names found).Nodup →
    ∃ s2, r = .ok s2 ∧ List.Perm s2 (s ++ found)) ∧
  (¬ (s.names ++ LocaleFileStorage.names found).Nodup → ∃ e, r = .error e)

/-! ## Concrete inputs -/

/-- A stand-in for the digest in the concrete inputs: twenty bytes computed
from the character codes of the content. -/
def demoDigest (s : String) : List Nat :=
  (List.range 20).map (fun i => ((s.data.map Char.toNat).sum * (i + 1) + i) % 256)

/-- A source tree with two include roots that exist and one that does not:
`a.sql` and `b.sql` have the same content, `c.sql` lies in a subdirectory,
`d.sql` and `e.sql` lie in the archive. -/
def demo : World where
  sourceDirectory := "/src"
  includeRows := [("$/sql", ACTIVE), ("/old", ARCHIVED), ("/gone", ACTIVE)]
  is_directory := fun p => p == "/src/sql" || p == "/src/sql/sub" || p == "/old"
  entries := fun p =>
    if p == "/src/sql" then
      ["/src/sql/a.sql", "/src/sql/b.sql", "/src/sql/notes.txt", "/src/sql/sub"]
    else if p == "/src/sql/sub" then ["/src/sql/sub/c.sql"]
    else if p == "/old" then ["/old/d.sql", "/old/e.sql"]
    else []
  content := fun p =>
    if p == "/src/sql/sub/c.sql" then "CREATE TABLE c (id INT);"
    else if p == "/old/d.sql" then "DROP TABLE d;"
    else if p == "/old/e.sql" then "DROP TABLE e;"
    else "CREATE TABLE a (id INT);"
  SHA1 := demoDigest
  elapsed := fun _ => 7
  iteration := fun m => m
  iteration_perm := fun _ => List.Perm.refl _

/-- The files discovered in `demo`, in the order of their filenames. -/
def demoFiles : LocaleFileStorage :=
  [⟨"/src/sql/a.sql", ACTIVE⟩, ⟨"/src/sql/b.sql", ACTIVE⟩, ⟨"/src/sql/sub/c.sql", ACTIVE⟩,
   ⟨"/old/d.sql", ARCHIVED⟩, ⟨"/old/e.sql", ARCHIVED⟩]

/-- A ledger for `demo`: `a.sql` is recorded with its hash, `c.sql` with
the hash of an older content, `d.sql` with its hash as an active file, and
`z.sql` has no file any more. -/
def demoLedger : Ledger :=
  [⟨"a.sql", CalculateHash demo "CREATE TABLE a (id INT);", ACTIVE, 0, 3⟩,
   ⟨"c.sql", CalculateHash demo "CREATE TABLE c (id BIGINT);", ACTIVE, 0, 4⟩,
   ⟨"d.sql", CalculateHash demo "DROP TABLE d;", ACTIVE, 0, 5⟩,
   ⟨"z.sql", CalculateHash demo "DROP TABLE z;", ACTIVE, 0, 6⟩]

/-- A source tree in which one migration was copied under two new names,
`b.sql` and `c.sql`, and its old file `a.sql` was removed. -/
def twins : World where
  sourceDirectory := "/src"
  includeRows := [("$/sql", ACTIVE)]
  is_directory := fun p => p == "/src/sql"
  entries := fun p => if p == "/src/sql" then ["/src/sql/b.sql", "/src/sql/c.sql"] else []
  content := fun _ => "CREATE TABLE a (id INT);"
  SHA1 := demoDigest
  elapsed := fun _ => 7
  iteration := fun m => m
  iteration_perm := fun _ => List.Perm.refl _

/-- The ledger for `twins`: the migration is recorded under its old name. -/
def twinsLedger : Ledger :=
  [⟨"a.sql", CalculateHash twins "CREATE TABLE a (id INT);", ACTIVE, 0, 3⟩]

/-- The discovered files of `demo`, one by one. -/
def demoA : LocaleFileEntry := ⟨"/src/sql/a.sql", ACTIVE⟩

def demoB : LocaleFileEntry := ⟨"/src/sql/b.sql", ACTIVE⟩

def demoC : LocaleFileEntry := ⟨"/src/sql/sub/c.sql", ACTIVE⟩

def demoD : LocaleFileEntry := ⟨"/old/d.sql", ARCHIVED⟩

def demoE : LocaleFileEntry := ⟨"/old/e.sql", ARCHIVED⟩

/-- The discovered files of `twins`. -/
def twinsB : LocaleFileEntry := ⟨"/src/sql/b.sql", ACTIVE⟩

def twinsC : LocaleFileEntry := ⟨"/src/sql/c.sql", ACTIVE⟩

def twinsFiles : LocaleFileStorage := [twinsB, twinsC]

/-- The hash of the one content of `twins`. -/
def twinsHash : String := CalculateHash twins "CREATE TABLE a (id INT);"

/-- A source tree in which two include roots hold a file of the same
name. -/
def doubled : World where
  sourceDirectory := "/src"
  includeRows := [("$/sql", ACTIVE), ("/old", ARCHIVED)]
  is_directory := fun p => p == "/src/sql" || p == "/old"
  entries := fun p =>
    if p == "/src/sql" then ["/src/sql/a.sql"]
    else if p == "/old" then ["/old/a.sql"]
    else []
  content := fun _ => "CREATE TABLE a (id INT);"
  SHA1 := demoDigest
  elapsed := fun _ => 7
  iteration := fun m => m
  iteration_perm := fun _ => List.Perm.refl _

/-- The character of a decimal digit. -/
def digitChar (d : Nat) : Char := Char.ofNat (48 + d)

/-- The decimal digits of a number as characters, the lowest first. -/
def digitChars (i : Nat) : List Char := (Nat.digits 10 i).map digitChar

/-- The path of the file of a number in the directory `/d`. -/
def floodPath (i : Nat) : Path :=
  String.mk (['/', 'd', '/', 'm'] ++ digitChars i ++ ['.', 's', 'q', 'l'])

/-- A source tree with one include root that holds `n` files of distinct
names, all with the extension `.sql`. -/
def floodOf (n : Nat) : World where
  sourceDirectory := "/src"
  includeRows := [("/d", ACTIVE)]
  is_directory := fun p => p == "/d"
  entries := fun p => if p == "/d" then (List.range n).map floodPath else []
  content := fun _ => "SELECT 1;"
  SHA1 := demoDigest
  elapsed := fun _ => 7
  iteration := fun m => m
  iteration_perm := fun _ => List.Perm.refl _

/-- A source tree with 2^32 files, none of them in the ledger. -/
def flood : World := floodOf 4294967296

/-- A ledger for `demo` that has a record for every discovered file. -/
def knownLedger : Ledger :=
  [⟨"a.sql", "", ACTIVE, 0, 1⟩,
   ⟨"b.sql", CalculateHash demo "CREATE TABLE b (id INT);", ACTIVE, 0, 2⟩,
   ⟨"c.sql", CalculateHash demo "CREATE TABLE c (id INT);", ACTIVE, 0, 3⟩,
   ⟨"d.sql", "", ARCHIVED, 0, 4⟩,
   ⟨"e.sql", CalculateHash demo "DROP TABLE x;", ARCHIVED, 0, 5⟩]

/-- A pending set of two orphans. -/
def twoOrphans : AppliedFileStorage :=
  [⟨"x.sql", "", ACTIVE, 0⟩, ⟨"y.sql", "", ARCHIVED, 0⟩]

/-- A source tree without bottom: every directory holds one subdirectory
`d` and one `.sql` file named after the directory. -/
def deep : World where
  sourceDirectory := "/src"
  includeRows := [("/r", ACTIVE)]
  is_directory := fun p => p == "/r" || p.data.reverse.take 2 == ['d', '/']
  entries := fun p =>
    [p ++ "/d",
     p ++ "/" ++ String.mk (p.data.map (fun c => if c == '/' then '_' else c)) ++ ".sql"]
  content := fun _ => "SELECT 1;"
  SHA1 := demoDigest
  elapsed := fun _ => 7
  iteration := fun m => m
  iteration_perm := fun _ => List.Perm.refl _

/-- A source tree for a ledger in which two records have one hash: `b.sql`
and the new file `zz_new.sql` have the same content, and the unordered map
is iterated in the reverse of the order of insertion, so that the loop
over the records meets `b.sql` before `a.sql`. -/
def shared : World where
  sourceDirectory := "/src"
  includeRows := [("$/sql", ACTIVE)]
  is_directory := fun p => p == "/src/sql"
  entries := fun p => if p == "/src/sql" then ["/src/sql/b.sql", "/src/sql/zz_new.sql"] else []
  content := fun _ => "CREATE TABLE a (id INT);"
  SHA1 := demoDigest
  elapsed := fun _ => 7
  iteration := List.reverse
  iteration_perm := fun m => List.reverse_perm m

/-- The source tree of `shared` with the map iterated in the order of
insertion: the loop over the records meets `a.sql` before `b.sql`. -/
def sharedInOrder : World :=
  { shared with
    iteration := fun m => m
    iteration_perm := fun _ => List.Perm.refl _ }

/-- The ledger of `shared`: `a.sql`, whose file is gone, and `b.sql` are
recorded with the same hash. -/
def sharedLedger : Ledger :=
  [⟨"a.sql", CalculateHash shared "CREATE TABLE a (id INT);", ACTIVE, 0, 3⟩,
   ⟨"b.sql", CalculateHash shared "CREATE TABLE a (id INT);", ACTIVE, 0, 4⟩]

/-- The discovered file of `shared` that has a record. -/
def sharedB : LocaleFileEntry := ⟨"/src/sql/b.sql", ACTIVE⟩

/-- The discovered file of `shared` that has no record. -/
def sharedNew : LocaleFileEntry := ⟨"/src/sql/zz_new.sql", ACTIVE⟩

/-- The discovered files of `shared`. -/
def sharedFiles : LocaleFileStorage := [sharedB, sharedNew]

/-! ## Lemmas on the containers -/

theorem AppliedFileStorage.mem_erase (m : AppliedFileStorage) (n : String) (e : AppliedFileEntry) :
    e ∈ m.erase n ↔ e ∈ m ∧ e.name ≠ n := by
  simp [AppliedFileStorage.erase]

theorem AppliedFileStorage.find_erase_ne (m : AppliedFileStorage) (n k : String) (h : n ≠ k) :
    (m.erase k).find n = m.find n := by
  induction m with
  | nil => rfl
  | cons x xs ih =>
    simp only [AppliedFileStorage.erase, AppliedFileStorage.find] at ih ⊢
    by_cases hx : x.name = k
    · have hn : ¬ x.name = n := fun h2 => h (h2.symm.trans hx)
      rw [List.filter_cons_of_neg (by simp [hx]), List.find?_cons_of_neg _ (by simp [hn])]
      exact ih
    · rw [List.filter_cons_of_pos (by simp [hx])]
      by_cases hn : x.name = n
      · rw [List.find?_cons_of_pos _ (by simp [hn]), List.find?_cons_of_pos _ (by simp [hn])]
      · rw [List.find?_cons_of_neg _ (by simp [hn]), List.find?_cons_of_neg _ (by simp [hn])]
        exact ih

theorem AppliedFileStorage.find_some_mem (m : AppliedFileStorage) (n : String) (e : AppliedFileEntry)
    (h : m.find n = some e) : e ∈ m ∧ e.name = n := by
  simp only [AppliedFileStorage.find] at h
  exact ⟨List.mem_of_find?_eq_some h, by simpa using List.find?_some h⟩

theorem AppliedFileStorage.erase_of_find_none (m : AppliedFileStorage) (n : String)
    (h : m.find n = none) : m.erase n = m := by
  simp only [AppliedFileStorage.find, List.find?_eq_none] at h
  simp only [AppliedFileStorage.erase, List.filter_eq_self]
  intro a ha
  simpa using h a ha


/-! ## The map read from the ledger -/

theorem insertRow_perm (r : LedgerRow) (xs : List LedgerRow) :
    (insertRow r xs).Perm (r :: xs) := by
  induction xs with
  | nil => exact List.Perm.refl _
  | cons x xs ih =>
    simp only [insertRow]
    split
    · exact (ih.cons x).trans (List.Perm.swap r x xs)
    · exact List.Perm.refl _

theorem selectUpdates_perm (ledger : Ledger) : (selectUpdates ledger).Perm ledger := by
  induction ledger with
  | nil => exact List.Perm.refl _
  | cons r rs ih =>
    simp only [selectUpdates, List.foldr_cons] at ih ⊢
    exact (insertRow_perm r _).trans (ih.cons r)

theorem AppliedFileStorage.find_of_mem (m : AppliedFileStorage)
    (hnd : (m.map (fun e => e.name)).Nodup) (e : AppliedFileEntry) (he : e ∈ m) :
    m.find e.name = some e := by
  induction m with
  | nil => cases he
  | cons x xs ih =>
    simp only [List.map_cons, List.nodup_cons] at hnd
    simp only [AppliedFileStorage.find] at ih ⊢
    rcases List.mem_cons.1 he with rfl | hmem
    · rw [List.find?_cons_of_pos _ (by simp)]
    · have hne : ¬ x.name = e.name := fun h => hnd.1 (h ▸ List.mem_map.2 ⟨e, hmem, rfl⟩)
      rw [List.find?_cons_of_neg _ (by simp [hne])]
      exact ih hnd.2 hmem

theorem foldl_insert_nodup (rows : List LedgerRow) (acc : AppliedFileStorage)
    (hnd : (rows.map (fun r => r.name)).Nodup)
    (hdis : ∀ r ∈ rows, ∀ e ∈ acc, e.name ≠ r.name) :
    rows.foldl (fun map fields =>
        AppliedFileStorage.insert map ⟨fields.name, fields.hash, fields.state, fields.timestamp⟩)
      acc =
    acc ++ rows.map (fun r => ⟨r.name, r.hash, r.state, r.timestamp⟩) := by
  induction rows generalizing acc with
  | nil => simp
  | cons r rs ih =>
    simp only [List.map_cons, List.nodup_cons] at hnd
    have hnone : acc.find r.name = none := by
      simp only [AppliedFileStorage.find, List.find?_eq_none]
      intro e he
      simpa using hdis r (List.mem_cons_self _ _) e he
    have hins : AppliedFileStorage.insert acc ⟨r.name, r.hash, r.state, r.timestamp⟩ =
        acc ++ [⟨r.name, r.hash, r.state, r.timestamp⟩] := by
      simp [AppliedFileStorage.insert, hnone]
    simp only [List.foldl_cons, List.map_cons]
    rw [hins, ih _ hnd.2]
    · simp
    · intro r2 hr2 e he
      rcases List.mem_append.1 he with h | h
      · exact hdis r2 (List.mem_cons_of_mem _ hr2) e h
      · simp only [List.mem_singleton] at h
        subst h
        intro heq
        exact hnd.1 (List.mem_map.2 ⟨r2, hr2, heq.symm⟩)

/-- On a ledger whose names are distinct, the map the pass reads holds one
record for each row, in the order of the names. -/
theorem ReceiveAppliedFiles_eq (ledger : Ledger)
    (hkey : (ledger.map (fun r => r.name)).Nodup) :
    ReceiveAppliedFiles ledger =
      (selectUpdates ledger).map (fun r => ⟨r.name, r.hash, r.state, r.timestamp⟩) := by
  have hnd : ((selectUpdates ledger).map (fun r => r.name)).Nodup :=
    ((selectUpdates_perm ledger).map _).nodup_iff.2 hkey
  rw [ReceiveAppliedFiles, foldl_insert_nodup _ [] hnd (by simp)]
  simp

/-- On a ledger whose names are distinct, the record the pass finds under a
name is the row of that name. -/
theorem ReceiveAppliedFiles_find (ledger : Ledger)
    (hkey : (ledger.map (fun r => r.name)).Nodup) (r : LedgerRow) (hr : r ∈ ledger) :
    (ReceiveAppliedFiles ledger).find r.name = some ⟨r.name, r.hash, r.state, r.timestamp⟩ := by
  have hnd : ((selectUpdates ledger).map (fun r => r.name)).Nodup :=
    ((selectUpdates_perm ledger).map _).nodup_iff.2 hkey
  rw [ReceiveAppliedFiles_eq ledger hkey]
  have h := AppliedFileStorage.find_of_mem
    ((selectUpdates ledger).map (fun r => ⟨r.name, r.hash, r.state, r.timestamp⟩))
    (by simpa [List.map_map, Function.comp] using hnd)
    ⟨r.name, r.hash, r.state, r.timestamp⟩
    (List.mem_map.2 ⟨r, (selectUpdates_perm ledger).mem_iff.2 hr, rfl⟩)
  exact h

/-- The pass finds no record under a name that no row of the ledger has. -/
theorem ReceiveAppliedFiles_find_none (ledger : Ledger)
    (hkey : (ledger.map (fun r => r.name)).Nodup) (n : String)
    (hn : ∀ r ∈ ledger, r.name ≠ n) :
    (ReceiveAppliedFiles ledger).find n = none := by
  rw [ReceiveAppliedFiles_eq ledger hkey]
  simp only [AppliedFileStorage.find, List.find?_eq_none, List.mem_map]
  rintro e ⟨r, hr, rfl⟩
  simpa using hn r ((selectUpdates_perm ledger).mem_iff.1 hr)


/-! ## Lemmas on the body of the loop -/

section Body

variable (w : World) (rc ar arch : Bool) (available : LocaleFileStorage)
  (hashToName : HashToFileNameStorage)


theorem Update.execute_applied (st : LoopState) (q : LocaleFileEntry)
    (iter : Option AppliedFileEntry) (hash : String) (mode : UpdateMode)
    (hiter : st.applied.find (filename q.path) = iter) :
    (Update.execute w st q iter hash mode).applied = st.applied.erase (filename q.path) := by
  simp only [Update.execute]
  cases h : iter with
  | none =>
    rw [h] at hiter
    simp [AppliedFileStorage.erase_of_find_none _ _ hiter]
  | some e => simp

/-- The body of the loop on a file that has no record. -/
theorem Update.body_none (st : LoopState) (q : LocaleFileEntry)
    (hit : st.applied.find (filename q.path) = none) :
    Update.body w rc ar arch available hashToName st q =
      match hashToName.find (CalculateHash w (ReadSQLUpdate w q.path)) with
      | some old =>
        if (List.find? (fun l => filename l.path == old) available).isSome then
          Update.execute w st q none (CalculateHash w (ReadSQLUpdate w q.path)) .MODE_APPLY
        else
          { st with
            applied := st.applied.erase old
            trace := st.trace ++ RenameEntry old (filename q.path) }
      | none => Update.execute w st q none (CalculateHash w (ReadSQLUpdate w q.path)) .MODE_APPLY := by
  simp only [Update.body, hit, Bool.false_eq_true, if_false]

/-- The body of the loop on a file that has a record. -/
theorem Update.body_some (st : LoopState) (q : LocaleFileEntry) (e : AppliedFileEntry)
    (hit : st.applied.find (filename q.path) = some e) :
    Update.body w rc ar arch available hashToName st q =
      if (!rc || (!arch && e.state == ARCHIVED && q.state == ARCHIVED)) = true then
        { st with applied := st.applied.erase (filename q.path) }
      else if (ar && e.hash == "") = true then
        Update.execute w st q (some e) (CalculateHash w (ReadSQLUpdate w q.path)) .MODE_REHASH
      else if (e.hash != CalculateHash w (ReadSQLUpdate w q.path)) = true then
        Update.execute w st q (some e) (CalculateHash w (ReadSQLUpdate w q.path)) .MODE_APPLY
      else
        { st with
          applied := st.applied.erase (filename q.path)
          trace := st.trace ++
            (if e.state != q.state then UpdateState (filename q.path) q.state else []) } := by
  simp only [Update.body, hit]

/-- The pending set after a file is the pending set before it without the
name of the file, or, when the file has no record, without a name that no
discovered file has. -/
theorem Update.body_applied (st : LoopState) (q : LocaleFileEntry) :
    (Update.body w rc ar arch available hashToName st q).applied
        = st.applied.erase (filename q.path) ∨
    ∃ old, (∀ l ∈ available, filename l.path ≠ old) ∧
      st.applied.find (filename q.path) = none ∧
      (Update.body w rc ar arch available hashToName st q).applied = st.applied.erase old := by
  cases hit : st.applied.find (filename q.path) with
  | none =>
    rw [Update.body_none w rc ar arch available hashToName st q hit]
    cases hh : hashToName.find (CalculateHash w (ReadSQLUpdate w q.path)) with
    | none =>
      left
      exact Update.execute_applied w st q none _ _ hit
    | some old =>
      simp only []
      split
      · left
        exact Update.execute_applied w st q none _ _ hit
      · rename_i hc
        right
        refine ⟨old, ?_, trivial, rfl⟩
        intro l hl heq
        apply hc
        cases hf : List.find? (fun l => filename l.path == old) available with
        | some x => rfl
        | none =>
          rw [List.find?_eq_none] at hf
          exact absurd (by simpa using heq) (hf l hl)
  | some e =>
    left
    rw [Update.body_some w rc ar arch available hashToName st q e hit]
    split
    · rfl
    · split
      · exact Update.execute_applied w st q (some e) _ _ hit
      · split
        · exact Update.execute_applied w st q (some e) _ _ hit
        · rfl

/-- The counter grows by one at most in a body. -/
theorem Update.body_imported (st : LoopState) (q : LocaleFileEntry) :
    (Update.body w rc ar arch available hashToName st q).importedUpdates
        ≤ st.importedUpdates + 1 := by
  have hex : ∀ iter hash mode,
      (Update.execute w st q iter hash mode).importedUpdates ≤ st.importedUpdates + 1 := by
    intro iter hash mode
    simp only [Update.execute]
    split
    · exact Nat.mod_le _ _
    · exact Nat.le_succ _
  cases hit : st.applied.find (filename q.path) with
  | none =>
    rw [Update.body_none w rc ar arch available hashToName st q hit]
    split
    · split
      · exact hex _ _ _
      · exact Nat.le_succ _
    · exact hex _ _ _
  | some e =>
    rw [Update.body_some w rc ar arch available hashToName st q e hit]
    split
    · exact Nat.le_succ _
    · split
      · exact hex _ _ _
      · split
        · exact hex _ _ _
        · exact Nat.le_succ _


end Body

/-! ## Lemmas on the loop -/

section Loop

variable (w : World) (rc ar arch : Bool) (available : LocaleFileStorage)
  (hashToName : HashToFileNameStorage)

theorem Update.loop_nil (st : LoopState) :
    Update.loop w rc ar arch available hashToName [] st = st := rfl

theorem Update.loop_cons (q : LocaleFileEntry) (files : List LocaleFileEntry) (st : LoopState) :
    Update.loop w rc ar arch available hashToName (q :: files) st =
      Update.loop w rc ar arch available hashToName files
        (Update.body w rc ar arch available hashToName st q) := rfl

theorem Update.loop_append (pre post : List LocaleFileEntry) (st : LoopState) :
    Update.loop w rc ar arch available hashToName (pre ++ post) st =
      Update.loop w rc ar arch available hashToName post
        (Update.loop w rc ar arch available hashToName pre st) := by
  simp [Update.loop, List.foldl_append]

/-- A body keeps the record of every other discovered name. -/
theorem Update.body_find_other (st : LoopState) (q : LocaleFileEntry) (n : String)
    (hne : filename q.path ≠ n) (hn : ∃ l ∈ available, filename l.path = n) :
    (Update.body w rc ar arch available hashToName st q).applied.find n = st.applied.find n := by
  rcases Update.body_applied w rc ar arch available hashToName st q with h | ⟨old, hold, _, h⟩
  · rw [h]
    exact AppliedFileStorage.find_erase_ne _ _ _ (Ne.symm hne)
  · rw [h]
    obtain ⟨l, hl, hln⟩ := hn
    exact AppliedFileStorage.find_erase_ne _ _ _ (fun h2 => hold l hl (hln.trans h2))

/-- A body only removes records from the pending set. -/
theorem Update.body_subset (st : LoopState) (q : LocaleFileEntry) (e : AppliedFileEntry)
    (he : e ∈ (Update.body w rc ar arch available hashToName st q).applied) :
    e ∈ st.applied := by
  rcases Update.body_applied w rc ar arch available hashToName st q with h | ⟨old, _, _, h⟩ <;>
  · rw [h] at he
    exact ((AppliedFileStorage.mem_erase _ _ _).1 he).1

/-- After the body of a file no pending record has its name. -/
theorem Update.body_not_mem (st : LoopState) (q : LocaleFileEntry) (e : AppliedFileEntry)
    (he : e ∈ (Update.body w rc ar arch available hashToName st q).applied) :
    e.name ≠ filename q.path := by
  rcases Update.body_applied w rc ar arch available hashToName st q with h | ⟨old, _, hnone, h⟩
  · rw [h] at he
    exact ((AppliedFileStorage.mem_erase _ _ _).1 he).2
  · rw [h] at he
    intro hname
    have hmem := ((AppliedFileStorage.mem_erase _ _ _).1 he).1
    simp only [AppliedFileStorage.find, List.find?_eq_none] at hnone
    exact hnone e hmem (by simpa using hname)

theorem Update.loop_find (files : List LocaleFileEntry) (st : LoopState) (n : String)
    (hne : ∀ q ∈ files, filename q.path ≠ n) (hn : ∃ l ∈ available, filename l.path = n) :
    (Update.loop w rc ar arch available hashToName files st).applied.find n
      = st.applied.find n := by
  induction files generalizing st with
  | nil => rfl
  | cons q files ih =>
    rw [Update.loop_cons, ih _ (fun q2 h2 => hne q2 (List.mem_cons_of_mem _ h2))]
    exact Update.body_find_other w rc ar arch available hashToName st q n
      (hne q (List.mem_cons_self _ _)) hn

theorem Update.loop_subset (files : List LocaleFileEntry) (st : LoopState) (e : AppliedFileEntry)
    (he : e ∈ (Update.loop w rc ar arch available hashToName files st).applied) :
    e ∈ st.applied := by
  induction files generalizing st with
  | nil => exact he
  | cons q files ih =>
    rw [Update.loop_cons] at he
    exact Update.body_subset w rc ar arch available hashToName st q e (ih _ he)

theorem Update.loop_not_mem (files : List LocaleFileEntry) (st : LoopState) (q : LocaleFileEntry)
    (hq : q ∈ files) (e : AppliedFileEntry)
    (he : e ∈ (Update.loop w rc ar arch available hashToName files st).applied) :
    e.name ≠ filename q.path := by
  induction files generalizing st with
  | nil => cases hq
  | cons q2 files ih =>
    rw [Update.loop_cons] at he
    rcases List.mem_cons.1 hq with rfl | hmem
    · exact Update.body_not_mem w rc ar arch available hashToName st q e
        (Update.loop_subset w rc ar arch available hashToName files _ e he)
    · exact ih _ hmem he

theorem Update.loop_imported (files : List LocaleFileEntry) (st : LoopState) :
    (Update.loop w rc ar arch available hashToName files st).importedUpdates
      ≤ st.importedUpdates + files.length := by
  induction files generalizing st with
  | nil => exact Nat.le_refl _
  | cons q files ih =>
    rw [Update.loop_cons]
    have h1 := ih (Update.body w rc ar arch available hashToName st q)
    have h2 := Update.body_imported w rc ar arch available hashToName st q
    simp only [List.length_cons]
    omega

end Loop


/-! ## Lemmas on discovery -/

theorem ltChars_total : ∀ (a b : List Char), ltChars a b = false → ltChars b a = false → a = b
  | [], [], _, _ => rfl
  | [], _ :: _, h, _ => by simp [ltChars] at h
  | _ :: _, [], _, h => by simp [ltChars] at h
  | a :: as, b :: bs, h1, h2 => by
    simp only [ltChars, Bool.or_eq_false_iff, decide_eq_false_iff_not, Bool.and_eq_false_iff,
      Nat.not_lt] at h1 h2
    have hab : a = b := by
      apply Char.ext
      apply UInt32.ext
      exact Nat.le_antisymm h2.1 h1.1
    subst hab
    have h1' : ltChars as bs = false := by simpa using h1.2
    have h2' : ltChars bs as = false := by simpa using h2.2
    rw [ltChars_total as bs h1' h2']

theorem stringLt_total (a b : String) (h1 : stringLt a b = false) (h2 : stringLt b a = false) :
    a = b := by
  cases a; cases b
  simp only [stringLt] at h1 h2
  rw [ltChars_total _ _ h1 h2]

theorem insertByKey_perm {α : Type} (key : α → String) (e : α) (xs : List α)
    (h : key e ∉ xs.map key) : (insertByKey key e xs).Perm (e :: xs) := by
  induction xs with
  | nil => exact List.Perm.refl _
  | cons x xs ih =>
    simp only [List.map_cons, List.mem_cons, not_or] at h
    simp only [insertByKey]
    split
    · exact List.Perm.refl _
    · split
      · exact ((ih h.2).cons x).trans (List.Perm.swap e x xs)
      · rename_i h1 h2
        exact absurd (stringLt_total _ _ (by simpa using h1) (by simpa using h2)) h.1


theorem foldlM_stepSpec {A : Type}
    (step : LocaleFileStorage → A → Except UpdateException LocaleFileStorage)
    (col : A → List String)
    (hstep : ∀ s a, s.names.Nodup → StepSpec s (col a) (step s a))
    (l : List A) (s : LocaleFileStorage) (hs : s.names.Nodup) :
    StepSpec s (l.flatMap col) (l.foldlM step s) := by
  induction l generalizing s with
  | nil =>
    refine ⟨fun _ => ⟨s, rfl, by simp⟩, fun h => absurd (by simpa using hs) h⟩
  | cons a l ih =>
    simp only [List.flatMap_cons, List.foldlM_cons]
    by_cases hnd : (s.names ++ col a).Nodup
    · obtain ⟨s2, hs2, hperm⟩ := (hstep s a hs).1 hnd
      have hs2nd : s2.names.Nodup := hperm.nodup_iff.2 hnd
      have hperm2 : (s2.names ++ l.flatMap col).Perm (s.names ++ (col a ++ l.flatMap col)) := by
        rw [← List.append_assoc]
        exact hperm.append_right _
      rw [hs2]
      have ih2 := ih s2 hs2nd
      refine ⟨fun h => ?_, fun h => ?_⟩
      · obtain ⟨s3, hs3, hp3⟩ := ih2.1 (hperm2.nodup_iff.2 h)
        exact ⟨s3, hs3, hp3.trans hperm2⟩
      · exact ih2.2 (fun h2 => h (hperm2.nodup_iff.1 h2))
    · obtain ⟨e, he⟩ := (hstep s a hs).2 hnd
      rw [he]
      refine ⟨fun h => absurd ?_ hnd, fun _ => ⟨e, rfl⟩⟩
      rw [← List.append_assoc] at h
      exact (List.nodup_append.1 h).1

theorem walk_stepSpec (w : World) (state : State) :
    ∀ (fuel : Nat) (path : Path) (storage : LocaleFileStorage) (depth : Nat),
      storage.names.Nodup →
      StepSpec storage ((discoveredIn.walk w fuel path depth).map filename)
        (FillFileListRecursively.walk w state fuel path storage depth)
  | 0, path, storage, depth, hs => by
    simp only [discoveredIn.walk, FillFileListRecursively.walk, List.map_nil]
    exact ⟨fun _ => ⟨storage, rfl, by simp⟩, fun h => absurd (by simpa using hs) h⟩
  | fuel + 1, path, storage, depth, hs => by
    simp only [discoveredIn.walk, FillFileListRecursively.walk, List.map_flatMap]
    apply foldlM_stepSpec _ _ _ _ _ hs
    intro s itr hsn
    by_cases hdir : w.is_directory itr = true
    · by_cases hdepth : depth < MAX_DEPTH
      · simp only [hdir, hdepth, if_true]
        exact walk_stepSpec w state fuel itr s (depth + 1) hsn
      · simp only [hdir, hdepth, if_true, if_false, List.map_nil]
        exact ⟨fun _ => ⟨s, rfl, by simp⟩, fun h => absurd (by simpa using hsn) h⟩
    · by_cases hext : (extension itr == ".sql") = true
      · simp only [hdir, hext, if_true, Bool.false_eq_true, if_false, List.map_cons, List.map_nil]
        by_cases hfind : (LocaleFileStorage.find s ⟨itr, state⟩).isSome = true
        · simp only [hfind, if_true]
          refine ⟨fun h => ?_, fun _ => ⟨_, rfl⟩⟩
          exfalso
          rw [Option.isSome_iff_exists] at hfind
          obtain ⟨x, hx⟩ := hfind
          simp only [LocaleFileStorage.find] at hx
          have hmem := List.mem_of_find?_eq_some hx
          have hkey : filename x.path = filename itr := by simpa using List.find?_some hx
          have : filename itr ∈ s.names :=
            List.mem_map.2 ⟨x, hmem, hkey⟩
          have hdis := (List.nodup_append.1 h).2.2
          exact hdis this (List.mem_singleton_self _)
        · simp only [hfind, Bool.false_eq_true, if_false]
          have hnot : filename itr ∉ s.names := by
            intro hmem
            apply hfind
            obtain ⟨x, hx, hkey⟩ := List.mem_map.1 hmem
            cases hf : LocaleFileStorage.find s ⟨itr, state⟩ with
            | some y => rfl
            | none =>
              simp only [LocaleFileStorage.find, List.find?_eq_none] at hf
              exact absurd (by simpa using hkey) (hf x hx)
          have hperm : (LocaleFileStorage.insert s ⟨itr, state⟩).names.Perm
              (s.names ++ [filename itr]) := by
            have h1 := insertByKey_perm (fun x : LocaleFileEntry => filename x.path) ⟨itr, state⟩ s hnot
            have h2 := h1.map (fun x : LocaleFileEntry => filename x.path)
            simp only [List.map_cons] at h2
            exact h2.trans (List.perm_append_singleton _ _).symm
          refine ⟨fun _ => ⟨_, rfl, hperm⟩, fun h => absurd ?_ h⟩
          rw [List.nodup_append]
          refine ⟨hsn, List.nodup_singleton _, ?_⟩
          intro a ha hb
          rw [List.mem_singleton] at hb
          exact hnot (hb ▸ ha)
      · simp only [hdir, hext, Bool.false_eq_true, if_false, List.map_nil]
        exact ⟨fun _ => ⟨s, rfl, by simp⟩, fun h => absurd (by simpa using hsn) h⟩

theorem GetFileList_stepSpec (w : World) :
    StepSpec [] ((discovered w).map filename) (GetFileList w) := by
  simp only [discovered, GetFileList, List.map_flatMap]
  apply foldlM_stepSpec _ _ _ _ _ (by simp [LocaleFileStorage.names])
  intro s entry hs
  exact walk_stepSpec w entry.state _ entry.path s 1 hs

theorem GetFileList_nodup (w : World) (available : LocaleFileStorage)
    (h : GetFileList w = .ok available) : available.names.Nodup := by
  have hspec := GetFileList_stepSpec w
  by_cases hnd : (LocaleFileStorage.names [] ++ (discovered w).map filename).Nodup
  · obtain ⟨s2, hs2, hperm⟩ := hspec.1 hnd
    rw [h] at hs2
    cases hs2
    exact hperm.nodup_iff.2 hnd
  · obtain ⟨e, he⟩ := hspec.2 hnd
    rw [h] at he
    cases he


/-! ## Lemmas on the pass -/

section Pass

variable (w : World) (ledger : Ledger) (rc ar arch : Bool)

theorem Update.final_split (available : LocaleFileStorage) (pre post : List LocaleFileEntry) (F : LocaleFileEntry)
    (hsplit : available = pre ++ F :: post) :
    Update.final w ledger rc ar arch available =
      Update.loop w rc ar arch available (Update.hashToName w (ReceiveAppliedFiles ledger)) post
        (Update.onFile w ledger rc ar arch available pre F) := by
  simp only [Update.final, Update.onFile, Update.before]
  conv => lhs; arg 7; rw [hsplit]
  rw [Update.loop_append, Update.loop_cons]

theorem split_names_ne (available : LocaleFileStorage) (pre post : List LocaleFileEntry) (F : LocaleFileEntry)
    (hnd : available.names.Nodup) (hsplit : available = pre ++ F :: post) :
    ∀ q ∈ pre, filename q.path ≠ filename F.path := by
  subst hsplit
  intro q hq heq
  simp only [LocaleFileStorage.names, List.map_append, List.map_cons] at hnd
  have := (List.nodup_append.1 hnd).2.2
  exact this (List.mem_map.2 ⟨q, hq, heq⟩) (List.mem_cons_self _ _)

/-- When the loop reaches a discovered file, the pending set holds for its
name what the ledger held when the pass began, and the counter is at most
the number of files processed. -/
theorem Update.before_find (available : LocaleFileStorage) (pre post : List LocaleFileEntry) (F : LocaleFileEntry)
    (hfiles : GetFileList w = .ok available) (hsplit : available = pre ++ F :: post) :
    (Update.before w ledger rc ar arch available pre).applied.find (filename F.path)
      = (ReceiveAppliedFiles ledger).find (filename F.path) ∧
    (Update.before w ledger rc ar arch available pre).importedUpdates ≤ pre.length := by
  constructor
  · apply Update.loop_find
    · exact split_names_ne available pre post F (GetFileList_nodup w available hfiles) hsplit
    · exact ⟨F, by simp [hsplit], rfl⟩
  · have := Update.loop_imported w rc ar arch available
      (Update.hashToName w (ReceiveAppliedFiles ledger)) pre ⟨ReceiveAppliedFiles ledger, 0, []⟩
    simpa [Update.before] using this

theorem Update.execute_isApplyStep (st : LoopState) (F : LocaleFileEntry)
    (iter : Option AppliedFileEntry) (hiter : st.applied.find (filename F.path) = iter) :
    IsApplyStep w st F (Update.execute w st F iter (hashOf w F) .MODE_APPLY) := by
  refine ⟨?_, ?_, Update.execute_applied w st F iter _ _ hiter⟩
  · simp [Update.execute, Apply, UpdateEntry, hashOf]
  · simp [Update.execute]

end Pass


/-! ## Lemmas on the trace -/

section Trace

variable (w : World) (rc ar arch : Bool) (available : LocaleFileStorage)
  (hashToName : HashToFileNameStorage)

theorem Update.execute_trace (st : LoopState) (q : LocaleFileEntry)
    (iter : Option AppliedFileEntry) (hash : String) (mode : UpdateMode) :
    ∃ evs, (Update.execute w st q iter hash mode).trace = st.trace ++ evs ∧
      ∀ ev ∈ evs, ev.concerns q = true := by
  cases mode with
  | MODE_APPLY =>
    refine ⟨[Event.applyFile q.path, Event.apply (Stmt.replace (filename q.path) hash q.state
      (w.elapsed q.path % 4294967296))], by simp [Update.execute, Apply, UpdateEntry], ?_⟩
    intro ev hev
    simp only [List.mem_cons, List.mem_singleton, List.not_mem_nil, or_false] at hev
    rcases hev with rfl | rfl <;> simp [Event.concerns]
  | MODE_REHASH =>
    refine ⟨[Event.apply (Stmt.replace (filename q.path) hash q.state 0)],
      by simp [Update.execute, UpdateEntry], ?_⟩
    intro ev hev
    simp only [List.mem_singleton] at hev
    subst hev
    simp [Event.concerns]

/-- The calls a body makes are calls for its file. -/
theorem Update.body_trace (st : LoopState) (q : LocaleFileEntry) :
    ∃ evs, (Update.body w rc ar arch available hashToName st q).trace = st.trace ++ evs ∧
      ∀ ev ∈ evs, ev.concerns q = true := by
  cases hit : st.applied.find (filename q.path) with
  | none =>
    rw [Update.body_none w rc ar arch available hashToName st q hit]
    split
    · split
      · exact Update.execute_trace w st q _ _ _
      · rename_i old _ _
        refine ⟨RenameEntry old (filename q.path), rfl, ?_⟩
        intro ev hev
        simp only [RenameEntry, List.mem_cons, List.mem_singleton, List.not_mem_nil,
          or_false] at hev
        rcases hev with rfl | rfl <;> simp [Event.concerns]
    · exact Update.execute_trace w st q _ _ _
  | some e =>
    rw [Update.body_some w rc ar arch available hashToName st q e hit]
    split
    · exact ⟨[], by simp, by simp⟩
    · split
      · exact Update.execute_trace w st q _ _ _
      · split
        · exact Update.execute_trace w st q _ _ _
        · refine ⟨_, rfl, ?_⟩
          intro ev hev
          split at hev
          · simp only [UpdateState, List.mem_singleton] at hev
            subst hev
            simp [Event.concerns]
          · cases hev

/-- The calls the loop makes are calls for the files it processes. -/
theorem Update.loop_trace (files : List LocaleFileEntry) (st : LoopState) :
    ∃ evs, (Update.loop w rc ar arch available hashToName files st).trace = st.trace ++ evs ∧
      ∀ ev ∈ evs, ∃ q ∈ files, ev.concerns q = true := by
  induction files generalizing st with
  | nil => exact ⟨[], by simp [Update.loop_nil], by simp⟩
  | cons q files ih =>
    obtain ⟨evs1, h1, hc1⟩ := Update.body_trace w rc ar arch available hashToName st q
    obtain ⟨evs2, h2, hc2⟩ := ih (Update.body w rc ar arch available hashToName st q)
    refine ⟨evs1 ++ evs2, by rw [Update.loop_cons, h2, h1, List.append_assoc], ?_⟩
    intro ev hev
    rcases List.mem_append.1 hev with h | h
    · exact ⟨q, List.mem_cons_self _ _, hc1 ev h⟩
    · obtain ⟨q2, hq2, hc⟩ := hc2 ev h
      exact ⟨q2, List.mem_cons_of_mem _ hq2, hc⟩

end Trace


theorem Event.concerns_filename (q F : LocaleFileEntry) (ev : Event)
    (hq : ev.concerns q = true) (hF : ev.concerns F = true) :
    filename q.path = filename F.path := by
  cases ev with
  | applyFile p =>
    simp only [Event.concerns, beq_iff_eq] at hq hF
    rw [← hq, ← hF]
  | apply s =>
    cases s <;> simp only [Event.concerns, beq_iff_eq, Bool.false_eq_true] at hq hF <;>
      rw [← hq, ← hF]

theorem Update.orphans_not_concerns (applied : AppliedFileStorage) (cap : Int)
    (F : LocaleFileEntry) : ∀ ev ∈ Update.orphans applied cap, ev.concerns F = false := by
  intro ev hev
  simp only [Update.orphans, CleanUp] at hev
  split at hev
  · split at hev
    · split at hev
      · cases hev
      · simp only [List.mem_singleton] at hev
        subst hev
        rfl
    · cases hev
  · cases hev

section Count

variable (w : World) (ledger : Ledger) (rc ar arch : Bool) (cap : Int)

/-- The trace of a pass that discovers its files, around one of them: the
calls for the files before it, the calls for the file, the calls for the
files after it and the handling of the orphans. -/
theorem Update.trace_split (available : LocaleFileStorage) (pre post : List LocaleFileEntry)
    (F : LocaleFileEntry)
    (hfiles : GetFileList w = .ok available) (hsplit : available = pre ++ F :: post) :
    ∃ evsPre evsF evsPost,
      (Update.before w ledger rc ar arch available pre).trace = evsPre ∧
      (Update.onFile w ledger rc ar arch available pre F).trace = evsPre ++ evsF ∧
      (Update w ledger rc ar arch cap).trace =
        evsPre ++ evsF ++ evsPost ++
          Update.orphans (Update.final w ledger rc ar arch available).applied cap ∧
      (∀ ev ∈ evsPre, ∃ q ∈ pre, ev.concerns q = true) ∧
      (∀ ev ∈ evsF, ev.concerns F = true) ∧
      (∀ ev ∈ evsPost, ∃ q ∈ post, ev.concerns q = true) := by
  obtain ⟨evsPre, h1, hc1⟩ := Update.loop_trace w rc ar arch available
    (Update.hashToName w (ReceiveAppliedFiles ledger)) pre ⟨ReceiveAppliedFiles ledger, 0, []⟩
  obtain ⟨evsF, h2, hc2⟩ := Update.body_trace w rc ar arch available
    (Update.hashToName w (ReceiveAppliedFiles ledger))
    (Update.before w ledger rc ar arch available pre) F
  obtain ⟨evsPost, h3, hc3⟩ := Update.loop_trace w rc ar arch available
    (Update.hashToName w (ReceiveAppliedFiles ledger)) post
    (Update.onFile w ledger rc ar arch available pre F)
  simp only [List.nil_append] at h1
  refine ⟨evsPre, evsF, evsPost, h1, ?_, ?_, hc1, hc2, hc3⟩
  · rw [Update.onFile, h2]
    congr 1
  · simp only [Update, hfiles]
    rw [Update.final_split w ledger rc ar arch available pre post F hsplit, h3]
    rw [Update.onFile, h2]
    congr 3

/-- A call for a discovered file occurs in the trace of the pass as often as
among the calls the body makes on that file. -/
theorem Update.count_concerning (available : LocaleFileStorage)
    (pre post : List LocaleFileEntry) (F : LocaleFileEntry)
    (hfiles : GetFileList w = .ok available) (hsplit : available = pre ++ F :: post)
    (ev0 : Event) (h0 : ev0.concerns F = true) (evsF : List Event)
    (hF : (Update.onFile w ledger rc ar arch available pre F).trace =
      (Update.before w ledger rc ar arch available pre).trace ++ evsF) :
    List.count ev0 (Update w ledger rc ar arch cap).trace = List.count ev0 evsF := by
  obtain ⟨evsPre, evsF2, evsPost, h1, h2, h3, hc1, _, hc3⟩ :=
    Update.trace_split w ledger rc ar arch cap available pre post F hfiles hsplit
  have hnd := GetFileList_nodup w available hfiles
  rw [h1, h2] at hF
  have hev : evsF2 = evsF := List.append_cancel_left hF
  subst hev
  have hpre : ev0 ∉ evsPre := by
    intro hmem
    obtain ⟨q, hq, hc⟩ := hc1 ev0 hmem
    exact split_names_ne available pre post F hnd hsplit q hq
      (Event.concerns_filename q F ev0 hc h0)
  have hpost : ev0 ∉ evsPost := by
    intro hmem
    obtain ⟨q, hq, hc⟩ := hc3 ev0 hmem
    have hname := Event.concerns_filename q F ev0 hc h0
    subst hsplit
    simp only [LocaleFileStorage.names, List.map_append, List.map_cons] at hnd
    have h4 := (List.nodup_append.1 hnd).2.1
    exact (List.nodup_cons.1 h4).1 (hname ▸ List.mem_map.2 ⟨q, hq, rfl⟩)
  have horph : ev0 ∉ Update.orphans (Update.final w ledger rc ar arch available).applied cap := by
    intro hmem
    have := Update.orphans_not_concerns _ cap F ev0 hmem
    rw [h0] at this
    cases this
  rw [h3]
  simp only [List.count_append, List.count_eq_zero_of_not_mem hpre,
    List.count_eq_zero_of_not_mem hpost, List.count_eq_zero_of_not_mem horph]
  omega

end Count


section Apply

variable (w : World) (ledger : Ledger) (rc ar arch : Bool)

/-- What the classification as APPLY means for the pass as a whole. -/
theorem isApplyStep_pass (available : LocaleFileStorage) (pre post : List LocaleFileEntry)
    (F : LocaleFileEntry)
    (hfiles : GetFileList w = .ok available) (hsplit : available = pre ++ F :: post)
    (happly : IsApplyStep w (Update.before w ledger rc ar arch available pre) F
      (Update.onFile w ledger rc ar arch available pre F)) :
    (available.length < 4294967296 →
      (Update.onFile w ledger rc ar arch available pre F).importedUpdates =
        (Update.before w ledger rc ar arch available pre).importedUpdates + 1) ∧
    (∀ cap : Int,
      List.count (Event.applyFile F.path) (Update w ledger rc ar arch cap).trace = 1 ∧
      List.count (Event.apply (Stmt.replace (filename F.path) (hashOf w F) F.state
        (w.elapsed F.path % 4294967296))) (Update w ledger rc ar arch cap).trace = 1 ∧
      List.count (Event.apply (Stmt.deleteName (filename F.path)))
        (Update w ledger rc ar arch cap).trace = 0 ∧
      ∀ src, List.count (Event.apply (Stmt.rename src (filename F.path)))
        (Update w ledger rc ar arch cap).trace = 0) := by
  obtain ⟨_, hle⟩ := Update.before_find w ledger rc ar arch available pre post F hfiles hsplit
  refine ⟨fun hlen => ?_, fun cap => ⟨?_, ?_, ?_, fun src => ?_⟩⟩
  · rw [happly.2.1]
    apply Nat.mod_eq_of_lt
    have : pre.length < available.length := by simp [hsplit]
    omega
  · rw [Update.count_concerning w ledger rc ar arch cap available pre post F hfiles hsplit _
      (by simp [Event.concerns]) _ happly.1]
    simp
  · rw [Update.count_concerning w ledger rc ar arch cap available pre post F hfiles hsplit _
      (by simp [Event.concerns]) _ happly.1]
    simp
  · rw [Update.count_concerning w ledger rc ar arch cap available pre post F hfiles hsplit _
      (by simp [Event.concerns]) _ happly.1]
    simp
  · rw [Update.count_concerning w ledger rc ar arch cap available pre post F hfiles hsplit _
      (by simp [Event.concerns]) _ happly.1]
    simp

end Apply


theorem isApply_of_step (w : World) (ledger : Ledger) (rc ar arch : Bool)
    (available : LocaleFileStorage) (pre post : List LocaleFileEntry) (F : LocaleFileEntry)
    (hfiles : GetFileList w = .ok available) (hsplit : available = pre ++ F :: post)
    (happly : IsApplyStep w (Update.before w ledger rc ar arch available pre) F
      (Update.onFile w ledger rc ar arch available pre F)) :
    IsApply w ledger rc ar arch available pre F :=
  ⟨happly, isApplyStep_pass w ledger rc ar arch available pre post F hfiles hsplit happly⟩


/-- The loop hands no batched delete to `_apply`. -/
theorem Update.final_no_deleteIn (w : World) (ledger : Ledger) (rc ar arch : Bool)
    (available : LocaleFileStorage) (names : List String) :
    Event.apply (Stmt.deleteIn names) ∉ (Update.final w ledger rc ar arch available).trace := by
  intro hmem
  obtain ⟨evs, h1, hc⟩ := Update.loop_trace w rc ar arch available
    (Update.hashToName w (ReceiveAppliedFiles ledger)) available ⟨ReceiveAppliedFiles ledger, 0, []⟩
  simp only [List.nil_append] at h1
  rw [Update.final, h1] at hmem
  obtain ⟨q, _, hq⟩ := hc _ hmem
  simp [Event.concerns] at hq


/-! ## Lemmas on the rows the statements spare -/

/-- A statement leaves the rows of every name it does not mention as they
are. -/
theorem Stmt.exec_frame (s : Stmt) (db : Ledger) (n : String) (hn : n ∉ s.names) :
    (s.exec db).filter (fun r => r.name == n) = db.filter (fun r => r.name == n) := by
  cases s with
  | replace m h st sp =>
    simp only [Stmt.names, List.mem_singleton] at hn
    simp only [Stmt.exec, List.filter_append, List.filter_filter]
    have h1 : List.filter (fun r : LedgerRow => r.name == n) [⟨m, h, st, 0, sp⟩] = [] := by
      simp [List.filter_cons, Ne.symm hn]
    rw [h1, List.append_nil]
    apply List.filter_congr
    intro r _
    by_cases hr : r.name = n
    · simp [hr, hn]
    · simp [hr]
  | deleteName m =>
    simp only [Stmt.names, List.mem_singleton] at hn
    simp only [Stmt.exec, List.filter_filter]
    apply List.filter_congr
    intro r _
    by_cases hr : r.name = n
    · simp [hr, hn]
    · simp [hr]
  | rename src dst =>
    simp only [Stmt.names, List.mem_cons, List.mem_singleton, List.not_mem_nil, or_false,
      not_or] at hn
    simp only [Stmt.exec]
    induction db with
    | nil => rfl
    | cons r db ih =>
      simp only [List.map_cons, List.filter_cons]
      rw [ih]
      by_cases hr : r.name = src
      · have h1 : ¬ r.name = n := fun h => hn.1 (h.symm.trans hr)
        simp [hr, Ne.symm hn.2, Ne.symm hn.1]
      · simp [hr]
  | setState m st =>
    simp only [Stmt.exec]
    induction db with
    | nil => rfl
    | cons r db ih =>
      simp only [List.map_cons, List.filter_cons]
      rw [ih]
      simp only [Stmt.names, List.mem_singleton] at hn
      by_cases hr : r.name = m
      · simp [hr, Ne.symm hn]
      · simp [hr]
  | deleteIn ns =>
    simp only [Stmt.names] at hn
    simp only [Stmt.exec, List.filter_filter]
    apply List.filter_congr
    intro r _
    by_cases hr : r.name = n
    · simp [hr, hn]
    · simp [hr]

/-- A trace leaves the rows of every name none of its events mentions as
they are. -/
theorem runTrace_frame (trace : List Event) (db : Ledger) (n : String)
    (hn : ∀ ev ∈ trace, n ∉ ev.names) :
    (runTrace trace db).filter (fun r => r.name == n) = db.filter (fun r => r.name == n) := by
  induction trace generalizing db with
  | nil => rfl
  | cons ev trace ih =>
    simp only [runTrace, List.foldl_cons]
    have h1 := ih (ev.exec db) (fun e he => hn e (List.mem_cons_of_mem _ he))
    simp only [runTrace] at h1
    rw [h1]
    have h2 := hn ev (List.mem_cons_self _ _)
    cases ev with
    | applyFile p => rfl
    | apply s => exact Stmt.exec_frame s db n h2

section Spare

variable (w : World) (rc ar arch : Bool) (available : LocaleFileStorage)
  (hashToName : HashToFileNameStorage)

theorem Update.execute_names (st : LoopState) (q : LocaleFileEntry)
    (iter : Option AppliedFileEntry) (hash : String) (mode : UpdateMode) :
    ∃ evs, (Update.execute w st q iter hash mode).trace = st.trace ++ evs ∧
      ∀ ev ∈ evs, ∀ n ∈ ev.names, n = filename q.path := by
  cases mode with
  | MODE_APPLY =>
    refine ⟨[Event.applyFile q.path, Event.apply (Stmt.replace (filename q.path) hash q.state
      (w.elapsed q.path % 4294967296))], by simp [Update.execute, Apply, UpdateEntry], ?_⟩
    intro ev hev n hn
    simp only [List.mem_cons, List.mem_singleton, List.not_mem_nil, or_false] at hev
    rcases hev with rfl | rfl <;> simp [Event.names, Stmt.names] at hn
    exact hn
  | MODE_REHASH =>
    refine ⟨[Event.apply (Stmt.replace (filename q.path) hash q.state 0)],
      by simp [Update.execute, UpdateEntry], ?_⟩
    intro ev hev n hn
    simp only [List.mem_singleton] at hev
    subst hev
    simpa [Event.names, Stmt.names] using hn

/-- The statements of a body mention no name that stays in the pending
set. -/
theorem Update.body_names (st : LoopState) (q : LocaleFileEntry) :
    ∃ evs, (Update.body w rc ar arch available hashToName st q).trace = st.trace ++ evs ∧
      ∀ ev ∈ evs, ∀ n ∈ ev.names,
        ∀ o ∈ (Update.body w rc ar arch available hashToName st q).applied, o.name ≠ n := by
  have hself : ∀ n, n = filename q.path →
      ∀ o ∈ (Update.body w rc ar arch available hashToName st q).applied, o.name ≠ n := by
    intro n hn o ho
    rw [hn]
    exact Update.body_not_mem w rc ar arch available hashToName st q o ho
  have hexec : ∀ iter hash mode,
      Update.body w rc ar arch available hashToName st q = Update.execute w st q iter hash mode →
      ∃ evs, (Update.body w rc ar arch available hashToName st q).trace = st.trace ++ evs ∧
      ∀ ev ∈ evs, ∀ n ∈ ev.names,
        ∀ o ∈ (Update.body w rc ar arch available hashToName st q).applied, o.name ≠ n := by
    intro iter hash mode heq
    obtain ⟨evs, h1, h2⟩ := Update.execute_names w st q iter hash mode
    exact ⟨evs, by rw [heq, h1], fun ev hev n hn => hself n (h2 ev hev n hn)⟩
  cases hit : st.applied.find (filename q.path) with
  | none =>
    have hb := Update.body_none w rc ar arch available hashToName st q hit
    cases hh : hashToName.find (CalculateHash w (ReadSQLUpdate w q.path)) with
    | none =>
      rw [hh] at hb
      exact hexec _ _ _ hb
    | some old =>
      rw [hh] at hb
      simp only [] at hb
      by_cases hc : (List.find? (fun l => filename l.path == old) available).isSome = true
      · rw [if_pos hc] at hb
        exact hexec _ _ _ hb
      · rw [if_neg hc] at hb
        refine ⟨RenameEntry old (filename q.path), by rw [hb], ?_⟩
        intro ev hev n hn o ho
        simp only [RenameEntry, List.mem_cons, List.mem_singleton, List.not_mem_nil,
          or_false] at hev
        rcases hev with rfl | rfl
        · simp only [Event.names, Stmt.names, List.mem_singleton] at hn
          exact hself n hn o ho
        · simp only [Event.names, Stmt.names, List.mem_cons, List.mem_singleton,
            List.not_mem_nil, or_false] at hn
          rcases hn with rfl | rfl
          · rw [hb] at ho
            exact ((AppliedFileStorage.mem_erase _ _ _).1 ho).2
          · exact hself _ rfl o ho
  | some e =>
    have hb := Update.body_some w rc ar arch available hashToName st q e hit
    by_cases h1 : (!rc || (!arch && e.state == ARCHIVED && q.state == ARCHIVED)) = true
    · rw [if_pos h1] at hb
      exact ⟨[], by rw [hb]; simp, by simp⟩
    · rw [if_neg h1] at hb
      by_cases h2 : (ar && e.hash == "") = true
      · rw [if_pos h2] at hb
        exact hexec _ _ _ hb
      · rw [if_neg h2] at hb
        by_cases h3 : (e.hash != CalculateHash w (ReadSQLUpdate w q.path)) = true
        · rw [if_pos h3] at hb
          exact hexec _ _ _ hb
        · rw [if_neg h3] at hb
          refine ⟨_, by rw [hb], ?_⟩
          intro ev hev n hn
          split at hev
          · simp only [UpdateState, List.mem_singleton] at hev
            subst hev
            simp only [Event.names, Stmt.names, List.mem_singleton] at hn
            exact hself n hn
          · cases hev

/-- The statements of the loop mention no name that is in the pending set
when the loop ends. -/
theorem Update.loop_names (files : List LocaleFileEntry) (st : LoopState) :
    ∃ evs, (Update.loop w rc ar arch available hashToName files st).trace = st.trace ++ evs ∧
      ∀ ev ∈ evs, ∀ n ∈ ev.names,
        ∀ o ∈ (Update.loop w rc ar arch available hashToName files st).applied, o.name ≠ n := by
  induction files generalizing st with
  | nil => exact ⟨[], by simp [Update.loop_nil], by simp⟩
  | cons q files ih =>
    obtain ⟨evs1, h1, hc1⟩ := Update.body_names w rc ar arch available hashToName st q
    obtain ⟨evs2, h2, hc2⟩ := ih (Update.body w rc ar arch available hashToName st q)
    refine ⟨evs1 ++ evs2, by rw [Update.loop_cons, h2, h1, List.append_assoc], ?_⟩
    intro ev hev n hn o ho
    rw [Update.loop_cons] at ho
    rcases List.mem_append.1 hev with h | h
    · exact hc1 ev h n hn o (Update.loop_subset w rc ar arch available hashToName files _ o ho)
    · exact hc2 ev h n hn o ho

end Spare


/-! ## Lemmas on the branches -/

section Classify

variable (w : World) (rc ar arch : Bool) (available : LocaleFileStorage)
  (hashToName : HashToFileNameStorage)

/-- The body of the loop does what its branch says. -/
theorem Update.body_eq_perform (st : LoopState) (q : LocaleFileEntry) :
    Update.body w rc ar arch available hashToName st q =
      Update.perform w st q (Update.classify w rc ar arch available hashToName st.applied q) := by
  cases hit : st.applied.find (filename q.path) with
  | none =>
    rw [Update.body_none w rc ar arch available hashToName st q hit]
    simp only [Update.classify, hit, hashOf]
    cases hh : hashToName.find (CalculateHash w (ReadSQLUpdate w q.path)) with
    | none => simp only [Update.perform, hit, hashOf]
    | some old =>
      simp only []
      split
      · simp only [Update.perform, hit, hashOf]
      · simp only [Update.perform]
  | some e =>
    rw [Update.body_some w rc ar arch available hashToName st q e hit]
    simp only [Update.classify, hit, hashOf]
    cases rc
    · simp [Update.perform]
    · by_cases h1 : (!arch && e.state == ARCHIVED && q.state == ARCHIVED) = true
      · simp [h1, Update.perform]
      · by_cases h2 : (ar && e.hash == "") = true
        · simp only [Bool.not_true, Bool.false_or, h1, h2, if_true, Bool.false_eq_true, if_false,
            Update.perform, hit, hashOf]
        · by_cases h3 : (e.hash != CalculateHash w (ReadSQLUpdate w q.path)) = true
          · simp only [Bool.not_true, Bool.false_or, h1, h2, h3, if_true, Bool.false_eq_true,
              if_false, Update.perform, hit, hashOf]
          · simp only [Bool.not_true, Bool.false_or, h1, h2, h3, Bool.false_eq_true,
              if_false, Update.perform, hit]

end Classify


section Counting

variable (w : World) (rc ar arch : Bool) (available : LocaleFileStorage)
  (hashToName : HashToFileNameStorage)

/-- The counter and the calls of the executor after a branch. -/
theorem Update.perform_count (st : LoopState) (q : LocaleFileEntry) (a : Action) :
    (Update.perform w st q a).importedUpdates =
      (if a = .APPLY then (st.importedUpdates + 1) % 4294967296 else st.importedUpdates) ∧
    (Update.perform w st q a).trace.countP Event.isApplyFile =
      st.trace.countP Event.isApplyFile + (if a = .APPLY then 1 else 0) := by
  cases a with
  | SKIP => simp [Update.perform]
  | SKIP_ARCHIVED => simp [Update.perform]
  | RENAME old => simp [Update.perform, RenameEntry, Event.isApplyFile, List.countP_cons]
  | REHASH =>
    simp [Update.perform, Update.execute, UpdateEntry, Event.isApplyFile, List.countP_cons]
  | MATCH =>
    simp only [Update.perform, reduceCtorEq, if_false, List.countP_append, Nat.add_zero,
      true_and]
    cases st.applied.find (filename q.path) with
    | none => simp
    | some e =>
      simp only []
      split <;> simp [UpdateState, Event.isApplyFile, List.countP_cons]
  | APPLY =>
    simp [Update.perform, Update.execute, Apply, UpdateEntry, Event.isApplyFile,
      List.countP_cons]

theorem Update.actions_length (files : List LocaleFileEntry) (st : LoopState) :
    (Update.actions w rc ar arch available hashToName files st).length = files.length := by
  induction files generalizing st with
  | nil => rfl
  | cons q files ih => simp [Update.actions, ih]

/-- The counter after the loop is the counter before it plus the number of
files in the branch APPLY, as an unsigned 32 bit number; the executor is
called once for each of these files. -/
theorem Update.loop_count (files : List LocaleFileEntry) (st : LoopState)
    (hst : st.importedUpdates < 4294967296) :
    (Update.loop w rc ar arch available hashToName files st).importedUpdates =
      (st.importedUpdates +
        (Update.actions w rc ar arch available hashToName files st).count .APPLY) % 4294967296 ∧
    (Update.loop w rc ar arch available hashToName files st).trace.countP Event.isApplyFile =
      st.trace.countP Event.isApplyFile +
        (Update.actions w rc ar arch available hashToName files st).count .APPLY := by
  induction files generalizing st with
  | nil =>
    refine ⟨?_, by simp [Update.loop_nil, Update.actions]⟩
    simp only [Update.loop_nil, Update.actions, List.count_nil, Nat.add_zero]
    omega
  | cons q files ih =>
    have hp := Update.perform_count w st q
      (Update.classify w rc ar arch available hashToName st.applied q)
    rw [← Update.body_eq_perform] at hp
    obtain ⟨hp1, hp2⟩ := hp
    have hlt : (Update.body w rc ar arch available hashToName st q).importedUpdates
        < 4294967296 := by
      rw [hp1]
      split <;> omega
    obtain ⟨h1, h3⟩ := ih (Update.body w rc ar arch available hashToName st q) hlt
    rw [Update.loop_cons]
    simp only [Update.actions, List.count_cons]
    by_cases ha : Update.classify w rc ar arch available hashToName st.applied q = .APPLY
    · simp only [ha, if_true, beq_self_eq_true] at hp1 hp2 ⊢
      refine ⟨?_, ?_⟩
      · rw [h1, hp1]
        omega
      · rw [h3, hp2]
        omega
    · have hb : (Update.classify w rc ar arch available hashToName st.applied q == Action.APPLY)
          = false := by simpa using ha
      simp only [ha, if_false, hb, Bool.false_eq_true] at hp1 hp2 ⊢
      refine ⟨?_, ?_⟩
      · rw [h1, hp1]
        omega
      · rw [h3, hp2]
        omega

end Counting


theorem Update.orphans_no_applyFile (applied : AppliedFileStorage) (cap : Int) :
    (Update.orphans applied cap).countP Event.isApplyFile = 0 := by
  simp only [Update.orphans, CleanUp]
  split
  · split
    · split <;> simp [Event.isApplyFile, List.countP_cons]
    · rfl
  · rfl

/-- The number a pass returns and the calls of the executor it makes, from
the number of files in the branch APPLY. -/
theorem Update.pass_count (w : World) (ledger : Ledger) (rc ar arch : Bool) (cap : Int)
    (available : LocaleFileStorage) (hfiles : GetFileList w = .ok available) :
    (Update w ledger rc ar arch cap).result =
      .ok ((Update.passActions w ledger rc ar arch available).count .APPLY % 4294967296) ∧
    (Update w ledger rc ar arch cap).trace.countP Event.isApplyFile =
      (Update.passActions w ledger rc ar arch available).count .APPLY ∧
    (Update.passActions w ledger rc ar arch available).length = available.length := by
  obtain ⟨h1, h2⟩ := Update.loop_count w rc ar arch available
    (Update.hashToName w (ReceiveAppliedFiles ledger)) available
    ⟨ReceiveAppliedFiles ledger, 0, []⟩ (Nat.zero_lt_succ _)
  simp only [Nat.zero_add, List.countP_nil] at h1 h2
  refine ⟨?_, ?_, Update.actions_length _ _ _ _ _ _ _ _⟩
  · simp only [Update, hfiles, Update.final, Update.passActions]
    rw [h1]
  · simp only [Update, hfiles, Update.final, Update.passActions, List.countP_append,
      Update.orphans_no_applyFile, Nat.add_zero]
    rw [h2]


/-! ## A source tree with many files -/

theorem digitChar_toNat (d : Nat) (hd : d < 10) : (digitChar d).toNat = 48 + d := by
  interval_cases d <;> rfl

theorem digitChar_ne (d : Nat) (hd : d < 10) : digitChar d ≠ '/' ∧ digitChar d ≠ '.' := by
  interval_cases d <;> decide

theorem digitChars_ne (i : Nat) : ∀ c ∈ digitChars i, c ≠ '/' ∧ c ≠ '.' := by
  intro c hc
  simp only [digitChars, List.mem_map] at hc
  obtain ⟨d, hd, rfl⟩ := hc
  exact digitChar_ne d (Nat.digits_lt_base (by decide) hd)

theorem digitChars_back (i : Nat) :
    (digitChars i).map (fun c => c.toNat - 48) = Nat.digits 10 i := by
  simp only [digitChars, List.map_map]
  conv => rhs; rw [← List.map_id (Nat.digits 10 i)]
  apply List.map_congr_left
  intro d hd
  simp only [Function.comp, id, digitChar_toNat d (Nat.digits_lt_base (by decide) hd)]
  omega

theorem digitChars_injective : Function.Injective digitChars := by
  intro i j h
  have hdig : Nat.digits 10 i = Nat.digits 10 j := by
    rw [← digitChars_back i, ← digitChars_back j, h]
  exact Nat.digits_inj_iff.1 hdig

theorem takeWhile_append_of_all {α : Type} (p : α → Bool) (l r : List α)
    (h : ∀ x ∈ l, p x = true) : (l ++ r).takeWhile p = l ++ r.takeWhile p := by
  induction l with
  | nil => rfl
  | cons x xs ih =>
    simp only [List.cons_append, List.takeWhile_cons, h x (List.mem_cons_self _ _), if_true]
    rw [ih (fun y hy => h y (List.mem_cons_of_mem _ hy))]

theorem filename_floodPath (i : Nat) :
    filename (floodPath i) = String.mk ('m' :: digitChars i ++ ['.', 's', 'q', 'l']) := by
  simp only [filename, floodPath]
  congr 1
  have hrev : (['/', 'd', '/', 'm'] ++ digitChars i ++ ['.', 's', 'q', 'l']).reverse =
      (['l', 'q', 's', '.'] ++ (digitChars i).reverse ++ ['m']) ++ ['/', 'd', '/'] := by
    simp
  rw [hrev, takeWhile_append_of_all]
  · simp
  · intro x hx
    simp only [List.mem_append, List.mem_cons, List.mem_singleton, List.not_mem_nil, or_false,
      List.mem_reverse] at hx
    rcases hx with (hx | hx) | hx
    · rcases hx with rfl | rfl | rfl | rfl <;> decide
    · simpa using (digitChars_ne i x hx).1
    · subst hx; decide

theorem extension_floodPath (i : Nat) : extension (floodPath i) = ".sql" := by
  simp only [extension, filename_floodPath]
  have h1 : ¬ ('m' :: digitChars i ++ ['.', 's', 'q', 'l'] = ['.'] ∨
      'm' :: digitChars i ++ ['.', 's', 'q', 'l'] = ['.', '.']) := by
    rintro (h | h) <;> simp at h
  rw [if_neg h1]
  have h2 : ('m' :: digitChars i ++ ['.', 's', 'q', 'l']).contains '.' = true := by
    simp
  rw [if_pos h2]
  have hrev : ('m' :: digitChars i ++ ['.', 's', 'q', 'l']).reverse =
      ['l', 'q', 's'] ++ ('.' :: ((digitChars i).reverse ++ ['m'])) := by
    simp
  rw [hrev, takeWhile_append_of_all _ _ _ (by decide)]
  simp

theorem floodPath_not_dir (i : Nat) : (floodPath i == "/d") = false := by
  have : floodPath i ≠ "/d" := by
    intro h
    have := congrArg (fun s => s.data.length) h
    simp [floodPath] at this
  simpa using this

theorem floodPath_names_nodup (n : Nat) :
    (((List.range n).map floodPath).map filename).Nodup := by
  rw [List.map_map]
  apply List.Nodup.map _ (List.nodup_range n)
  intro i j h
  simp only [Function.comp, filename_floodPath] at h
  have hdata := congrArg String.data h
  simp only [List.cons_append, List.cons.injEq, true_and] at hdata
  exact digitChars_injective (List.append_cancel_right hdata)


theorem floodOf_includes (n : Nat) :
    ReceiveIncludedDirectories (floodOf n) = [⟨"/d", ACTIVE⟩] := by
  rfl

theorem floodOf_flatMap (n : Nat) (depth fuel : Nat) (l : List Nat) :
    (l.map floodPath).flatMap (fun itr =>
      if (floodOf n).is_directory itr then
        if depth < MAX_DEPTH then discoveredIn.walk (floodOf n) fuel itr (depth + 1) else []
      else if extension itr == ".sql" then [itr]
      else []) = l.map floodPath := by
  induction l with
  | nil => rfl
  | cons i l ih =>
    simp only [List.map_cons, List.flatMap_cons, ih]
    have h1 : (floodOf n).is_directory (floodPath i) = false := floodPath_not_dir i
    simp [h1, extension_floodPath]

theorem floodOf_discovered (n : Nat) :
    discovered (floodOf n) = (List.range n).map floodPath := by
  simp only [discovered, floodOf_includes, List.flatMap_cons, List.flatMap_nil, List.append_nil,
    discoveredIn]
  have hfuel : MAX_DEPTH - 1 + 1 = 9 + 1 := rfl
  rw [hfuel, discoveredIn.walk]
  have hent : (floodOf n).entries "/d" = (List.range n).map floodPath := by
    simp [floodOf]
  rw [hent]
  exact floodOf_flatMap n 1 9 (List.range n)

theorem floodOf_files (n : Nat) :
    ∃ available, GetFileList (floodOf n) = .ok available ∧ available.length = n := by
  have hspec := GetFileList_stepSpec (floodOf n)
  simp only [StepSpec, LocaleFileStorage.names, List.map_nil, List.nil_append] at hspec
  have hnd : ((discovered (floodOf n)).map filename).Nodup := by
    rw [floodOf_discovered]
    exact floodPath_names_nodup n
  obtain ⟨s2, hs2, hperm⟩ := hspec.1 hnd
  refine ⟨s2, hs2, ?_⟩
  have := hperm.length_eq
  simpa [floodOf_discovered] using this

section Empty

variable (w : World) (rc ar arch : Bool) (available : LocaleFileStorage)

/-- With no record in the ledger every file is in the branch APPLY. -/
theorem Update.actions_of_empty (files : List LocaleFileEntry) (st : LoopState)
    (hst : st.applied = []) :
    Update.actions w rc ar arch available [] files st = List.replicate files.length .APPLY := by
  induction files generalizing st with
  | nil => rfl
  | cons q files ih =>
    have hnext : (Update.body w rc ar arch available [] st q).applied = [] := by
      apply List.eq_nil_iff_forall_not_mem.2
      intro e he
      have := Update.body_subset w rc ar arch available [] st q e he
      rw [hst] at this
      cases this
    simp only [Update.actions, List.length_cons, List.replicate_succ, ih _ hnext]
    congr 1
    simp [Update.classify, hst, AppliedFileStorage.find, HashToFileNameStorage.find]

end Empty

theorem floodOf_pass (n : Nat) (rc ar arch : Bool) (cap : Int) :
    (Update (floodOf n) [] rc ar arch cap).result = .ok (n % 4294967296) ∧
    (Update (floodOf n) [] rc ar arch cap).trace.countP Event.isApplyFile = n ∧
    ∃ available, GetFileList (floodOf n) = .ok available ∧
      (Update.passActions (floodOf n) [] rc ar arch available).count .APPLY = n := by
  obtain ⟨available, hfiles, hlen⟩ := floodOf_files n
  obtain ⟨h1, h2, _⟩ := Update.pass_count (floodOf n) [] rc ar arch cap available hfiles
  have hacts : Update.passActions (floodOf n) [] rc ar arch available =
      List.replicate available.length .APPLY :=
    Update.actions_of_empty (floodOf n) rc ar arch available available _ rfl
  have hcount : (Update.passActions (floodOf n) [] rc ar arch available).count .APPLY = n := by
    rw [hacts, List.count_replicate_self, hlen]
  rw [hcount] at h1 h2
  exact ⟨h1, h2, available, hfiles, hcount⟩


/-! ## Lemmas on the branch of a discovered file -/

section Known

variable (w : World) (ledger : Ledger) (rc ar arch : Bool)

/-- The branch of a discovered file is decided by the record the ledger
held for its name when the pass began. -/
theorem Update.classify_before (available : LocaleFileStorage)
    (pre post : List LocaleFileEntry) (F : LocaleFileEntry)
    (hfiles : GetFileList w = .ok available) (hsplit : available = pre ++ F :: post) :
    Update.classify w rc ar arch available (Update.hashToName w (ReceiveAppliedFiles ledger))
        (Update.before w ledger rc ar arch available pre).applied F =
      Update.classify w rc ar arch available (Update.hashToName w (ReceiveAppliedFiles ledger))
        (ReceiveAppliedFiles ledger) F := by
  obtain ⟨hfind, _⟩ := Update.before_find w ledger rc ar arch available pre post F hfiles hsplit
  simp only [Update.classify, hfind]

/-- The body on a discovered file does what the branch of the file says. -/
theorem Update.onFile_eq_perform (available : LocaleFileStorage)
    (pre post : List LocaleFileEntry) (F : LocaleFileEntry)
    (hfiles : GetFileList w = .ok available) (hsplit : available = pre ++ F :: post) :
    Update.onFile w ledger rc ar arch available pre F =
      Update.perform w (Update.before w ledger rc ar arch available pre) F
        (Update.classify w rc ar arch available (Update.hashToName w (ReceiveAppliedFiles ledger))
          (ReceiveAppliedFiles ledger) F) := by
  rw [Update.onFile, Update.body_eq_perform,
    Update.classify_before w ledger rc ar arch available pre post F hfiles hsplit]

/-- A file whose body adds no call has no call in the whole pass. -/
theorem Update.no_event_concerning (cap : Int) (available : LocaleFileStorage)
    (pre post : List LocaleFileEntry) (F : LocaleFileEntry)
    (hfiles : GetFileList w = .ok available) (hsplit : available = pre ++ F :: post)
    (htrace : (Update.onFile w ledger rc ar arch available pre F).trace =
      (Update.before w ledger rc ar arch available pre).trace)
    (ev : Event) (hev : ev.concerns F = true) :
    ev ∉ (Update w ledger rc ar arch cap).trace := by
  apply List.count_eq_zero.1
  rw [Update.count_concerning w ledger rc ar arch cap available pre post F hfiles hsplit ev hev []
    (by rw [htrace, List.append_nil])]
  rfl

/-- Every branch of a pass is the branch of one of its discovered files,
decided by the record the ledger held for its name. -/
theorem Update.passActions_mem (available : LocaleFileStorage)
    (hfiles : GetFileList w = .ok available) (a : Action)
    (ha : a ∈ Update.passActions w ledger rc ar arch available) :
    ∃ F ∈ available,
      a = Update.classify w rc ar arch available (Update.hashToName w (ReceiveAppliedFiles ledger))
        (ReceiveAppliedFiles ledger) F := by
  have key : ∀ (files pre : List LocaleFileEntry), available = pre ++ files →
      a ∈ Update.actions w rc ar arch available (Update.hashToName w (ReceiveAppliedFiles ledger))
        files (Update.before w ledger rc ar arch available pre) →
      ∃ F ∈ available,
        a = Update.classify w rc ar arch available
          (Update.hashToName w (ReceiveAppliedFiles ledger)) (ReceiveAppliedFiles ledger) F := by
    intro files
    induction files with
    | nil => intro pre _ h; cases h
    | cons q files ih =>
      intro pre hsplit h
      simp only [Update.actions, List.mem_cons] at h
      rcases h with h | h
      · refine ⟨q, by simp [hsplit], ?_⟩
        rw [h, Update.classify_before w ledger rc ar arch available pre files q hfiles hsplit]
      · apply ih (pre ++ [q]) (by simp [hsplit])
        have hb : Update.before w ledger rc ar arch available (pre ++ [q]) =
            Update.body w rc ar arch available (Update.hashToName w (ReceiveAppliedFiles ledger))
              (Update.before w ledger rc ar arch available pre) q := by
          simp only [Update.before, Update.loop_append, Update.loop_cons, Update.loop_nil]
        rw [hb]
        exact h
  exact key available [] rfl ha

end Known


/-- The branch of a file with a record, when redundancy checks are on and
the archived skip does not apply, goes by the hash. -/
theorem Update.classify_hashed (w : World) (ar arch : Bool) (available : LocaleFileStorage)
    (hashToName : HashToFileNameStorage) (applied : AppliedFileStorage) (F : LocaleFileEntry)
    (e : AppliedFileEntry) (hfind : applied.find (filename F.path) = some e)
    (hskip : ¬ (arch = false ∧ e.state = ARCHIVED ∧ F.state = ARCHIVED)) :
    Update.classify w true ar arch available hashToName applied F =
      if ar && e.hash == "" then .REHASH
      else if e.hash != hashOf w F then .APPLY
      else .MATCH := by
  have h1 : (!arch && e.state == ARCHIVED && F.state == ARCHIVED) = false := by
    cases arch <;> simp_all
  simp only [Update.classify, hfind, Bool.not_true, Bool.false_eq_true, if_false, h1]


/-! ## Lemmas on the hash -/

theorem hexDigit_mem (n : Nat) (hn : n < 16) : hexDigit n ∈ "0123456789ABCDEF".data := by
  interval_cases n <;> decide

theorem ByteArrayToHexStr_data_length (bytes : List Nat) (arrayLen : Nat) :
    (ByteArrayToHexStr bytes arrayLen).data.length = 2 * arrayLen := by
  simp only [ByteArrayToHexStr]
  induction arrayLen with
  | zero => rfl
  | succ n ih =>
    rw [List.range_succ, List.flatMap_append, List.length_append, ih]
    simp
    omega

theorem ByteArrayToHexStr_hex (bytes : List Nat) (arrayLen : Nat) :
    ∀ c ∈ (ByteArrayToHexStr bytes arrayLen).data, c ∈ "0123456789ABCDEF".data := by
  intro c hc
  simp only [ByteArrayToHexStr, List.mem_flatMap, List.mem_range] at hc
  obtain ⟨i, _, hc⟩ := hc
  simp only [List.mem_cons, List.mem_singleton, List.not_mem_nil, or_false] at hc
  rcases hc with rfl | rfl
  · exact hexDigit_mem _ (by omega)
  · exact hexDigit_mem _ (by omega)

/-- The hash of a content is forty upper case hexadecimal digits, so it is
not the empty string. -/
theorem CalculateHash_shape (w : World) (query : String) :
    (CalculateHash w query).length = 40 ∧ CalculateHash w query ≠ "" ∧
    ∀ c ∈ (CalculateHash w query).data, c ∈ "0123456789ABCDEF".data := by
  have hlen : (CalculateHash w query).data.length = 40 := by
    rw [CalculateHash, ByteArrayToHexStr_data_length]
    rfl
  refine ⟨hlen, ?_, ByteArrayToHexStr_hex _ _⟩
  intro h
  rw [h] at hlen
  simp at hlen

/-- A file with a record whose stored hash differs from the computed one
is in the branch APPLY when checks are on, the archived skip does not
apply and no rehash is due. -/
theorem changed_isApply (w : World) (ledger : Ledger)
    (allowRehash archivedRedundancy : Bool)
    (available : LocaleFileStorage) (pre post : List LocaleFileEntry) (F : LocaleFileEntry)
    (e : AppliedFileEntry)
    (hfiles : GetFileList w = .ok available)
    (hsplit : available = pre ++ F :: post)
    (hrecord : (ReceiveAppliedFiles ledger).find (filename F.path) = some e)
    (hskip : ¬ (archivedRedundancy = false ∧ e.state = ARCHIVED ∧ F.state = ARCHIVED))
    (hrehash : ¬ (allowRehash = true ∧ e.hash = ""))
    (hdiff : e.hash ≠ hashOf w F) :
    Update.classify w true allowRehash archivedRedundancy available
      (Update.hashToName w (ReceiveAppliedFiles ledger))
      (Update.before w ledger true allowRehash archivedRedundancy available pre).applied F
      = .APPLY ∧
    IsApply w ledger true allowRehash archivedRedundancy available pre F := by
  obtain ⟨hfind, _⟩ := Update.before_find w ledger true allowRehash archivedRedundancy
    available pre post F hfiles hsplit
  rw [hrecord] at hfind
  have hclass := Update.classify_hashed w allowRehash archivedRedundancy available
    (Update.hashToName w (ReceiveAppliedFiles ledger))
    (Update.before w ledger true allowRehash archivedRedundancy available pre).applied F e
    hfind hskip
  have h2 : (allowRehash && e.hash == "") = false := by
    cases allowRehash <;> simp_all
  have h3 : (e.hash != hashOf w F) = true := by simpa using hdiff
  simp only [h2, h3, Bool.false_eq_true, if_false, if_true] at hclass
  refine ⟨hclass, ?_⟩
  apply isApply_of_step w ledger _ _ _ available pre post F hfiles hsplit
  rw [Update.onFile, Update.body_eq_perform, hclass]
  simp only [Update.perform, hfind]
  exact Update.execute_isApplyStep w _ F (some e) hfind


/-! ## Lemmas on the pending set -/

section Pending

variable (w : World) (rc ar arch : Bool) (available : LocaleFileStorage)
  (hashToName : HashToFileNameStorage)

theorem Update.classify_rename_none (applied : AppliedFileStorage) (q : LocaleFileEntry)
    (old : String)
    (h : Update.classify w rc ar arch available hashToName applied q = .RENAME old) :
    applied.find (filename q.path) = none := by
  cases hf : applied.find (filename q.path) with
  | none => rfl
  | some e =>
    simp only [Update.classify, hf] at h
    split at h
    · cases h
    · split at h
      · cases h
      · split at h
        · cases h
        · split at h <;> cases h

/-- The pending set after a body: the records of the name of the file and
of the old name of a rename are gone. -/
theorem Update.body_applied_filter (st : LoopState) (q : LocaleFileEntry) :
    (Update.body w rc ar arch available hashToName st q).applied =
      st.applied.filter (fun e => e.name != filename q.path &&
        !(renamedNames
          [Update.classify w rc ar arch available hashToName st.applied q]).contains e.name) := by
  rw [Update.body_eq_perform]
  cases hc : Update.classify w rc ar arch available hashToName st.applied q with
  | RENAME old =>
    have hnone := Update.classify_rename_none w rc ar arch available hashToName st.applied q
      old hc
    simp only [Update.perform, renamedNames, List.filterMap_cons, Action.renamed,
      List.filterMap_nil, AppliedFileStorage.erase]
    apply List.filter_congr
    intro e he
    have hne : e.name ≠ filename q.path := by
      intro heq
      simp only [AppliedFileStorage.find, List.find?_eq_none] at hnone
      exact hnone e he (by simpa using heq)
    have hb : (e.name != filename q.path) = true := by simpa using hne
    rw [hb]
    by_cases ho : e.name = old <;> simp [ho]
  | SKIP => simp [Update.perform, renamedNames, Action.renamed, AppliedFileStorage.erase]
  | SKIP_ARCHIVED =>
    simp [Update.perform, renamedNames, Action.renamed, AppliedFileStorage.erase]
  | MATCH => simp [Update.perform, renamedNames, Action.renamed, AppliedFileStorage.erase]
  | REHASH =>
    simp only [Update.perform]
    rw [Update.execute_applied w st q _ _ _ rfl]
    simp [renamedNames, Action.renamed, AppliedFileStorage.erase]
  | APPLY =>
    simp only [Update.perform]
    rw [Update.execute_applied w st q _ _ _ rfl]
    simp [renamedNames, Action.renamed, AppliedFileStorage.erase]

/-- The pending set after the loop: the pending set before it without the
names of the files and without the old names the renames consumed. -/
theorem Update.loop_applied_filter (files : List LocaleFileEntry) (st : LoopState) :
    (Update.loop w rc ar arch available hashToName files st).applied =
      st.applied.filter (fun e => !(LocaleFileStorage.names files).contains e.name &&
        !(renamedNames
          (Update.actions w rc ar arch available hashToName files st)).contains e.name) := by
  induction files generalizing st with
  | nil => simp [Update.loop_nil, Update.actions, renamedNames, LocaleFileStorage.names]
  | cons q files ih =>
    rw [Update.loop_cons, ih, Update.body_applied_filter, List.filter_filter]
    apply List.filter_congr
    intro e _
    simp only [Update.actions, renamedNames, LocaleFileStorage.names, List.map_cons,
      List.filterMap_cons, List.filterMap_nil]
    cases hr : (Update.classify w rc ar arch available hashToName st.applied q).renamed with
    | none =>
      simp only [List.contains_cons, List.contains_nil, Bool.or_false, Bool.not_false,
        Bool.and_true, Bool.not_or, bne]
      cases (e.name == filename q.path) <;> simp
    | some old =>
      simp only [List.contains_cons, List.contains_nil, Bool.or_false, Bool.not_or, bne]
      cases (e.name == filename q.path) <;> cases (e.name == old) <;> simp

end Pending

theorem foldl_insert_names (rows : List LedgerRow) (acc : AppliedFileStorage) (n : String) :
    n ∈ (rows.foldl (fun map fields =>
        AppliedFileStorage.insert map ⟨fields.name, fields.hash, fields.state, fields.timestamp⟩)
      acc).map (fun e => e.name) ↔
    n ∈ acc.map (fun e => e.name) ∨ n ∈ rows.map (fun r => r.name) := by
  induction rows generalizing acc with
  | nil => simp
  | cons r rs ih =>
    simp only [List.foldl_cons, List.map_cons, List.mem_cons]
    rw [ih]
    simp only [AppliedFileStorage.insert]
    cases hf : acc.find r.name with
    | none =>
      simp only [Option.isSome_none, Bool.false_eq_true, if_false, List.map_append,
        List.map_cons, List.map_nil, List.mem_append, List.mem_singleton]
      tauto
    | some e =>
      simp only [Option.isSome_some, if_true]
      have hmem := AppliedFileStorage.find_some_mem acc r.name e hf
      constructor
      · rintro (h | h)
        · exact Or.inl h
        · exact Or.inr (Or.inr h)
      · rintro (h | h | h)
        · exact Or.inl h
        · exact Or.inl (h ▸ List.mem_map.2 ⟨e, hmem.1, hmem.2⟩)
        · exact Or.inr h

/-- The names of the records the pass reads are the names of the rows of
the ledger. -/
theorem ReceiveAppliedFiles_names (ledger : Ledger) (n : String) :
    n ∈ (ReceiveAppliedFiles ledger).map (fun e => e.name) ↔
      n ∈ ledger.map (fun r => r.name) := by
  rw [ReceiveAppliedFiles, foldl_insert_names]
  simp only [List.map_nil, List.not_mem_nil, false_or]
  exact ((selectUpdates_perm ledger).map _).mem_iff


/-! ## Lemmas on the text of the batched delete -/

theorem intercalate_go_eq (s : String) (l : List String) (acc : String) :
    String.intercalate.go acc s l = acc ++ String.intercalate.go "" s l := by
  induction l generalizing acc with
  | nil => simp [String.intercalate.go]
  | cons x l ih =>
    rw [String.intercalate.go, ih (acc ++ s ++ x), String.intercalate.go, ih ("" ++ s ++ x)]
    simp [String.append_assoc]

theorem intercalate_cons_cons (s a b : String) (l : List String) :
    String.intercalate s (a :: b :: l) = a ++ s ++ String.intercalate s (b :: l) := by
  simp only [String.intercalate, String.intercalate.go]
  rw [intercalate_go_eq s l (a ++ s ++ b), intercalate_go_eq s l b]
  simp [String.append_assoc]

/-- The loop of `CleanUp` from a text and a counter on: when the counter
is the number of the records left, the text gains the quoted names with a
separator between them. -/
theorem CleanUp.loop_eq (l : AppliedFileStorage) (acc : String) :
    (l.foldl (fun (acc : String × Nat) entry =>
      let update := acc.1 ++ "\"" ++ entry.name ++ "\""
      let remaining := acc.2 - 1
      if remaining > 0 then (update ++ ", ", remaining) else (update, remaining))
      (acc, l.length)).1 =
    acc ++ String.intercalate ", " (l.map (fun entry => quoted entry.name)) := by
  induction l generalizing acc with
  | nil => simp [String.intercalate]
  | cons x l ih =>
    cases l with
    | nil =>
      simp [String.intercalate, String.intercalate.go, quoted, String.append_assoc]
    | cons y l =>
      simp only [List.foldl_cons, List.length_cons, Nat.add_sub_cancel, Nat.zero_lt_succ,
        if_true] at ih ⊢
      rw [ih]
      simp only [List.map_cons]
      rw [intercalate_cons_cons]
      simp [quoted, String.append_assoc]


/-! ## Lemmas on the include directories -/

theorem substr_head (p : String) :
    (substr p 0 1 == "$") = decide (p.data.head? = some '$') := by
  cases p with
  | mk data =>
    cases data with
    | nil => rfl
    | cons c cs =>
      simp only [substr, List.drop_zero, List.take_succ_cons, List.take_zero, List.head?_cons,
        Option.some.injEq]
      by_cases hc : c = '$'
      · subst hc
        simp
      · simp only [hc, decide_False]
        have : (String.mk [c] : String) ≠ "$" := by
          intro h
          have := congrArg String.data h
          simp at this
          exact hc this
        simpa using this

theorem resolvedPath_eq (w : World) (p : String) :
    (if substr p 0 1 == "$" then w.sourceDirectory ++ substrFrom p 1 else p) =
      resolvedPath w p := by
  rw [substr_head]
  simp only [decide_eq_true_eq, resolvedPath, substrFrom, List.drop_one]

theorem foldl_filterMap {α β : Type} (f : α → Option β) (l : List α) (acc : List β) :
    l.foldl (fun acc x => match f x with | some y => acc ++ [y] | none => acc) acc =
      acc ++ l.filterMap f := by
  induction l generalizing acc with
  | nil => simp
  | cons x l ih =>
    simp only [List.foldl_cons, List.filterMap_cons]
    rw [ih]
    cases f x <;> simp


/-! ## Lemmas on the entries discovery adds -/

theorem insertByKey_perm_entries (e : LocaleFileEntry) (s : LocaleFileStorage)
    (h : filename e.path ∉ s.names) :
    (LocaleFileStorage.insert s e).Perm (s ++ [e]) :=
  (insertByKey_perm (fun x : LocaleFileEntry => filename x.path) e s h).trans
    (List.perm_append_singleton _ _).symm

theorem foldlM_stepEntries {A : Type}
    (step : LocaleFileStorage → A → Except UpdateException LocaleFileStorage)
    (col : A → List LocaleFileEntry)
    (hstep : ∀ s a, s.names.Nodup → StepEntries s (col a) (step s a))
    (l : List A) (s : LocaleFileStorage) (hs : s.names.Nodup) :
    StepEntries s (l.flatMap col) (l.foldlM step s) := by
  induction l generalizing s with
  | nil =>
    refine ⟨fun _ => ⟨s, rfl, by simp⟩, fun h => absurd ?_ h⟩
    simpa [LocaleFileStorage.names] using hs
  | cons a l ih =>
    simp only [List.flatMap_cons, List.foldlM_cons]
    by_cases hnd : (s.names ++ LocaleFileStorage.names (col a)).Nodup
    · obtain ⟨s2, hs2, hperm⟩ := (hstep s a hs).1 hnd
      have hnames : s2.names.Perm (s.names ++ LocaleFileStorage.names (col a)) := by
        have := hperm.map (fun x : LocaleFileEntry => filename x.path)
        simpa [LocaleFileStorage.names] using this
      have hs2nd : s2.names.Nodup := hnames.nodup_iff.2 hnd
      have hperm2 : (s2.names ++ LocaleFileStorage.names (l.flatMap col)).Perm
          (s.names ++ LocaleFileStorage.names (col a ++ l.flatMap col)) := by
        have := hnames.append_right (LocaleFileStorage.names (l.flatMap col))
        simpa [LocaleFileStorage.names, List.append_assoc] using this
      rw [hs2]
      have ih2 := ih s2 hs2nd
      refine ⟨fun h => ?_, fun h => ?_⟩
      · obtain ⟨s3, hs3, hp3⟩ := ih2.1 (hperm2.nodup_iff.2 h)
        refine ⟨s3, hs3, hp3.trans ?_⟩
        rw [← List.append_assoc]
        exact hperm.append_right _
      · exact ih2.2 (fun h2 => h (hperm2.nodup_iff.1 h2))
    · obtain ⟨e, he⟩ := (hstep s a hs).2 hnd
      rw [he]
      refine ⟨fun h => absurd ?_ hnd, fun _ => ⟨e, rfl⟩⟩
      simp only [LocaleFileStorage.names, List.map_append] at h ⊢
      rw [← List.append_assoc] at h
      exact (List.nodup_append.1 h).1

theorem walk_stepEntries (w : World) (state : State) :
    ∀ (fuel : Nat) (path : Path) (storage : LocaleFileStorage) (depth : Nat),
      storage.names.Nodup →
      StepEntries storage ((discoveredIn.walk w fuel path depth).map (fun p => ⟨p, state⟩))
        (FillFileListRecursively.walk w state fuel path storage depth)
  | 0, path, storage, depth, hs => by
    simp only [discoveredIn.walk, FillFileListRecursively.walk, List.map_nil]
    refine ⟨fun _ => ⟨storage, rfl, by simp⟩, fun h => absurd ?_ h⟩
    simpa [LocaleFileStorage.names] using hs
  | fuel + 1, path, storage, depth, hs => by
    simp only [discoveredIn.walk, FillFileListRecursively.walk, List.map_flatMap]
    apply foldlM_stepEntries _ _ _ _ _ hs
    intro s itr hsn
    have hsame : ∀ r, r = Except.ok s → StepEntries s [] r := by
      intro r hr
      refine ⟨fun _ => ⟨s, hr, by simp⟩, fun h => absurd ?_ h⟩
      simpa [LocaleFileStorage.names] using hsn
    by_cases hdir : w.is_directory itr = true
    · by_cases hdepth : depth < MAX_DEPTH
      · simp only [hdir, hdepth, if_true]
        exact walk_stepEntries w state fuel itr s (depth + 1) hsn
      · simp only [hdir, hdepth, if_true, if_false, List.map_nil]
        exact hsame _ rfl
    · by_cases hext : (extension itr == ".sql") = true
      · simp only [hdir, hext, if_true, Bool.false_eq_true, if_false, List.map_cons, List.map_nil]
        by_cases hfind : (LocaleFileStorage.find s ⟨itr, state⟩).isSome = true
        · simp only [hfind, if_true]
          refine ⟨fun h => ?_, fun _ => ⟨_, rfl⟩⟩
          exfalso
          rw [Option.isSome_iff_exists] at hfind
          obtain ⟨x, hx⟩ := hfind
          simp only [LocaleFileStorage.find] at hx
          have hmem := List.mem_of_find?_eq_some hx
          have hkey : filename x.path = filename itr := by simpa using List.find?_some hx
          have : filename itr ∈ s.names := List.mem_map.2 ⟨x, hmem, hkey⟩
          have hdis := (List.nodup_append.1 h).2.2
          exact hdis this (by simp [LocaleFileStorage.names])
        · simp only [hfind, Bool.false_eq_true, if_false]
          have hnot : filename itr ∉ s.names := by
            intro hmem
            apply hfind
            obtain ⟨x, hx, hkey⟩ := List.mem_map.1 hmem
            cases hf : LocaleFileStorage.find s ⟨itr, state⟩ with
            | some y => rfl
            | none =>
              simp only [LocaleFileStorage.find, List.find?_eq_none] at hf
              exact absurd (by simpa using hkey) (hf x hx)
          refine ⟨fun _ => ⟨_, rfl, insertByKey_perm_entries ⟨itr, state⟩ s hnot⟩,
            fun h => absurd ?_ h⟩
          rw [List.nodup_append]
          refine ⟨hsn, by simp [LocaleFileStorage.names], ?_⟩
          intro a ha hb
          simp only [LocaleFileStorage.names, List.map_cons, List.map_nil,
            List.mem_singleton] at hb
          exact hnot (hb ▸ ha)
      · simp only [hdir, hext, Bool.false_eq_true, if_false, List.map_nil]
        exact hsame _ rfl

theorem walk_succ (w : World) (state : State) (fuel : Nat) (path : Path)
    (storage : LocaleFileStorage) (depth : Nat) :
    FillFileListRecursively.walk w state (fuel + 1) path storage depth =
      (w.entries path).foldlM (fun storage itr =>
        if w.is_directory itr then
          if depth < MAX_DEPTH then
            FillFileListRecursively.walk w state fuel itr storage (depth + 1)
          else .ok storage
        else if extension itr == ".sql" then
          if (storage.find ⟨itr, state⟩).isSome then
            .error ⟨"Updating failed, see the log for details."⟩
          else .ok (storage.insert ⟨itr, state⟩)
        else .ok storage) storage := by
  rw [FillFileListRecursively.walk]

/-- More levels than the depth bound leaves do not change the walk: the
walk never runs out of levels. -/
theorem walk_fuel (w : World) (state : State) :
    ∀ (f depth : Nat) (path : Path) (s : LocaleFileStorage), MAX_DEPTH - depth ≤ f →
      FillFileListRecursively.walk w state (f + 1) path s depth =
        FillFileListRecursively.walk w state (MAX_DEPTH - depth + 1) path s depth
  | 0, depth, path, s, h => by
    have : MAX_DEPTH - depth = 0 := by omega
    rw [this]
  | f + 1, depth, path, s, h => by
    by_cases hdepth : depth < MAX_DEPTH
    · have hsplit : MAX_DEPTH - depth = (MAX_DEPTH - (depth + 1)) + 1 := by omega
      rw [hsplit, walk_succ, walk_succ]
      congr 1
      funext storage itr
      simp only [hdepth, if_true]
      rw [walk_fuel w state f (depth + 1) itr storage (by omega)]
    · have hzero : MAX_DEPTH - depth = 0 := by omega
      rw [hzero, walk_succ, walk_succ]
      simp only [hdepth, if_false]

/-- The files the walk lists from a directory on: the `.sql` entries of the
directories nested below it, as far down as the levels and the depth bound
let the walk enter. -/
theorem mem_discoveredIn_walk (w : World) :
    ∀ (fuel depth : Nat) (dir f : Path),
      f ∈ discoveredIn.walk w fuel dir depth ↔
        ∃ k sub, k < fuel ∧ (k = 0 ∨ depth + k ≤ MAX_DEPTH) ∧ Nested w k dir sub ∧
          f ∈ w.entries sub ∧ w.is_directory f = false ∧ extension f = ".sql"
  | 0, depth, dir, f => by
    simp [discoveredIn.walk]
  | fuel + 1, depth, dir, f => by
    simp only [discoveredIn.walk, List.mem_flatMap]
    constructor
    · rintro ⟨itr, hitr, hf⟩
      by_cases hdir : w.is_directory itr = true
      · by_cases hdepth : depth < MAX_DEPTH
        · simp only [hdir, hdepth, if_true] at hf
          obtain ⟨k, sub, hk, hbound, hnest, hrest⟩ :=
            (mem_discoveredIn_walk w fuel (depth + 1) itr f).1 hf
          refine ⟨k + 1, sub, by omega, Or.inr ?_, Nested.step hitr hdir hnest, hrest⟩
          rcases hbound with h | h <;> omega
        · simp [hdir, hdepth] at hf
      · by_cases hext : (extension itr == ".sql") = true
        · simp only [hdir, hext, Bool.false_eq_true, if_false, if_true,
            List.mem_singleton] at hf
          subst hf
          exact ⟨0, dir, by omega, Or.inl rfl, Nested.here dir, hitr, by simpa using hdir,
            by simpa using hext⟩
        · simp [hdir, hext] at hf
    · rintro ⟨k, sub, hk, hbound, hnest, hmem, hnd, hext⟩
      cases hnest with
      | here =>
        refine ⟨f, hmem, ?_⟩
        simp [hnd, hext]
      | step hq hqdir hrest =>
        rename_i k2 q
        refine ⟨q, hq, ?_⟩
        have hdepth : depth < MAX_DEPTH := by
          rcases hbound with h | h <;> omega
        simp only [hqdir, hdepth, if_true]
        apply (mem_discoveredIn_walk w fuel (depth + 1) q f).2
        refine ⟨k2, sub, by omega, ?_, hrest, hmem, hnd, hext⟩
        rcases hbound with h | h
        · omega
        · by_cases hk2 : k2 = 0
          · exact Or.inl hk2
          · exact Or.inr (by omega)

/-! ## The order of iteration of the unordered map -/

/-- The branch of a new file can depend on the order in which the
unordered map is iterated: with the records `a.sql` and `b.sql` of one
hash, the file `b.sql` on disk and the new file `zz_new.sql` of that hash,
the new file is in conflict with `b.sql` and applied, and `a.sql` is left
pending, when the loop over the records meets `b.sql` first; it is renamed
from `a.sql`, and nothing is left pending, when the loop meets `a.sql`
first. -/
theorem branch_depends_on_iteration :
    (Update.hashToName shared (ReceiveAppliedFiles sharedLedger)).find
      (hashOf shared sharedNew) = some "b.sql" ∧
    Update.passActions shared sharedLedger true true true sharedFiles =
      [Action.MATCH, Action.APPLY] ∧
    (Update shared sharedLedger true true true (-1)).result = .ok 1 ∧
    (Update.final shared sharedLedger true true true sharedFiles).applied.map
      (fun e => e.name) = ["a.sql"] ∧
    (Update.hashToName sharedInOrder (ReceiveAppliedFiles sharedLedger)).find
      (hashOf sharedInOrder sharedNew) = some "a.sql" ∧
    Update.passActions sharedInOrder sharedLedger true true true sharedFiles =
      [Action.MATCH, Action.RENAME "a.sql"] ∧
    (Update sharedInOrder sharedLedger true true true (-1)).result = .ok 0 ∧
    (Update.final sharedInOrder sharedLedger true true true sharedFiles).applied = [] :=
  ⟨rfl, by decide, rfl, by decide, rfl, by decide, rfl, by decide⟩

theorem HashToFileNameStorage.find_append (m : HashToFileNameStorage) (h n hash : String) :
    HashToFileNameStorage.find (m ++ [(h, n)]) hash =
      if (m.find hash).isSome then m.find hash
      else if h = hash then some n else none := by
  unfold HashToFileNameStorage.find
  rw [List.find?_append]
  cases hf : List.find? (fun p => p.1 == hash) m with
  | some x => rfl
  | none =>
    by_cases hh : h = hash
    · subst hh
      simp [List.find?]
    · have hb : (h == hash) = false := by simpa using hh
      simp [List.find?, hb, hh]

theorem HashToFileNameStorage.find_insert (m : HashToFileNameStorage) (h n hash : String) :
    (m.insert h n).find hash =
      if (m.find hash).isSome then m.find hash
      else if h = hash then some n else none := by
  unfold HashToFileNameStorage.insert
  by_cases hm : (m.find h).isSome = true
  · rw [if_pos hm]
    by_cases hh : (m.find hash).isSome = true
    · rw [if_pos hh]
    · have hne : h ≠ hash := by
        rintro rfl
        exact hh hm
      rw [if_neg hh, if_neg hne]
      simpa using hh
  · rw [if_neg hm]
    exact HashToFileNameStorage.find_append m h n hash

theorem Update.hashToName_fold (l : AppliedFileStorage) (m : HashToFileNameStorage)
    (hash name : String)
    (h : (l.foldl (fun m entry => m.insert entry.hash entry.name) m).find hash = some name) :
    m.find hash = some name ∨ ∃ e ∈ l, e.hash = hash ∧ e.name = name := by
  induction l generalizing m with
  | nil => exact Or.inl h
  | cons x xs ih =>
    rw [List.foldl_cons] at h
    rcases ih _ h with h1 | ⟨e, he, h2⟩
    · rw [HashToFileNameStorage.find_insert] at h1
      by_cases hs : (m.find hash).isSome = true
      · rw [if_pos hs] at h1
        exact Or.inl h1
      · rw [if_neg hs] at h1
        by_cases hx : x.hash = hash
        · rw [if_pos hx] at h1
          exact Or.inr ⟨x, List.mem_cons_self _ _, hx, Option.some.inj h1⟩
        · rw [if_neg hx] at h1
          cases h1
    · exact Or.inr ⟨e, List.mem_cons_of_mem _ he, h2⟩

theorem Update.hashToName_fold_isSome (l : AppliedFileStorage) (m : HashToFileNameStorage)
    (hash : String)
    (h : (m.find hash).isSome = true ∨ ∃ e ∈ l, e.hash = hash) :
    ((l.foldl (fun m entry => m.insert entry.hash entry.name) m).find hash).isSome = true := by
  induction l generalizing m with
  | nil =>
    rcases h with h | ⟨e, he, _⟩
    · exact h
    · cases he
  | cons x xs ih =>
    rw [List.foldl_cons]
    apply ih
    by_cases hs : (m.find hash).isSome = true
    · left
      rw [HashToFileNameStorage.find_insert, if_pos hs]
      exact hs
    · rcases h with h | ⟨e, he, hh⟩
      · exact absurd h hs
      · rcases List.mem_cons.1 he with rfl | he
        · left
          rw [HashToFileNameStorage.find_insert, if_neg hs, if_pos hh]
          rfl
        · exact Or.inr ⟨e, he, hh⟩

/-- The hash to name cache maps a hash to the name of a record of the map
with that hash, and it maps the hash of every record of the map, whatever
the order of iteration. -/
theorem Update.hashToName_sound (w : World) (applied : AppliedFileStorage) :
    (∀ hash name : String, (Update.hashToName w applied).find hash = some name →
      ∃ e ∈ applied, e.hash = hash ∧ e.name = name) ∧
    (∀ e ∈ applied, ((Update.hashToName w applied).find e.hash).isSome = true) := by
  constructor
  · intro hash name h
    rcases Update.hashToName_fold _ _ _ _ h with h1 | ⟨e, he, h2⟩
    · cases h1
    · exact ⟨e, (w.iteration_perm applied).mem_iff.1 he, h2⟩
  · intro e he
    exact Update.hashToName_fold_isSome _ _ _
      (Or.inr ⟨e, (w.iteration_perm applied).mem_iff.2 he, rfl⟩)

/-! ## The claims -/

/-- C1, on a failing input: in `twins` the first pass renames the record
`a.sql` to `b.sql`, issues for `c.sql` a rename that finds no record, and
returns 0; the second pass, on the ledger the first pass left, with the
same files and flags, calls the executor on `c.sql` and returns 1. -/
theorem second_pass_applies_again :
    GetFileList twins = .ok twinsFiles ∧
    (Update twins twinsLedger true true true (-1)).trace =
      [Event.apply (Stmt.deleteName "b.sql"), Event.apply (Stmt.rename "a.sql" "b.sql"),
       Event.apply (Stmt.deleteName "c.sql"), Event.apply (Stmt.rename "a.sql" "c.sql")] ∧
    (Update twins twinsLedger true true true (-1)).result = .ok 0 ∧
    Update.ledgerAfter twins twinsLedger true true true (-1) =
      [⟨"b.sql", twinsHash, ACTIVE, 0, 3⟩] ∧
    (Update twins (Update.ledgerAfter twins twinsLedger true true true (-1))
        true true true (-1)).trace =
      [Event.applyFile "/src/sql/c.sql",
       Event.apply (Stmt.replace "c.sql" twinsHash ACTIVE 7)] ∧
    (Update twins (Update.ledgerAfter twins twinsLedger true true true (-1))
        true true true (-1)).result = .ok 1 :=
  ⟨rfl, by decide, rfl, by decide, by decide, rfl⟩

/-- C2, on a failing input: in `twins` the file `c.sql` has no ledger
record, the hash to name index maps its hash to `a.sql`, no discovered file
is named `a.sql`, the body on `c.sql` issues the two statements of the
rename and leaves the counter as it is; but the ledger after the pass has
no record named `c.sql`: the record that was named `a.sql` is named
`b.sql`. -/
theorem second_rename_finds_no_record :
    GetFileList twins = .ok twinsFiles ∧
    (ReceiveAppliedFiles twinsLedger).find (filename twinsC.path) = none ∧
    (Update.hashToName twins (ReceiveAppliedFiles twinsLedger)).find (hashOf twins twinsC) =
      some "a.sql" ∧
    (∀ G ∈ twinsFiles, filename G.path ≠ "a.sql") ∧
    (Update.onFile twins twinsLedger true true true twinsFiles [twinsB] twinsC).trace =
      (Update.before twins twinsLedger true true true twinsFiles [twinsB]).trace ++
        RenameEntry "a.sql" "c.sql" ∧
    (Update.onFile twins twinsLedger true true true twinsFiles [twinsB]
        twinsC).importedUpdates =
      (Update.before twins twinsLedger true true true twinsFiles [twinsB]).importedUpdates ∧
    (Update.ledgerAfter twins twinsLedger true true true (-1)).filter
      (fun r => r.name == "c.sql") = [] ∧
    Update.ledgerAfter twins twinsLedger true true true (-1) =
      [⟨"b.sql", hashOf twins twinsC, ACTIVE, 0, 3⟩] :=
  ⟨rfl, rfl, rfl, by decide, by decide, rfl, by decide, by decide⟩

/-- C3, on a failing input: in `twins`, with unlimited cleanup and
`redundancyChecks` true, the pass completes and leaves a ledger whose names
are `b.sql` alone, while the discovered filenames are `b.sql` and
`c.sql`. -/
theorem ledger_misses_discovered_file :
    GetFileList twins = .ok twinsFiles ∧
    twinsFiles.names = ["b.sql", "c.sql"] ∧
    (Update twins twinsLedger true true true (-1)).result = .ok 0 ∧
    (Update.ledgerAfter twins twinsLedger true true true (-1)).map (fun r => r.name) =
      ["b.sql"] :=
  ⟨rfl, by decide, rfl, by decide⟩

/-- C4, content change detection: a discovered file `F` whose filename has
the ledger record `e` is classified as APPLY when `redundancyChecks` is
true, the archived skip does not apply, the REHASH condition does not hold
and the stored hash differs from the computed hash. The executor is called
once on the file, then the record is upserted with the name, the computed
hash and the discovered state, and the counter is incremented by one. -/
theorem content_change_is_apply (w : World) (ledger : Ledger)
    (redundancyChecks allowRehash archivedRedundancy : Bool)
    (available : LocaleFileStorage) (pre post : List LocaleFileEntry) (F : LocaleFileEntry)
    (e : AppliedFileEntry)
    (hfiles : GetFileList w = .ok available)
    (hsplit : available = pre ++ F :: post)
    (hrecord : (ReceiveAppliedFiles ledger).find (filename F.path) = some e)
    (hchecks : redundancyChecks = true)
    (hskip : ¬ (archivedRedundancy = false ∧ e.state = ARCHIVED ∧ F.state = ARCHIVED))
    (hrehash : ¬ (allowRehash = true ∧ e.hash = ""))
    (hdiff : e.hash ≠ hashOf w F) :
    IsApply w ledger redundancyChecks allowRehash archivedRedundancy available pre F := by
  obtain ⟨hfind, _⟩ := Update.before_find w ledger redundancyChecks allowRehash
    archivedRedundancy available pre post F hfiles hsplit
  rw [hrecord] at hfind
  have hbody : Update.onFile w ledger redundancyChecks allowRehash archivedRedundancy available
      pre F = Update.execute w
        (Update.before w ledger redundancyChecks allowRehash archivedRedundancy available pre)
        F (some e) (hashOf w F) .MODE_APPLY := by
    rw [Update.onFile, Update.body_some _ _ _ _ _ _ _ _ e hfind]
    have h1 : (!redundancyChecks || (!archivedRedundancy && e.state == ARCHIVED &&
        F.state == ARCHIVED)) = false := by
      subst hchecks
      cases archivedRedundancy <;> simp_all
    have h2 : (allowRehash && e.hash == "") = false := by
      cases allowRehash <;> simp_all
    have h3 : (e.hash != CalculateHash w (ReadSQLUpdate w F.path)) = true := by
      simpa [hashOf] using hdiff
    rw [if_neg (by simp [h1]), if_neg (by simp [h2]), if_pos h3]
    rfl
  apply isApply_of_step w ledger _ _ _ available pre post F hfiles hsplit
  rw [hbody]
  exact Update.execute_isApplyStep w _ F (some e) hfind

theorem content_change_is_apply_witness :
    IsApply demo demoLedger true false true demoFiles [demoA, demoB] demoC :=
  content_change_is_apply demo demoLedger true false true demoFiles [demoA, demoB]
    [demoD, demoE] demoC ⟨"c.sql", CalculateHash demo "CREATE TABLE c (id BIGINT);", ACTIVE, 0⟩
    rfl rfl rfl rfl (by decide) (by decide) (by decide)

/-- C5, new migration: a discovered file `F` whose filename has no ledger
record and whose computed hash is not a key of the hash to name index is
classified as APPLY. The executor is called once on the file, the record
with the name, the computed hash, the discovered state and the measured
speed is upserted afterwards, the counter is incremented by one, and the
pending set is left as it is. -/
theorem new_migration_is_apply (w : World) (ledger : Ledger)
    (redundancyChecks allowRehash archivedRedundancy : Bool)
    (available : LocaleFileStorage) (pre post : List LocaleFileEntry) (F : LocaleFileEntry)
    (hfiles : GetFileList w = .ok available)
    (hsplit : available = pre ++ F :: post)
    (hnorecord : (ReceiveAppliedFiles ledger).find (filename F.path) = none)
    (hnohash : (Update.hashToName w (ReceiveAppliedFiles ledger)).find (hashOf w F) = none) :
    IsApply w ledger redundancyChecks allowRehash archivedRedundancy available pre F ∧
    (Update.onFile w ledger redundancyChecks allowRehash archivedRedundancy available pre
      F).applied =
    (Update.before w ledger redundancyChecks allowRehash archivedRedundancy available
      pre).applied := by
  obtain ⟨hfind, _⟩ := Update.before_find w ledger redundancyChecks allowRehash
    archivedRedundancy available pre post F hfiles hsplit
  rw [hnorecord] at hfind
  have hbody : Update.onFile w ledger redundancyChecks allowRehash archivedRedundancy available
      pre F = Update.execute w
        (Update.before w ledger redundancyChecks allowRehash archivedRedundancy available pre)
        F none (hashOf w F) .MODE_APPLY := by
    rw [Update.onFile, Update.body_none _ _ _ _ _ _ _ _ hfind]
    simp only [hashOf] at hnohash
    rw [hnohash]
    rfl
  have hstep := Update.execute_isApplyStep w
    (Update.before w ledger redundancyChecks allowRehash archivedRedundancy available pre)
    F none hfind
  rw [← hbody] at hstep
  refine ⟨isApply_of_step w ledger _ _ _ available pre post F hfiles hsplit hstep, ?_⟩
  rw [hstep.2.2, AppliedFileStorage.erase_of_find_none _ _ hfind]

theorem new_migration_is_apply_witness :
    IsApply demo demoLedger true false true demoFiles [demoA, demoB, demoC, demoD] demoE ∧
    (Update.onFile demo demoLedger true false true demoFiles [demoA, demoB, demoC, demoD]
      demoE).applied =
    (Update.before demo demoLedger true false true demoFiles
      [demoA, demoB, demoC, demoD]).applied :=
  new_migration_is_apply demo demoLedger true false true demoFiles
    [demoA, demoB, demoC, demoD] [] demoE rfl rfl rfl rfl

/-- C6, a rename conflict is a fresh APPLY: a discovered file `F` whose
filename has no ledger record, whose computed hash the hash to name index
maps to the name `N`, while a discovered file named `N` exists, is
classified as APPLY: the executor is called once on the file, the record of
`F` is upserted with the computed hash, the counter is incremented by one;
no statement of a rename (the delete of the target, the change of the
name) is issued for `F` in the whole pass, and the pending set is left as
it is. -/
theorem rename_conflict_is_apply (w : World) (ledger : Ledger)
    (redundancyChecks allowRehash archivedRedundancy : Bool)
    (available : LocaleFileStorage) (pre post : List LocaleFileEntry) (F : LocaleFileEntry)
    (N : String)
    (hfiles : GetFileList w = .ok available)
    (hsplit : available = pre ++ F :: post)
    (hnorecord : (ReceiveAppliedFiles ledger).find (filename F.path) = none)
    (hhash : (Update.hashToName w (ReceiveAppliedFiles ledger)).find (hashOf w F) = some N)
    (hold : ∃ G ∈ available, filename G.path = N) :
    IsApply w ledger redundancyChecks allowRehash archivedRedundancy available pre F ∧
    (∀ cap : Int, ∀ ev ∈ RenameEntry N (filename F.path),
      ev ∉ (Update w ledger redundancyChecks allowRehash archivedRedundancy cap).trace) ∧
    (Update.onFile w ledger redundancyChecks allowRehash archivedRedundancy available pre
      F).applied =
    (Update.before w ledger redundancyChecks allowRehash archivedRedundancy available
      pre).applied := by
  obtain ⟨hfind, _⟩ := Update.before_find w ledger redundancyChecks allowRehash
    archivedRedundancy available pre post F hfiles hsplit
  rw [hnorecord] at hfind
  have hbody : Update.onFile w ledger redundancyChecks allowRehash archivedRedundancy available
      pre F = Update.execute w
        (Update.before w ledger redundancyChecks allowRehash archivedRedundancy available pre)
        F none (hashOf w F) .MODE_APPLY := by
    rw [Update.onFile, Update.body_none _ _ _ _ _ _ _ _ hfind]
    simp only [hashOf] at hhash
    rw [hhash]
    have hsome : (List.find? (fun l => filename l.path == N) available).isSome = true := by
      obtain ⟨G, hG, hname⟩ := hold
      cases hf : List.find? (fun l => filename l.path == N) available with
      | some x => rfl
      | none =>
        rw [List.find?_eq_none] at hf
        exact absurd (by simpa using hname) (hf G hG)
    simp only [hsome, if_true]
    rfl
  have hstep := Update.execute_isApplyStep w
    (Update.before w ledger redundancyChecks allowRehash archivedRedundancy available pre)
    F none hfind
  rw [← hbody] at hstep
  have hpass := isApply_of_step w ledger _ _ _ available pre post F hfiles hsplit hstep
  refine ⟨hpass, ?_, ?_⟩
  · intro cap ev hev
    simp only [RenameEntry, List.mem_cons, List.mem_singleton, List.not_mem_nil,
      or_false] at hev
    rcases hev with rfl | rfl
    · exact List.count_eq_zero.1 (hpass.2.2 cap).2.2.1
    · exact List.count_eq_zero.1 ((hpass.2.2 cap).2.2.2 N)
  · rw [hstep.2.2, AppliedFileStorage.erase_of_find_none _ _ hfind]

theorem rename_conflict_is_apply_witness :
    IsApply shared sharedLedger true false true sharedFiles [sharedB] sharedNew ∧
    (∀ cap : Int, ∀ ev ∈ RenameEntry "b.sql" (filename sharedNew.path),
      ev ∉ (Update shared sharedLedger true false true cap).trace) ∧
    (Update.onFile shared sharedLedger true false true sharedFiles [sharedB] sharedNew).applied =
    (Update.before shared sharedLedger true false true sharedFiles [sharedB]).applied :=
  rename_conflict_is_apply shared sharedLedger true false true sharedFiles [sharedB]
    [] sharedNew "b.sql" rfl rfl rfl rfl ⟨sharedB, by decide, rfl⟩

/-- C7, as it is stated, fails: in `demo` the file `b.sql` has no ledger
record and has the hash of the ledger record `a.sql`, the file `a.sql` is
discovered with the content the ledger has recorded, and the record
`a.sql` is not in the pending set when the loop over the files ends. -/
theorem rename_conflict_old_entry_not_pending :
    GetFileList demo = .ok demoFiles ∧
    demoB ∈ demoFiles ∧
    (ReceiveAppliedFiles demoLedger).find (filename demoB.path) = none ∧
    (ReceiveAppliedFiles demoLedger).find "a.sql" =
      some ⟨"a.sql", hashOf demo demoB, ACTIVE, 0⟩ ∧
    demoA ∈ demoFiles ∧ filename demoA.path = "a.sql" ∧
    hashOf demo demoA = hashOf demo demoB ∧
    (Update.final demo demoLedger true false true demoFiles).applied.find "a.sql" = none ∧
    (Update.final demo demoLedger true false true demoFiles).applied.map (fun e => e.name) =
      ["z.sql"] :=
  ⟨rfl, by decide, rfl, rfl, by decide, rfl, rfl, rfl, rfl⟩

/-- C7, as the code has it: in a pass in which the discovered file `F` has
no ledger record and has the hash of the ledger record named `N`, while a
file named `N` is discovered, the body on `F` leaves the record `N` in the
pending set as it found it, but the record `N` is reconciled by the
discovered file named `N`: no record named `N` is in the pending set when
the loop over the files ends, and no batched delete of the pass names
`N`. -/
theorem rename_conflict_old_entry_reconciled (w : World) (ledger : Ledger)
    (redundancyChecks allowRehash archivedRedundancy : Bool)
    (available : LocaleFileStorage) (pre post : List LocaleFileEntry) (F G : LocaleFileEntry)
    (eN : AppliedFileEntry)
    (hfiles : GetFileList w = .ok available)
    (_hsplit : available = pre ++ F :: post)
    (hnorecord : (ReceiveAppliedFiles ledger).find (filename F.path) = none)
    (hN : (ReceiveAppliedFiles ledger).find (filename G.path) = some eN)
    (_hhash : eN.hash = hashOf w F)
    (hG : G ∈ available) :
    (Update.onFile w ledger redundancyChecks allowRehash archivedRedundancy available pre
        F).applied.find (filename G.path) =
      (Update.before w ledger redundancyChecks allowRehash archivedRedundancy available
        pre).applied.find (filename G.path) ∧
    (∀ e ∈ (Update.final w ledger redundancyChecks allowRehash archivedRedundancy
        available).applied, e.name ≠ filename G.path) ∧
    (∀ (cap : Int) (names : List String),
      Event.apply (Stmt.deleteIn names) ∈
        (Update w ledger redundancyChecks allowRehash archivedRedundancy cap).trace →
      filename G.path ∉ names) := by
  have hne : filename F.path ≠ filename G.path := by
    intro heq
    rw [heq, hN] at hnorecord
    cases hnorecord
  have hfinal : ∀ e ∈ (Update.final w ledger redundancyChecks allowRehash archivedRedundancy
      available).applied, e.name ≠ filename G.path := fun e he =>
    Update.loop_not_mem w _ _ _ available _ available _ G hG e he
  refine ⟨?_, hfinal, ?_⟩
  · exact Update.body_find_other w _ _ _ available _ _ F (filename G.path) hne ⟨G, hG, rfl⟩
  · intro cap names hmem hin
    simp only [Update, hfiles, List.mem_append] at hmem
    rcases hmem with hmem | hmem
    · exact Update.final_no_deleteIn w ledger _ _ _ available names hmem
    · simp only [Update.orphans, CleanUp] at hmem
      split at hmem
      · split at hmem
        · split at hmem
          · cases hmem
          · simp only [List.mem_singleton, Event.apply.injEq, Stmt.deleteIn.injEq] at hmem
            subst hmem
            obtain ⟨e, he, hname⟩ := List.mem_map.1 hin
            exact hfinal e he hname
        · cases hmem
      · cases hmem

theorem rename_conflict_old_entry_reconciled_witness :
    (Update.onFile demo demoLedger true false true demoFiles [demoA]
        demoB).applied.find (filename demoA.path) =
      (Update.before demo demoLedger true false true demoFiles
        [demoA]).applied.find (filename demoA.path) ∧
    (∀ e ∈ (Update.final demo demoLedger true false true demoFiles).applied,
      e.name ≠ filename demoA.path) ∧
    (∀ (cap : Int) (names : List String),
      Event.apply (Stmt.deleteIn names) ∈ (Update demo demoLedger true false true cap).trace →
      filename demoA.path ∉ names) :=
  rename_conflict_old_entry_reconciled demo demoLedger true false true demoFiles [demoA]
    [demoC, demoD, demoE] demoB demoA
    ⟨"a.sql", CalculateHash demo "CREATE TABLE a (id INT);", ACTIVE, 0⟩
    rfl rfl rfl rfl (by decide) (by decide)

/-- C8, state-only change: for a discovered file `F` whose filename has the
ledger record `e`, when `redundancyChecks` is true and the stored hash is
not empty and equals the computed hash, the body on `F` issues the one
state update that sets the state of the record to the discovered state
when the two states differ and nothing when they are equal, leaves the
counter as it is and takes the name out of the pending set; in the whole
pass the calls for `F` are those of its body, so the executor is not
called on it and its record is not upserted; the state update leaves the
names and the hashes of the ledger as they are. -/
theorem state_only_change (w : World) (ledger : Ledger)
    (redundancyChecks allowRehash archivedRedundancy : Bool)
    (available : LocaleFileStorage) (pre post : List LocaleFileEntry) (F : LocaleFileEntry)
    (e : AppliedFileEntry)
    (hfiles : GetFileList w = .ok available)
    (hsplit : available = pre ++ F :: post)
    (hrecord : (ReceiveAppliedFiles ledger).find (filename F.path) = some e)
    (hchecks : redundancyChecks = true)
    (hnonempty : e.hash ≠ "")
    (hsame : e.hash = hashOf w F) :
    (Update.onFile w ledger redundancyChecks allowRehash archivedRedundancy available pre
        F).trace =
      (Update.before w ledger redundancyChecks allowRehash archivedRedundancy available
        pre).trace ++
      (if e.state ≠ F.state then [Event.apply (Stmt.setState (filename F.path) F.state)]
       else []) ∧
    (Update.onFile w ledger redundancyChecks allowRehash archivedRedundancy available pre
        F).importedUpdates =
      (Update.before w ledger redundancyChecks allowRehash archivedRedundancy available
        pre).importedUpdates ∧
    (Update.onFile w ledger redundancyChecks allowRehash archivedRedundancy available pre
        F).applied =
      (Update.before w ledger redundancyChecks allowRehash archivedRedundancy available
        pre).applied.erase (filename F.path) ∧
    (∀ (cap : Int) (ev : Event), ev.concerns F = true →
      List.count ev (Update w ledger redundancyChecks allowRehash archivedRedundancy cap).trace =
      List.count ev (if e.state ≠ F.state then
        [Event.apply (Stmt.setState (filename F.path) F.state)] else [])) ∧
    (∀ db : Ledger,
      ((Stmt.setState (filename F.path) F.state).exec db).map (fun r => (r.name, r.hash)) =
      db.map (fun r => (r.name, r.hash))) := by
  obtain ⟨hfind, _⟩ := Update.before_find w ledger redundancyChecks allowRehash
    archivedRedundancy available pre post F hfiles hsplit
  rw [hrecord] at hfind
  have hbody : Update.onFile w ledger redundancyChecks allowRehash archivedRedundancy available
      pre F =
      { Update.before w ledger redundancyChecks allowRehash archivedRedundancy available pre with
        applied := (Update.before w ledger redundancyChecks allowRehash archivedRedundancy
          available pre).applied.erase (filename F.path)
        trace := (Update.before w ledger redundancyChecks allowRehash archivedRedundancy
          available pre).trace ++
          (if e.state ≠ F.state then [Event.apply (Stmt.setState (filename F.path) F.state)]
           else []) } := by
    rw [Update.onFile, Update.body_some _ _ _ _ _ _ _ _ e hfind]
    subst hchecks
    by_cases hskip : (!archivedRedundancy && e.state == ARCHIVED && F.state == ARCHIVED) = true
    · have hst : e.state = F.state := by
        simp only [Bool.and_eq_true, beq_iff_eq] at hskip
        rw [hskip.1.2, hskip.2]
      rw [if_pos (by rw [hskip]; simp)]
      simp [hst]
    · have h2 : (allowRehash && e.hash == "") = false := by
        cases allowRehash <;> simp_all
      have h3 : (e.hash != CalculateHash w (ReadSQLUpdate w F.path)) = false := by
        simpa [hashOf] using hsame
      simp only [Bool.not_true, Bool.false_or, hskip, h2, h3, Bool.false_eq_true, if_false]
      by_cases hst : e.state = F.state <;> simp [hst, UpdateState]
  refine ⟨by rw [hbody], by rw [hbody], by rw [hbody], ?_, ?_⟩
  · intro cap ev hev
    exact Update.count_concerning w ledger _ _ _ cap available pre post F hfiles hsplit ev hev _
      (by rw [hbody])
  · intro db
    simp only [Stmt.exec, List.map_map]
    apply List.map_congr_left
    intro r _
    simp only [Function.comp]
    split <;> rfl

theorem state_only_change_witness :
    (Update.onFile demo demoLedger true false true demoFiles [demoA, demoB, demoC] demoD).trace =
      (Update.before demo demoLedger true false true demoFiles [demoA, demoB, demoC]).trace ++
      (if ACTIVE ≠ demoD.state then [Event.apply (Stmt.setState (filename demoD.path) demoD.state)]
       else []) ∧
    (Update.onFile demo demoLedger true false true demoFiles [demoA, demoB, demoC]
        demoD).importedUpdates =
      (Update.before demo demoLedger true false true demoFiles
        [demoA, demoB, demoC]).importedUpdates ∧
    (Update.onFile demo demoLedger true false true demoFiles [demoA, demoB, demoC]
        demoD).applied =
      (Update.before demo demoLedger true false true demoFiles
        [demoA, demoB, demoC]).applied.erase (filename demoD.path) ∧
    (∀ (cap : Int) (ev : Event), ev.concerns demoD = true →
      List.count ev (Update demo demoLedger true false true cap).trace =
      List.count ev (if ACTIVE ≠ demoD.state then
        [Event.apply (Stmt.setState (filename demoD.path) demoD.state)] else [])) ∧
    (∀ db : Ledger,
      ((Stmt.setState (filename demoD.path) demoD.state).exec db).map
        (fun r => (r.name, r.hash)) =
      db.map (fun r => (r.name, r.hash))) :=
  state_only_change demo demoLedger true false true demoFiles [demoA, demoB, demoC] [demoE]
    demoD ⟨"d.sql", CalculateHash demo "DROP TABLE d;", ACTIVE, 0⟩ rfl rfl rfl rfl
    (by decide) (by decide)

/-- C9, orphan cap enforcement: in a pass whose loop over the files ends
with `N ≥ 1` records in the pending set, the statements of the loop mention
none of these orphans; with `cleanDeadReferencesMaxCount = N - 1` the
handling of the orphans issues nothing, and every row of an orphan is in
the ledger after the pass as it was before the pass; with
`cleanDeadReferencesMaxCount = N` or negative it issues one batched delete
that names the `N` orphans and nothing else; in general the batched delete
is issued when the cap is negative or `N` is at most the cap, and nothing
is issued otherwise. -/
theorem orphan_cap_enforcement (w : World) (ledger : Ledger)
    (redundancyChecks allowRehash archivedRedundancy : Bool)
    (cleanDeadReferencesMaxCount : Int) (available : LocaleFileStorage) (N : Nat)
    (hfiles : GetFileList w = .ok available)
    (hN : (Update.final w ledger redundancyChecks allowRehash archivedRedundancy
      available).applied.length = N)
    (hpos : 1 ≤ N) :
    (∀ ev ∈ (Update.final w ledger redundancyChecks allowRehash archivedRedundancy
        available).trace,
      ∀ o ∈ (Update.final w ledger redundancyChecks allowRehash archivedRedundancy
        available).applied, o.name ∉ ev.names) ∧
    (cleanDeadReferencesMaxCount = (N : Int) - 1 →
      (Update w ledger redundancyChecks allowRehash archivedRedundancy
        cleanDeadReferencesMaxCount).trace =
        (Update.final w ledger redundancyChecks allowRehash archivedRedundancy
          available).trace ∧
      ∀ o ∈ (Update.final w ledger redundancyChecks allowRehash archivedRedundancy
          available).applied,
        (Update.ledgerAfter w ledger redundancyChecks allowRehash archivedRedundancy
          cleanDeadReferencesMaxCount).filter (fun r => r.name == o.name) =
        ledger.filter (fun r => r.name == o.name)) ∧
    (cleanDeadReferencesMaxCount = (N : Int) ∨ cleanDeadReferencesMaxCount < 0 →
      (Update w ledger redundancyChecks allowRehash archivedRedundancy
        cleanDeadReferencesMaxCount).trace =
        (Update.final w ledger redundancyChecks allowRehash archivedRedundancy
          available).trace ++
        [Event.apply (Stmt.deleteIn
          ((Update.final w ledger redundancyChecks allowRehash archivedRedundancy
            available).applied.map (fun entry => entry.name)))]) ∧
    (Update w ledger redundancyChecks allowRehash archivedRedundancy
        cleanDeadReferencesMaxCount).trace =
      (Update.final w ledger redundancyChecks allowRehash archivedRedundancy
        available).trace ++
      (if cleanDeadReferencesMaxCount < 0 ∨ (N : Int) ≤ cleanDeadReferencesMaxCount then
        [Event.apply (Stmt.deleteIn
          ((Update.final w ledger redundancyChecks allowRehash archivedRedundancy
            available).applied.map (fun entry => entry.name)))]
       else []) := by
  have hne : (Update.final w ledger redundancyChecks allowRehash archivedRedundancy
      available).applied.isEmpty = false := by
    cases hl : (Update.final w ledger redundancyChecks allowRehash archivedRedundancy
      available).applied with
    | nil => rw [hl] at hN; simp at hN; omega
    | cons x xs => rfl
  have hgen : (Update w ledger redundancyChecks allowRehash archivedRedundancy
        cleanDeadReferencesMaxCount).trace =
      (Update.final w ledger redundancyChecks allowRehash archivedRedundancy
        available).trace ++
      (if cleanDeadReferencesMaxCount < 0 ∨ (N : Int) ≤ cleanDeadReferencesMaxCount then
        [Event.apply (Stmt.deleteIn
          ((Update.final w ledger redundancyChecks allowRehash archivedRedundancy
            available).applied.map (fun entry => entry.name)))]
       else []) := by
    simp only [Update, hfiles, Update.orphans, CleanUp, hne, Bool.not_false, if_true,
      Bool.false_eq_true, if_false, hN]
    congr 1
    by_cases hneg : cleanDeadReferencesMaxCount < 0
    · simp [hneg]
    · have hiff : N ≤ cleanDeadReferencesMaxCount.toNat ↔ (N : Int) ≤ cleanDeadReferencesMaxCount := by
        omega
      simp only [hneg, decide_False, Bool.false_or, decide_eq_true_eq, false_or, hiff]
  have hspare : ∀ ev ∈ (Update.final w ledger redundancyChecks allowRehash archivedRedundancy
        available).trace,
      ∀ o ∈ (Update.final w ledger redundancyChecks allowRehash archivedRedundancy
        available).applied, o.name ∉ ev.names := by
    obtain ⟨evs, h1, hc⟩ := Update.loop_names w redundancyChecks allowRehash archivedRedundancy
      available (Update.hashToName w (ReceiveAppliedFiles ledger)) available
      ⟨ReceiveAppliedFiles ledger, 0, []⟩
    simp only [List.nil_append] at h1
    intro ev hev o ho hmem
    rw [Update.final, h1] at hev
    exact hc ev hev o.name hmem o ho rfl
  refine ⟨hspare, ?_, ?_, hgen⟩
  · intro hcap
    have htrace : (Update w ledger redundancyChecks allowRehash archivedRedundancy
        cleanDeadReferencesMaxCount).trace =
        (Update.final w ledger redundancyChecks allowRehash archivedRedundancy
          available).trace := by
      rw [hgen, if_neg (by omega), List.append_nil]
    refine ⟨htrace, fun o ho => ?_⟩
    rw [Update.ledgerAfter, htrace]
    exact runTrace_frame _ ledger o.name (fun ev hev => hspare ev hev o ho)
  · intro hcap
    rw [hgen, if_pos (by omega)]

theorem orphan_cap_enforcement_witness :
    (∀ ev ∈ (Update.final demo demoLedger true false true demoFiles).trace,
      ∀ o ∈ (Update.final demo demoLedger true false true demoFiles).applied,
        o.name ∉ ev.names) ∧
    (((0 : Int) = ((1 : Nat) : Int) - 1) →
      (Update demo demoLedger true false true 0).trace =
        (Update.final demo demoLedger true false true demoFiles).trace ∧
      ∀ o ∈ (Update.final demo demoLedger true false true demoFiles).applied,
        (Update.ledgerAfter demo demoLedger true false true 0).filter
          (fun r => r.name == o.name) =
        demoLedger.filter (fun r => r.name == o.name)) ∧
    (((0 : Int) = ((1 : Nat) : Int)) ∨ (0 : Int) < 0 →
      (Update demo demoLedger true false true 0).trace =
        (Update.final demo demoLedger true false true demoFiles).trace ++
        [Event.apply (Stmt.deleteIn
          ((Update.final demo demoLedger true false true demoFiles).applied.map
            (fun entry => entry.name)))]) ∧
    (Update demo demoLedger true false true 0).trace =
      (Update.final demo demoLedger true false true demoFiles).trace ++
      (if (0 : Int) < 0 ∨ ((1 : Nat) : Int) ≤ 0 then
        [Event.apply (Stmt.deleteIn
          ((Update.final demo demoLedger true false true demoFiles).applied.map
            (fun entry => entry.name)))]
       else []) :=
  orphan_cap_enforcement demo demoLedger true false true 0 demoFiles 1 rfl rfl (by decide)

/-- C10, duplicate filename abort: when two entries of the list of the
discovered `.sql` files (the files the walk meets within the depth bound
under the include roots) have the same filename, `GetFileList` throws an
`UpdateException`, and every pass throws it with no call of `_apply` or of
the executor made; when the filenames of the discovered files are
distinct, `GetFileList` returns a storage, which holds these filenames. -/
theorem duplicate_filename_abort (w : World) :
    (¬ ((discovered w).map filename).Nodup →
      ∃ e, GetFileList w = .error e ∧
        ∀ (ledger : Ledger) (redundancyChecks allowRehash archivedRedundancy : Bool)
          (cleanDeadReferencesMaxCount : Int),
          (Update w ledger redundancyChecks allowRehash archivedRedundancy
            cleanDeadReferencesMaxCount).trace = [] ∧
          (Update w ledger redundancyChecks allowRehash archivedRedundancy
            cleanDeadReferencesMaxCount).result = .error e) ∧
    (((discovered w).map filename).Nodup →
      ∃ available, GetFileList w = .ok available ∧
        available.names.Perm ((discovered w).map filename)) := by
  have hspec := GetFileList_stepSpec w
  simp only [StepSpec, LocaleFileStorage.names, List.map_nil, List.nil_append] at hspec
  refine ⟨fun hdup => ?_, fun hnd => ?_⟩
  · obtain ⟨e, he⟩ := hspec.2 hdup
    refine ⟨e, he, fun ledger rc ar arch cap => ?_⟩
    simp only [Update, he, and_self]
  · obtain ⟨s2, hs2, hperm⟩ := hspec.1 hnd
    exact ⟨s2, hs2, hperm⟩

theorem duplicate_filename_abort_witness :
    (¬ ((discovered doubled).map filename).Nodup ∧
      ∃ e, GetFileList doubled = .error e ∧
        ∀ (ledger : Ledger) (redundancyChecks allowRehash archivedRedundancy : Bool)
          (cleanDeadReferencesMaxCount : Int),
          (Update doubled ledger redundancyChecks allowRehash archivedRedundancy
            cleanDeadReferencesMaxCount).trace = [] ∧
          (Update doubled ledger redundancyChecks allowRehash archivedRedundancy
            cleanDeadReferencesMaxCount).result = .error e) ∧
    (((discovered demo).map filename).Nodup ∧
      ∃ available, GetFileList demo = .ok available ∧
        available.names.Perm ((discovered demo).map filename)) :=
  ⟨⟨by decide, (duplicate_filename_abort doubled).1 (by decide)⟩,
   ⟨by decide, (duplicate_filename_abort demo).2 (by decide)⟩⟩

/-- C11, as it is stated, fails: in `flood` the 2^32 discovered files are
new, every one of them is resolved to APPLY and the executor is called
2^32 times, and the pass returns 0. -/
theorem return_value_wraps :
    (Update flood [] true true true (-1)).result = .ok 0 ∧
    (Update flood [] true true true (-1)).trace.countP Event.isApplyFile = 4294967296 ∧
    ∃ available, GetFileList flood = .ok available ∧
      (Update.passActions flood [] true true true available).count .APPLY = 4294967296 :=
  floodOf_pass 4294967296 true true true (-1)

/-- C11, as the code has it: on every input on which discovery succeeds the
pass returns the number of discovered files it resolves to APPLY, taken
modulo 2^32 because the counter is an unsigned 32 bit number, hence that
number itself when it is below 2^32; the executor is called as many times
as files are resolved to APPLY; a file resolved to another branch leaves
the counter and the number of executor calls as they are; and the number
returned is at most the number of discovered files. -/
theorem return_value_modulo (w : World) (ledger : Ledger)
    (redundancyChecks allowRehash archivedRedundancy : Bool)
    (cleanDeadReferencesMaxCount : Int) (available : LocaleFileStorage)
    (hfiles : GetFileList w = .ok available) :
    (Update w ledger redundancyChecks allowRehash archivedRedundancy
        cleanDeadReferencesMaxCount).result =
      .ok ((Update.passActions w ledger redundancyChecks allowRehash archivedRedundancy
        available).count .APPLY % 4294967296) ∧
    ((Update.passActions w ledger redundancyChecks allowRehash archivedRedundancy
        available).count .APPLY < 4294967296 →
      (Update w ledger redundancyChecks allowRehash archivedRedundancy
        cleanDeadReferencesMaxCount).result =
      .ok ((Update.passActions w ledger redundancyChecks allowRehash archivedRedundancy
        available).count .APPLY)) ∧
    (Update w ledger redundancyChecks allowRehash archivedRedundancy
        cleanDeadReferencesMaxCount).trace.countP Event.isApplyFile =
      (Update.passActions w ledger redundancyChecks allowRehash archivedRedundancy
        available).count .APPLY ∧
    (∀ (st : LoopState) (q : LocaleFileEntry),
      Update.classify w redundancyChecks allowRehash archivedRedundancy available
        (Update.hashToName w (ReceiveAppliedFiles ledger)) st.applied q ≠ .APPLY →
      (Update.body w redundancyChecks allowRehash archivedRedundancy available
        (Update.hashToName w (ReceiveAppliedFiles ledger)) st q).importedUpdates =
        st.importedUpdates ∧
      (Update.body w redundancyChecks allowRehash archivedRedundancy available
        (Update.hashToName w (ReceiveAppliedFiles ledger)) st q).trace.countP Event.isApplyFile =
        st.trace.countP Event.isApplyFile) ∧
    (Update.passActions w ledger redundancyChecks allowRehash archivedRedundancy
        available).count .APPLY % 4294967296 ≤ available.length := by
  obtain ⟨h1, h2, h3⟩ := Update.pass_count w ledger redundancyChecks allowRehash
    archivedRedundancy cleanDeadReferencesMaxCount available hfiles
  refine ⟨h1, fun hlt => ?_, h2, ?_, ?_⟩
  · rw [h1, Nat.mod_eq_of_lt hlt]
  · intro st q hne
    have hp := Update.perform_count w st q
      (Update.classify w redundancyChecks allowRehash archivedRedundancy available
        (Update.hashToName w (ReceiveAppliedFiles ledger)) st.applied q)
    rw [← Update.body_eq_perform] at hp
    simpa [hne] using hp
  · have hle := List.count_le_length Action.APPLY
      (Update.passActions w ledger redundancyChecks allowRehash archivedRedundancy available)
    rw [h3] at hle
    exact Nat.le_trans (Nat.mod_le _ _) hle


theorem return_value_modulo_witness :
    (Update shared sharedLedger true false true 1).result =
      .ok ((Update.passActions shared sharedLedger true false true sharedFiles).count .APPLY
        % 4294967296) ∧
    (Update shared sharedLedger true false true 1).trace.countP Event.isApplyFile =
      (Update.passActions shared sharedLedger true false true sharedFiles).count .APPLY :=
  ⟨(return_value_modulo shared sharedLedger true false true 1 sharedFiles rfl).1,
   (return_value_modulo shared sharedLedger true false true 1 sharedFiles rfl).2.2.1⟩

/-- C12, redundancy checks off: with `redundancyChecks` false, a discovered
file `F` whose filename has a ledger record is skipped: its branch is SKIP,
the body only takes its name out of the pending set, no call of the pass
concerns the file (no executor call, no statement, no state update), and
the body does not depend on the content of the files nor on their digest,
whatever `allowRehash` is; and when every discovered file has a record,
the loop makes no call at all and the pass returns 0. -/
theorem redundancy_off_trusts_known (w : World) (ledger : Ledger)
    (allowRehash archivedRedundancy : Bool)
    (available : LocaleFileStorage) (pre post : List LocaleFileEntry) (F : LocaleFileEntry)
    (e : AppliedFileEntry)
    (hfiles : GetFileList w = .ok available)
    (hsplit : available = pre ++ F :: post)
    (hrecord : (ReceiveAppliedFiles ledger).find (filename F.path) = some e) :
    Update.classify w false allowRehash archivedRedundancy available
      (Update.hashToName w (ReceiveAppliedFiles ledger))
      (Update.before w ledger false allowRehash archivedRedundancy available pre).applied F
      = .SKIP ∧
    Update.onFile w ledger false allowRehash archivedRedundancy available pre F =
      { Update.before w ledger false allowRehash archivedRedundancy available pre with
        applied := (Update.before w ledger false allowRehash archivedRedundancy available
          pre).applied.erase (filename F.path) } ∧
    (∀ (cap : Int) (ev : Event), ev.concerns F = true →
      ev ∉ (Update w ledger false allowRehash archivedRedundancy cap).trace) ∧
    (∀ (content : Path → String) (SHA1 : String → List Nat),
      Update.body { w with content := content, SHA1 := SHA1 } false allowRehash
        archivedRedundancy available (Update.hashToName w (ReceiveAppliedFiles ledger))
        (Update.before w ledger false allowRehash archivedRedundancy available pre) F =
      Update.onFile w ledger false allowRehash archivedRedundancy available pre F) ∧
    ((∀ G ∈ available, (ReceiveAppliedFiles ledger).find (filename G.path) ≠ none) →
      ∀ cap : Int,
        (Update w ledger false allowRehash archivedRedundancy cap).result = .ok 0 ∧
        (Update.final w ledger false allowRehash archivedRedundancy available).trace = []) := by
  obtain ⟨hfind, _⟩ := Update.before_find w ledger false allowRehash archivedRedundancy
    available pre post F hfiles hsplit
  rw [hrecord] at hfind
  have hclass : ∀ w2 : World, Update.classify w2 false allowRehash archivedRedundancy available
      (Update.hashToName w (ReceiveAppliedFiles ledger))
      (Update.before w ledger false allowRehash archivedRedundancy available pre).applied F
      = .SKIP := by
    intro w2
    simp [Update.classify, hfind]
  have hbody : ∀ w2 : World, Update.body w2 false allowRehash archivedRedundancy available
      (Update.hashToName w (ReceiveAppliedFiles ledger))
      (Update.before w ledger false allowRehash archivedRedundancy available pre) F =
      { Update.before w ledger false allowRehash archivedRedundancy available pre with
        applied := (Update.before w ledger false allowRehash archivedRedundancy available
          pre).applied.erase (filename F.path) } := by
    intro w2
    rw [Update.body_eq_perform, hclass w2]
    rfl
  refine ⟨hclass w, hbody w, ?_, ?_, ?_⟩
  · intro cap ev hev
    exact Update.no_event_concerning w ledger false allowRehash archivedRedundancy cap available
      pre post F hfiles hsplit (by rw [Update.onFile, hbody w]) ev hev
  · intro content SHA1
    rw [hbody, Update.onFile, hbody]
  · intro hknown cap
    have hall : ∀ a ∈ Update.passActions w ledger false allowRehash archivedRedundancy
        available, a = Action.SKIP := by
      intro a ha
      obtain ⟨G, hG, rfl⟩ := Update.passActions_mem w ledger false allowRehash
        archivedRedundancy available hfiles a ha
      cases hG2 : (ReceiveAppliedFiles ledger).find (filename G.path) with
      | none => exact absurd hG2 (hknown G hG)
      | some eG => simp [Update.classify, hG2]
    have hcount : (Update.passActions w ledger false allowRehash archivedRedundancy
        available).count .APPLY = 0 := by
      apply List.count_eq_zero.2
      intro hmem
      have := hall _ hmem
      cases this
    obtain ⟨h1, _, _⟩ := Update.pass_count w ledger false allowRehash archivedRedundancy cap
      available hfiles
    rw [hcount] at h1
    refine ⟨h1, ?_⟩
    apply List.eq_nil_iff_forall_not_mem.2
    intro ev hev
    obtain ⟨evs, h2, hc⟩ := Update.loop_trace w false allowRehash archivedRedundancy available
      (Update.hashToName w (ReceiveAppliedFiles ledger)) available
      ⟨ReceiveAppliedFiles ledger, 0, []⟩
    simp only [List.nil_append] at h2
    have hev2 := hev
    rw [Update.final, h2] at hev2
    obtain ⟨G, hG, hconc⟩ := hc ev hev2
    obtain ⟨pre2, post2, hsplit2⟩ := List.append_of_mem hG
    obtain ⟨hfind2, _⟩ := Update.before_find w ledger false allowRehash archivedRedundancy
      available pre2 post2 G hfiles hsplit2
    have hbody2 : (Update.onFile w ledger false allowRehash archivedRedundancy available pre2
        G).trace =
        (Update.before w ledger false allowRehash archivedRedundancy available pre2).trace := by
      rw [Update.onFile, Update.body_eq_perform]
      cases hG2 : (ReceiveAppliedFiles ledger).find (filename G.path) with
      | none => exact absurd hG2 (hknown G hG)
      | some eG =>
        rw [hG2] at hfind2
        simp [Update.classify, hfind2, Update.perform]
    have hnot := Update.no_event_concerning w ledger false allowRehash archivedRedundancy cap
      available pre2 post2 G hfiles hsplit2 hbody2 ev hconc
    apply hnot
    simp only [Update, hfiles]
    exact List.mem_append_left _ hev

theorem redundancy_off_trusts_known_witness :
    Update.classify demo false true true demoFiles
      (Update.hashToName demo (ReceiveAppliedFiles knownLedger))
      (Update.before demo knownLedger false true true demoFiles [demoA, demoB]).applied demoC
      = .SKIP ∧
    (Update demo knownLedger false true true (-1)).result = .ok 0 ∧
    (Update.final demo knownLedger false true true demoFiles).trace = [] :=
  ⟨(redundancy_off_trusts_known demo knownLedger true true demoFiles [demoA, demoB]
      [demoD, demoE] demoC ⟨"c.sql", CalculateHash demo "CREATE TABLE c (id INT);", ACTIVE, 0⟩
      rfl rfl rfl).1,
   (redundancy_off_trusts_known demo knownLedger true true demoFiles [demoA, demoB]
      [demoD, demoE] demoC ⟨"c.sql", CalculateHash demo "CREATE TABLE c (id INT);", ACTIVE, 0⟩
      rfl rfl rfl).2.2.2.2 (by decide) (-1)⟩

/-- C13, REHASH: for a discovered file `F` whose filename has a ledger
record with an empty hash, when `redundancyChecks` is true, the archived
skip does not apply and `allowRehash` is true, the branch is REHASH: the
body issues the one upsert of the name with the computed hash, the
discovered state and speed 0, leaves the counter as it is and takes the
name out of the pending set; in the whole pass the calls for `F` are this
one upsert, so the executor is not called on the file; this holds whatever
the content of the file is. -/
theorem rehash_upserts_without_apply (w : World) (ledger : Ledger)
    (redundancyChecks allowRehash archivedRedundancy : Bool)
    (available : LocaleFileStorage) (pre post : List LocaleFileEntry) (F : LocaleFileEntry)
    (e : AppliedFileEntry)
    (hfiles : GetFileList w = .ok available)
    (hsplit : available = pre ++ F :: post)
    (hrecord : (ReceiveAppliedFiles ledger).find (filename F.path) = some e)
    (hempty : e.hash = "")
    (hchecks : redundancyChecks = true)
    (hskip : ¬ (archivedRedundancy = false ∧ e.state = ARCHIVED ∧ F.state = ARCHIVED))
    (hrehash : allowRehash = true) :
    Update.classify w redundancyChecks allowRehash archivedRedundancy available
      (Update.hashToName w (ReceiveAppliedFiles ledger))
      (Update.before w ledger redundancyChecks allowRehash archivedRedundancy available
        pre).applied F = .REHASH ∧
    (Update.onFile w ledger redundancyChecks allowRehash archivedRedundancy available pre
        F).trace =
      (Update.before w ledger redundancyChecks allowRehash archivedRedundancy available
        pre).trace ++
      [Event.apply (Stmt.replace (filename F.path) (hashOf w F) F.state 0)] ∧
    (Update.onFile w ledger redundancyChecks allowRehash archivedRedundancy available pre
        F).importedUpdates =
      (Update.before w ledger redundancyChecks allowRehash archivedRedundancy available
        pre).importedUpdates ∧
    (Update.onFile w ledger redundancyChecks allowRehash archivedRedundancy available pre
        F).applied =
      (Update.before w ledger redundancyChecks allowRehash archivedRedundancy available
        pre).applied.erase (filename F.path) ∧
    (∀ (cap : Int) (ev : Event), ev.concerns F = true →
      List.count ev (Update w ledger redundancyChecks allowRehash archivedRedundancy cap).trace =
      List.count ev [Event.apply (Stmt.replace (filename F.path) (hashOf w F) F.state 0)]) ∧
    (∀ cap : Int, Event.applyFile F.path ∉
      (Update w ledger redundancyChecks allowRehash archivedRedundancy cap).trace) := by
  subst hchecks hrehash
  obtain ⟨hfind, _⟩ := Update.before_find w ledger true true archivedRedundancy
    available pre post F hfiles hsplit
  rw [hrecord] at hfind
  have hclass := Update.classify_hashed w true archivedRedundancy available
    (Update.hashToName w (ReceiveAppliedFiles ledger))
    (Update.before w ledger true true archivedRedundancy available pre).applied F e hfind hskip
  simp only [hempty, Bool.true_and, beq_self_eq_true, if_true] at hclass
  have hbody : Update.onFile w ledger true true archivedRedundancy available pre F =
      Update.execute w (Update.before w ledger true true archivedRedundancy available pre) F
        (some e) (hashOf w F) .MODE_REHASH := by
    rw [Update.onFile, Update.body_eq_perform, hclass]
    simp only [Update.perform, hfind]
  have htrace : (Update.onFile w ledger true true archivedRedundancy available pre F).trace =
      (Update.before w ledger true true archivedRedundancy available pre).trace ++
      [Event.apply (Stmt.replace (filename F.path) (hashOf w F) F.state 0)] := by
    rw [hbody]
    simp [Update.execute, UpdateEntry]
  have hcount : ∀ (cap : Int) (ev : Event), ev.concerns F = true →
      List.count ev (Update w ledger true true archivedRedundancy cap).trace =
      List.count ev [Event.apply (Stmt.replace (filename F.path) (hashOf w F) F.state 0)] :=
    fun cap ev hev => Update.count_concerning w ledger true true archivedRedundancy cap
      available pre post F hfiles hsplit ev hev _ htrace
  refine ⟨hclass, htrace, ?_, ?_, hcount, ?_⟩
  · rw [hbody]
    simp [Update.execute]
  · rw [hbody]
    exact Update.execute_applied w _ F (some e) _ _ hfind
  · intro cap
    apply List.count_eq_zero.1
    rw [hcount cap _ (by simp [Event.concerns])]
    simp

theorem rehash_upserts_without_apply_witness :
    Update.classify demo true true true demoFiles
      (Update.hashToName demo (ReceiveAppliedFiles knownLedger))
      (Update.before demo knownLedger true true true demoFiles []).applied demoA = .REHASH ∧
    (Update.onFile demo knownLedger true true true demoFiles [] demoA).trace =
      (Update.before demo knownLedger true true true demoFiles []).trace ++
      [Event.apply (Stmt.replace (filename demoA.path) (hashOf demo demoA) demoA.state 0)] :=
  ⟨(rehash_upserts_without_apply demo knownLedger true true true demoFiles []
      [demoB, demoC, demoD, demoE] demoA ⟨"a.sql", "", ACTIVE, 0⟩ rfl rfl rfl rfl rfl
      (by decide) rfl).1,
   (rehash_upserts_without_apply demo knownLedger true true true demoFiles []
      [demoB, demoC, demoD, demoE] demoA ⟨"a.sql", "", ACTIVE, 0⟩ rfl rfl rfl rfl rfl
      (by decide) rfl).2.1⟩

/-- C14, the archived skip comes first: for a discovered file `F` whose
filename has the ledger record `e`, the branch is the archived skip
exactly when `redundancyChecks` is true, `archivedRedundancyChecks` is
false and the state of the record and the discovered state are both
`ARCHIVED`; the body then only takes the name out of the pending set, no
call of the pass concerns the file, and the body does not depend on the
content of the files nor on their digest, whatever the stored hash and
`allowRehash` are; when `redundancyChecks` is true and the skip is not
taken, the branch goes by the hash of the file. -/
theorem archived_skip_comes_first (w : World) (ledger : Ledger)
    (redundancyChecks allowRehash archivedRedundancy : Bool)
    (available : LocaleFileStorage) (pre post : List LocaleFileEntry) (F : LocaleFileEntry)
    (e : AppliedFileEntry)
    (hfiles : GetFileList w = .ok available)
    (hsplit : available = pre ++ F :: post)
    (hrecord : (ReceiveAppliedFiles ledger).find (filename F.path) = some e) :
    (Update.classify w redundancyChecks allowRehash archivedRedundancy available
        (Update.hashToName w (ReceiveAppliedFiles ledger))
        (Update.before w ledger redundancyChecks allowRehash archivedRedundancy available
          pre).applied F = .SKIP_ARCHIVED ↔
      redundancyChecks = true ∧ archivedRedundancy = false ∧ e.state = ARCHIVED ∧
        F.state = ARCHIVED) ∧
    (redundancyChecks = true ∧ archivedRedundancy = false ∧ e.state = ARCHIVED ∧
        F.state = ARCHIVED →
      Update.onFile w ledger redundancyChecks allowRehash archivedRedundancy available pre F =
        { Update.before w ledger redundancyChecks allowRehash archivedRedundancy available pre
          with
          applied := (Update.before w ledger redundancyChecks allowRehash archivedRedundancy
            available pre).applied.erase (filename F.path) } ∧
      (∀ (cap : Int) (ev : Event), ev.concerns F = true →
        ev ∉ (Update w ledger redundancyChecks allowRehash archivedRedundancy cap).trace) ∧
      (∀ (content : Path → String) (SHA1 : String → List Nat),
        Update.body { w with content := content, SHA1 := SHA1 } redundancyChecks allowRehash
          archivedRedundancy available (Update.hashToName w (ReceiveAppliedFiles ledger))
          (Update.before w ledger redundancyChecks allowRehash archivedRedundancy available
            pre) F =
        Update.onFile w ledger redundancyChecks allowRehash archivedRedundancy available pre
          F)) ∧
    (redundancyChecks = true →
      ¬ (archivedRedundancy = false ∧ e.state = ARCHIVED ∧ F.state = ARCHIVED) →
      Update.classify w redundancyChecks allowRehash archivedRedundancy available
        (Update.hashToName w (ReceiveAppliedFiles ledger))
        (Update.before w ledger redundancyChecks allowRehash archivedRedundancy available
          pre).applied F =
        if allowRehash && e.hash == "" then .REHASH
        else if e.hash != hashOf w F then .APPLY
        else .MATCH) := by
  obtain ⟨hfind, _⟩ := Update.before_find w ledger redundancyChecks allowRehash
    archivedRedundancy available pre post F hfiles hsplit
  rw [hrecord] at hfind
  refine ⟨?_, ?_, ?_⟩
  · constructor
    · intro hclass
      cases redundancyChecks
      · simp [Update.classify, hfind] at hclass
      · by_cases hskip : archivedRedundancy = false ∧ e.state = ARCHIVED ∧ F.state = ARCHIVED
        · exact ⟨rfl, hskip⟩
        · rw [Update.classify_hashed w allowRehash archivedRedundancy available _ _ F e hfind
            hskip] at hclass
          split at hclass
          · cases hclass
          · split at hclass <;> cases hclass
    · rintro ⟨rfl, rfl, h1, h2⟩
      simp [Update.classify, hfind, h1, h2]
  · rintro ⟨rfl, rfl, h1, h2⟩
    have hclass : ∀ w2 : World, Update.classify w2 true allowRehash false available
        (Update.hashToName w (ReceiveAppliedFiles ledger))
        (Update.before w ledger true allowRehash false available pre).applied F
        = .SKIP_ARCHIVED := by
      intro w2
      simp [Update.classify, hfind, h1, h2]
    have hbody : ∀ w2 : World, Update.body w2 true allowRehash false available
        (Update.hashToName w (ReceiveAppliedFiles ledger))
        (Update.before w ledger true allowRehash false available pre) F =
        { Update.before w ledger true allowRehash false available pre with
          applied := (Update.before w ledger true allowRehash false available
            pre).applied.erase (filename F.path) } := by
      intro w2
      rw [Update.body_eq_perform, hclass w2]
      rfl
    refine ⟨hbody w, ?_, ?_⟩
    · intro cap ev hev
      exact Update.no_event_concerning w ledger true allowRehash false cap available
        pre post F hfiles hsplit (by rw [Update.onFile, hbody w]) ev hev
    · intro content SHA1
      rw [hbody, Update.onFile, hbody]
  · rintro rfl hskip
    exact Update.classify_hashed w allowRehash archivedRedundancy available _ _ F e hfind hskip

theorem archived_skip_comes_first_witness :
    Update.classify demo true true false demoFiles
      (Update.hashToName demo (ReceiveAppliedFiles knownLedger))
      (Update.before demo knownLedger true true false demoFiles
        [demoA, demoB, demoC]).applied demoD = .SKIP_ARCHIVED ∧
    Update.onFile demo knownLedger true true false demoFiles [demoA, demoB, demoC] demoD =
      { Update.before demo knownLedger true true false demoFiles [demoA, demoB, demoC] with
        applied := (Update.before demo knownLedger true true false demoFiles
          [demoA, demoB, demoC]).applied.erase (filename demoD.path) } :=
  ⟨(archived_skip_comes_first demo knownLedger true true false demoFiles
      [demoA, demoB, demoC] [demoE] demoD ⟨"d.sql", "", ARCHIVED, 0⟩ rfl rfl rfl).1.2
      ⟨rfl, rfl, rfl, rfl⟩,
   ((archived_skip_comes_first demo knownLedger true true false demoFiles
      [demoA, demoB, demoC] [demoE] demoD ⟨"d.sql", "", ARCHIVED, 0⟩ rfl rfl rfl).2.1
      ⟨rfl, rfl, rfl, rfl⟩).1⟩

/-- C15, the orphan set is a set difference: when the loop over the
discovered files ends, the pending set holds the records the pass read
from the ledger whose name is neither a discovered filename nor an old name
consumed by a rename, so its names are the names of the ledger minus the
discovered filenames minus the old names of the renames; in the branches
skip, archived skip, hash match, REHASH and APPLY the body takes the name
of the file out of the pending set; no record named as a discovered file
is pending when the loop ends, and no batched delete of the pass names a
discovered file. -/
theorem pending_is_set_difference (w : World) (ledger : Ledger)
    (redundancyChecks allowRehash archivedRedundancy : Bool)
    (available : LocaleFileStorage)
    (hfiles : GetFileList w = .ok available) :
    (Update.final w ledger redundancyChecks allowRehash archivedRedundancy available).applied =
      (ReceiveAppliedFiles ledger).filter (fun e =>
        !available.names.contains e.name &&
        !(renamedNames (Update.passActions w ledger redundancyChecks allowRehash
          archivedRedundancy available)).contains e.name) ∧
    (∀ n : String,
      n ∈ (Update.final w ledger redundancyChecks allowRehash archivedRedundancy
        available).applied.map (fun e => e.name) ↔
      n ∈ ledger.map (fun r => r.name) ∧ n ∉ available.names ∧
        n ∉ renamedNames (Update.passActions w ledger redundancyChecks allowRehash
          archivedRedundancy available)) ∧
    (∀ (st : LoopState) (q : LocaleFileEntry),
      ∀ a ∈ [Action.SKIP, Action.SKIP_ARCHIVED, Action.MATCH, Action.REHASH, Action.APPLY],
        (Update.perform w st q a).applied = st.applied.erase (filename q.path)) ∧
    (∀ F ∈ available,
      ∀ e ∈ (Update.final w ledger redundancyChecks allowRehash archivedRedundancy
        available).applied, e.name ≠ filename F.path) ∧
    (∀ (cap : Int) (names : List String),
      Event.apply (Stmt.deleteIn names) ∈
        (Update w ledger redundancyChecks allowRehash archivedRedundancy cap).trace →
      ∀ F ∈ available, filename F.path ∉ names) := by
  have heq : (Update.final w ledger redundancyChecks allowRehash archivedRedundancy
      available).applied =
      (ReceiveAppliedFiles ledger).filter (fun e =>
        !available.names.contains e.name &&
        !(renamedNames (Update.passActions w ledger redundancyChecks allowRehash
          archivedRedundancy available)).contains e.name) :=
    Update.loop_applied_filter w redundancyChecks allowRehash archivedRedundancy available
      (Update.hashToName w (ReceiveAppliedFiles ledger)) available
      ⟨ReceiveAppliedFiles ledger, 0, []⟩
  have hfinal : ∀ F ∈ available,
      ∀ e ∈ (Update.final w ledger redundancyChecks allowRehash archivedRedundancy
        available).applied, e.name ≠ filename F.path := fun F hF e he =>
    Update.loop_not_mem w _ _ _ available _ available _ F hF e he
  refine ⟨heq, ?_, ?_, hfinal, ?_⟩
  · intro n
    rw [heq, ← ReceiveAppliedFiles_names ledger n]
    simp only [List.mem_map, List.mem_filter, Bool.and_eq_true, Bool.not_eq_true',
      List.contains_eq_any_beq, List.any_eq_false, beq_iff_eq]
    constructor
    · rintro ⟨e, ⟨he, h1, h2⟩, rfl⟩
      exact ⟨⟨e, he, rfl⟩, fun hmem => h1 _ hmem rfl, fun hmem => h2 _ hmem rfl⟩
    · rintro ⟨⟨e, he, rfl⟩, h1, h2⟩
      exact ⟨e, ⟨he, fun x hx heq2 => h1 (heq2 ▸ hx), fun x hx heq2 => h2 (heq2 ▸ hx)⟩, rfl⟩
  · intro st q a ha
    simp only [List.mem_cons, List.mem_singleton, List.not_mem_nil, or_false] at ha
    rcases ha with rfl | rfl | rfl | rfl | rfl
    · rfl
    · rfl
    · rfl
    · exact Update.execute_applied w st q _ _ _ rfl
    · exact Update.execute_applied w st q _ _ _ rfl
  · intro cap names hmem F hF hin
    simp only [Update, hfiles, List.mem_append] at hmem
    rcases hmem with hmem | hmem
    · exact Update.final_no_deleteIn w ledger _ _ _ available names hmem
    · simp only [Update.orphans, CleanUp] at hmem
      split at hmem
      · split at hmem
        · split at hmem
          · cases hmem
          · simp only [List.mem_singleton, Event.apply.injEq, Stmt.deleteIn.injEq] at hmem
            subst hmem
            obtain ⟨e, he, hname⟩ := List.mem_map.1 hin
            exact hfinal F hF e he hname
        · cases hmem
      · cases hmem

theorem pending_is_set_difference_witness :
    (Update.final shared sharedLedger true false true sharedFiles).applied =
      (ReceiveAppliedFiles sharedLedger).filter (fun e =>
        !sharedFiles.names.contains e.name &&
        !(renamedNames (Update.passActions shared sharedLedger true false true
          sharedFiles)).contains e.name) :=
  (pending_is_set_difference shared sharedLedger true false true sharedFiles rfl).1

/-- C16, discovery is filtered by the extension and bounded in depth: the
walk of an include root from depth 1 on never runs out of levels (with more
levels it returns the same), so `FillFileListRecursively` returns; the
files it lists are the entries that are not directories, have the
extension `.sql` and lie in the root or in a directory nested at most 9
levels below it; and when no filename collides, it returns the storage
with these files added, each once and with the state of the root, and
with nothing else added. -/
theorem discovery_filtered_bounded (w : World) (root : Path) (state : State)
    (storage : LocaleFileStorage) :
    (∀ extra : Nat,
      FillFileListRecursively.walk w state (MAX_DEPTH - 1 + 1 + extra) root storage 1 =
        FillFileListRecursively w root storage state 1) ∧
    (∀ f : Path, f ∈ discoveredIn w root 1 ↔
      ∃ k sub, k ≤ 9 ∧ Nested w k root sub ∧ f ∈ w.entries sub ∧
        w.is_directory f = false ∧ extension f = ".sql") ∧
    (storage.names.Nodup →
      (storage.names ++ (discoveredIn w root 1).map filename).Nodup →
      ∃ s2, FillFileListRecursively w root storage state 1 = .ok s2 ∧
        List.Perm s2 (storage ++ (discoveredIn w root 1).map (fun p => ⟨p, state⟩)) ∧
        ∀ x ∈ s2, x ∈ storage ∨
          (x.state = state ∧ ∃ k sub, k ≤ 9 ∧ Nested w k root sub ∧ x.path ∈ w.entries sub ∧
            w.is_directory x.path = false ∧ extension x.path = ".sql")) := by
  have hmem : ∀ f : Path, f ∈ discoveredIn w root 1 ↔
      ∃ k sub, k ≤ 9 ∧ Nested w k root sub ∧ f ∈ w.entries sub ∧
        w.is_directory f = false ∧ extension f = ".sql" := by
    intro f
    rw [discoveredIn, mem_discoveredIn_walk]
    constructor
    · rintro ⟨k, sub, hk, hb, hrest⟩
      refine ⟨k, sub, ?_, hrest⟩
      simp only [MAX_DEPTH] at hk
      omega
    · rintro ⟨k, sub, hk, hrest⟩
      refine ⟨k, sub, ?_, ?_, hrest⟩
      · simp only [MAX_DEPTH]
        omega
      · simp only [MAX_DEPTH]
        omega
  refine ⟨?_, hmem, ?_⟩
  · intro extra
    have h := walk_fuel w state (MAX_DEPTH - 1 + extra) 1 root storage (by omega)
    rw [FillFileListRecursively, ← h]
    congr 1
    omega
  · intro hs hnd
    have hspec := walk_stepEntries w state (MAX_DEPTH - 1 + 1) root storage 1 hs
    have hnd2 : (storage.names ++ LocaleFileStorage.names
        ((discoveredIn.walk w (MAX_DEPTH - 1 + 1) root 1).map
          (fun p => (⟨p, state⟩ : LocaleFileEntry)))).Nodup := by
      simpa [LocaleFileStorage.names, discoveredIn, List.map_map, Function.comp] using hnd
    obtain ⟨s2, hs2, hperm⟩ := hspec.1 hnd2
    refine ⟨s2, hs2, hperm, ?_⟩
    intro x hx
    rcases List.mem_append.1 (hperm.mem_iff.1 hx) with h | h
    · exact Or.inl h
    · right
      obtain ⟨p, hp, rfl⟩ := List.mem_map.1 h
      exact ⟨rfl, (hmem p).1 hp⟩

theorem discovery_filtered_bounded_witness :
    (∃ s2, FillFileListRecursively demo "/src/sql" [] ACTIVE 1 = .ok s2 ∧
      List.Perm s2 ([] ++ (discoveredIn demo "/src/sql" 1).map (fun p => ⟨p, ACTIVE⟩)) ∧
      ∀ x ∈ s2, x ∈ ([] : LocaleFileStorage) ∨
        (x.state = ACTIVE ∧ ∃ k sub, k ≤ 9 ∧ Nested demo k "/src/sql" sub ∧
          x.path ∈ demo.entries sub ∧
          demo.is_directory x.path = false ∧ extension x.path = ".sql")) ∧
    (discoveredIn demo "/src/sql" 1 =
      ["/src/sql/a.sql", "/src/sql/b.sql", "/src/sql/sub/c.sql"]) ∧
    (∃ s2, FillFileListRecursively deep "/r" [] ACTIVE 1 = .ok s2 ∧
      List.Perm s2 ([] ++ (discoveredIn deep "/r" 1).map (fun p => ⟨p, ACTIVE⟩)) ∧
      ∀ x ∈ s2, x ∈ ([] : LocaleFileStorage) ∨
        (x.state = ACTIVE ∧ ∃ k sub, k ≤ 9 ∧ Nested deep k "/r" sub ∧
          x.path ∈ deep.entries sub ∧
          deep.is_directory x.path = false ∧ extension x.path = ".sql")) ∧
    (discoveredIn deep "/r" 1).length = 10 :=
  ⟨(discovery_filtered_bounded demo "/src/sql" ACTIVE []).2.2 (by decide) (by decide),
   by decide,
   (discovery_filtered_bounded deep "/r" ACTIVE []).2.2 (by decide) (by decide),
   by decide⟩

/-- C17, the batching of `CleanUp`: on the empty storage `CleanUp` hands
nothing to `_apply`; on a storage that is not empty it hands over one
statement, the batched delete, whose text is
`DELETE FROM updates WHERE name IN(...)` with the table and the column in
backticks and, between the brackets, the names of the records in the order
of the storage, each once and in double quotes, separated by a comma and a
blank, with no separator after the last. -/
theorem cleanup_batches (storage : AppliedFileStorage) :
    (CleanUp.sql [] = [] ∧ CleanUp [] = []) ∧
    (storage ≠ [] →
      CleanUp.sql storage =
        ["DELETE FROM `updates` WHERE `name` IN(" ++
          String.intercalate ", " (storage.map (fun entry => quoted entry.name)) ++ ")"] ∧
      CleanUp storage = [Event.apply (Stmt.deleteIn (storage.map (fun entry => entry.name)))]) := by
  refine ⟨⟨rfl, rfl⟩, fun hne => ?_⟩
  have hemp : storage.isEmpty = false := by
    cases storage with
    | nil => exact absurd rfl hne
    | cons x xs => rfl
  refine ⟨?_, by simp [CleanUp, hemp]⟩
  simp only [CleanUp.sql, hemp, Bool.false_eq_true, if_false, CleanUp.update]
  rw [CleanUp.loop_eq]

theorem cleanup_batches_witness :
    CleanUp.sql twoOrphans =
      ["DELETE FROM `updates` WHERE `name` IN(\"x.sql\", \"y.sql\")"] ∧
    CleanUp twoOrphans = [Event.apply (Stmt.deleteIn ["x.sql", "y.sql"])] :=
  (cleanup_batches twoOrphans).2 (by decide)

/-- C18, the include directories: `ReceiveIncludedDirectories` returns, in
the order of the rows of `updates_include`, the rows whose resolved path is
a directory, each with its resolved path and its state, where the resolved
path is the source directory followed by the path without its first
character when the path starts with `$` and the path itself otherwise; the
other rows are left out, no exception is thrown, and no row gives the
empty list. -/
theorem include_directories (w : World) :
    ReceiveIncludedDirectories w = includedDirectories w ∧
    (w.includeRows = [] → ReceiveIncludedDirectories w = []) ∧
    (∀ d ∈ ReceiveIncludedDirectories w, w.is_directory d.path = true) := by
  have heq : ReceiveIncludedDirectories w = includedDirectories w := by
    simp only [ReceiveIncludedDirectories, includedDirectories]
    have h := foldl_filterMap (fun row : String × State =>
      if w.is_directory (resolvedPath w row.1) then
        some (⟨resolvedPath w row.1, row.2⟩ : DirectoryEntry) else none) w.includeRows []
    rw [List.nil_append] at h
    rw [← h]
    congr 1
    funext directories fields
    rw [resolvedPath_eq]
    cases w.is_directory (resolvedPath w fields.1) <;> simp
  refine ⟨heq, ?_, ?_⟩
  · intro hrows
    rw [heq, includedDirectories, hrows]
    rfl
  · intro d hd
    rw [heq] at hd
    simp only [includedDirectories, List.mem_filterMap] at hd
    obtain ⟨row, _, hrow⟩ := hd
    split at hrow
    · rename_i hdir
      cases hrow
      exact hdir
    · cases hrow

theorem include_directories_witness :
    includedDirectories demo = [⟨"/src/sql", ACTIVE⟩, ⟨"/old", ARCHIVED⟩] ∧
    ReceiveIncludedDirectories demo = includedDirectories demo :=
  ⟨by decide, (include_directories demo).1⟩

/-- C19, an empty stored hash without rehash permission forces the
execution: the hash `CalculateHash` computes is forty upper case
hexadecimal digits and so never the empty string; hence a discovered file
`F` whose ledger record has an empty hash, when `redundancyChecks` is
true, the archived skip does not apply and `allowRehash` is false, is in
the branch APPLY, not in the branch of a hash match: the executor is
called on it, its record is upserted with the computed hash and the
counter is incremented. -/
theorem empty_hash_without_rehash_is_apply (w : World) (ledger : Ledger)
    (redundancyChecks allowRehash archivedRedundancy : Bool)
    (available : LocaleFileStorage) (pre post : List LocaleFileEntry) (F : LocaleFileEntry)
    (e : AppliedFileEntry)
    (hfiles : GetFileList w = .ok available)
    (hsplit : available = pre ++ F :: post)
    (hrecord : (ReceiveAppliedFiles ledger).find (filename F.path) = some e)
    (hempty : e.hash = "")
    (hchecks : redundancyChecks = true)
    (hskip : ¬ (archivedRedundancy = false ∧ e.state = ARCHIVED ∧ F.state = ARCHIVED))
    (hnorehash : allowRehash = false) :
    (∀ query : String, (CalculateHash w query).length = 40 ∧ CalculateHash w query ≠ "" ∧
      ∀ c ∈ (CalculateHash w query).data, c ∈ "0123456789ABCDEF".data) ∧
    Update.classify w redundancyChecks allowRehash archivedRedundancy available
      (Update.hashToName w (ReceiveAppliedFiles ledger))
      (Update.before w ledger redundancyChecks allowRehash archivedRedundancy available
        pre).applied F = .APPLY ∧
    IsApply w ledger redundancyChecks allowRehash archivedRedundancy available pre F := by
  subst hchecks hnorehash
  refine ⟨CalculateHash_shape w, ?_⟩
  apply changed_isApply w ledger false archivedRedundancy available pre post F e hfiles hsplit
    hrecord hskip (by simp)
  rw [hempty]
  exact fun h => (CalculateHash_shape w (ReadSQLUpdate w F.path)).2.1 h.symm

theorem empty_hash_without_rehash_is_apply_witness :
    Update.classify demo true false true demoFiles
      (Update.hashToName demo (ReceiveAppliedFiles knownLedger))
      (Update.before demo knownLedger true false true demoFiles []).applied demoA = .APPLY ∧
    IsApply demo knownLedger true false true demoFiles [] demoA :=
  (empty_hash_without_rehash_is_apply demo knownLedger true false true demoFiles []
    [demoB, demoC, demoD, demoE] demoA ⟨"a.sql", "", ACTIVE, 0⟩ rfl rfl rfl rfl rfl
    (by decide) rfl).2

end UpdateFetcher
